import Mathlib

/-!
# Spreadsheet core: sheet, cells, cycle check

A shallow embedding of `cell.h`, `cell.cpp`, `sheet.cpp` and `formula.cpp`.

* Cells live on the heap and are owned by the sheet's map; a cell's address is a
  natural number handed out by a counter, never reused.  `dependent_cells_`
  (a `std::set<Cell*>`) is a list of addresses.
* A raw pointer is live exactly when a cell with that address is stored in the
  map.  Dereferencing a null or a dead pointer is the outcome `Outcome.ub`.
* C++ exceptions are the outcome `Outcome.raised`, which carries the sheet as
  the exception leaves it.
* `common.h`, `sheet.h`, `FormulaAST.h` are not part of the sources: positions,
  the AST and its evaluation are modelled from the specification, and the
  parser, the printer and `std::stod` are parameters (`Env`).
* `std::stod` can throw; `Cell::TextImpl::GetValue` does not catch that, and
  `Formula::Evaluate` turns every exception that is not a `FormulaError` into
  a `FormulaException`.
-/

namespace Spreadsheet

/-! ## Positions -/

/-- Modelled from the spec: `Position` of `common.h`, a pair of `int` coordinates. -/
structure Position where
  row : Int
  col : Int
deriving DecidableEq, Repr

/-- Modelled from the spec: `Position::MAX_ROWS` of `common.h`. -/
def Position.MAX_ROWS : Int := 16384

/-- Modelled from the spec: `Position::MAX_COLS` of `common.h`. -/
def Position.MAX_COLS : Int := 16384

/-- Modelled from the spec: `Position::IsValid` of `common.h`, both coordinates in range. -/
def Position.IsValid (p : Position) : Bool :=
  decide (0 ≤ p.row) && decide (0 ≤ p.col) &&
    decide (p.row < Position.MAX_ROWS) && decide (p.col < Position.MAX_COLS)

/-- Modelled from the spec: `Position::operator<` of `common.h`, row-major order. -/
def Position.lt (a b : Position) : Bool :=
  decide (a.row < b.row) || (decide (a.row = b.row) && decide (a.col < b.col))

/-! ## Values and the formula AST -/

/-- The categories of `FormulaError` (`formula.cpp`, `FormulaError::ToString`). -/
inductive Category where
  | Ref
  | Value
  | Arithmetic
deriving DecidableEq, Repr

/-- A `FormulaError` value. -/
structure FormulaError where
  category_ : Category
deriving DecidableEq, Repr

/-- `FormulaError::ToString`. -/
def FormulaError.ToString (fe : FormulaError) : String :=
  match fe.category_ with
  | Category.Arithmetic => "ARITHM"
  | Category.Ref => "REF"
  | Category.Value => "VALUE"

/-- `operator<<(std::ostream&, FormulaError)`: the text written to the stream. -/
def FormulaError.print (fe : FormulaError) : String :=
  "#" ++ fe.ToString ++ "!"

/-- `CellInterface::Value`, a variant of string, double and `FormulaError`.
Doubles are modelled by exact rationals. -/
inductive Value where
  | text (s : String)
  | number (x : Rat)
  | error (e : FormulaError)
deriving DecidableEq, Repr

/-- Binary operators of the expression language. -/
inductive Op where
  | add
  | sub
  | mul
  | div
deriving DecidableEq, Repr

/-- Modelled from the spec: the AST of `FormulaAST.h` (§4.2: `Num`, `Ref`,
`UnaryMinus`, `UnaryPlus`, `Binop`). -/
inductive AST where
  | Num (x : Rat)
  | Ref (p : Position)
  | UnaryMinus (child : AST)
  | UnaryPlus (child : AST)
  | Binop (op : Op) (left right : AST)
deriving DecidableEq, Repr

/-- Every position occurring in the AST, in order of occurrence. -/
def AST.cells : AST → List Position
  | AST.Num _ => []
  | AST.Ref p => [p]
  | AST.UnaryMinus c => c.cells
  | AST.UnaryPlus c => c.cells
  | AST.Binop _ l r => l.cells ++ r.cells

/-- Insertion into a row-major sorted list without duplicates. -/
def insertPos (p : Position) : List Position → List Position
  | [] => [p]
  | q :: qs =>
    if p = q then q :: qs
    else if p.lt q then p :: q :: qs
    else q :: insertPos p qs

/-- Modelled from the spec: `FormulaAST::GetReferencedCells`, the de-duplicated
positions of the AST sorted row-major. -/
def AST.GetReferencedCells (a : AST) : List Position :=
  a.cells.foldr insertPos []

/-- The parts of the program that are not in the sources, as parameters:
`ParseFormulaAST` (`none` is a parse failure), `FormulaAST::PrintFormula`,
and `std::stod` (the parsed number and the count of characters consumed;
`none` where `std::stod` throws: `std::invalid_argument` for a text that no
number starts, `std::out_of_range` for a number outside the range of
`double`). -/
structure Env where
  ParseFormulaAST : String → Option AST
  PrintFormula : AST → String
  stod : String → Option (Rat × Nat)

/-! ## Cells and the sheet -/

/-- `Cell::Impl` with its three subclasses. `FormulaImpl` keeps the text it was
built from, the parsed formula and the cache. -/
inductive Impl where
  | EmptyImpl
  | TextImpl (text_ : String)
  | FormulaImpl (text_ : String) (formula_ : AST) (cache_ : Option Value)
deriving DecidableEq, Repr

/-- `Cell::Type`. -/
inductive CellType where
  | EMPTY
  | TEXT
  | FORMULA
deriving DecidableEq, Repr

/-- A `Cell` object: its address, its implementation and the set of
pointers to dependent cells. -/
structure Cell where
  addr : Nat
  impl_ : Impl
  dependent_cells_ : List Nat
deriving DecidableEq, Repr

/-- The field `type_`, always set together with `impl_` by the constructor. -/
def Cell.type_ (c : Cell) : CellType :=
  match c.impl_ with
  | Impl.EmptyImpl => CellType.EMPTY
  | Impl.TextImpl _ => CellType.TEXT
  | Impl.FormulaImpl _ _ _ => CellType.FORMULA

/-- `Impl::GetText` in its three overrides; `FormulaImpl::GetText` is
`FORMULA_SIGN + formula_->GetExpression()`. -/
def Impl.GetText (E : Env) : Impl → String
  | Impl.EmptyImpl => ""
  | Impl.TextImpl t => t
  | Impl.FormulaImpl _ f _ => "=" ++ E.PrintFormula f

/-- `Cell::GetText`. -/
def Cell.GetText (E : Env) (c : Cell) : String := c.impl_.GetText E

/-- `Cell::GetReferencedCells`. -/
def Cell.GetReferencedCells (c : Cell) : List Position :=
  match c.impl_ with
  | Impl.FormulaImpl _ f _ => f.GetReferencedCells
  | _ => []

/-- `Cell::GetDependentCells`. -/
def Cell.GetDependentCells (c : Cell) : List Nat := c.dependent_cells_

/-- `Cell::SetDependentCells`. -/
def Cell.SetDependentCells (c : Cell) (cells : List Nat) : Cell :=
  { c with dependent_cells_ := cells }

/-- The map `sheet_`: each mapped position holds a `unique_ptr`, which is
either null (`none`) or owns a cell. -/
abbrev CellMap := List (Position × Option Cell)

/-- The `Sheet` object together with the allocator's next free address. -/
structure Sheet where
  sheet_ : CellMap
  next : Nat
deriving DecidableEq, Repr

/-- The sheet made by `CreateSheet`. -/
def Sheet.empty : Sheet := { sheet_ := [], next := 0 }

/-- `sheet_.find(pos)`: `none` when `pos` is not mapped. -/
def CellMap.find (m : CellMap) (pos : Position) : Option (Option Cell) :=
  match m with
  | [] => none
  | (q, v) :: rest => if q = pos then some v else CellMap.find rest pos

/-- `sheet_[pos] = v`. -/
def CellMap.assign (m : CellMap) (pos : Position) (v : Option Cell) : CellMap :=
  match m with
  | [] => [(pos, v)]
  | (q, w) :: rest =>
    if q = pos then (q, v) :: rest else (q, w) :: CellMap.assign rest pos v

/-- `sheet_.erase(pos)`. -/
def CellMap.erase (m : CellMap) (pos : Position) : CellMap :=
  match m with
  | [] => []
  | (q, w) :: rest =>
    if q = pos then CellMap.erase rest pos else (q, w) :: CellMap.erase rest pos

/-- `sheet_.count(pos)`. -/
def Sheet.count (s : Sheet) (pos : Position) : Bool :=
  (CellMap.find s.sheet_ pos).isSome

/-- The cell a raw pointer points at, `none` when no stored cell has this
address (the pointer dangles). -/
def CellMap.deref (m : CellMap) (a : Nat) : Option Cell :=
  match m with
  | [] => none
  | (_, none) :: rest => CellMap.deref rest a
  | (_, some c) :: rest => if c.addr = a then some c else CellMap.deref rest a

/-- Apply `g` to the stored cell with address `a`. -/
def CellMap.modify (m : CellMap) (a : Nat) (g : Cell → Cell) : CellMap :=
  m.map (fun e => (e.1, e.2.map (fun c => if c.addr = a then g c else c)))

/-! ## Outcomes -/

/-- The exception classes of `common.h` that the sheet throws, and
`std::out_of_range`, which `std::stod` throws inside `Cell::TextImpl::GetValue`
(the text there starts with a digit, so `std::stod` has no other exception). -/
inductive Exception where
  | InvalidPositionException
  | FormulaException
  | CircularDependencyException
  | out_of_range
deriving DecidableEq, Repr

/-- The result of running a member function: normal return, an exception
leaving the sheet in some state, undefined behaviour (null or dangling
dereference), or unbounded recursion. -/
inductive Outcome (α : Type) where
  | ok (a : α) (s : Sheet)
  | raised (e : Exception) (s : Sheet)
  | ub
  | diverge
deriving DecidableEq, Repr

/-- The sheet an outcome leaves behind, when there is one. -/
def Outcome.state {α : Type} : Outcome α → Option Sheet
  | Outcome.ok _ s => some s
  | Outcome.raised _ s => some s
  | Outcome.ub => none
  | Outcome.diverge => none

/-! ## Cache invalidation -/

/-- `Cell::FormulaImpl::InvalidateCache` on the implementation; other
implementations are left alone (`Cell::InvalidateCache` tests `type_`). -/
def Impl.InvalidateCache : Impl → Impl
  | Impl.FormulaImpl t f _ => Impl.FormulaImpl t f none
  | i => i

/-- Result of the recursive invalidation. -/
inductive InvResult where
  | done (m : CellMap)
  | ub
  | diverge
deriving DecidableEq, Repr

/-- `Cell::InvalidateCache` called through the pointer `a`. The first argument
bounds the recursion depth; with more stored cells on one call chain than the
map has entries a cell repeats and the C++ recursion does not end. -/
def InvalidateCache : Nat → CellMap → Nat → InvResult
  | 0, _, _ => InvResult.diverge
  | depth + 1, m, a =>
    match CellMap.deref m a with
    | none => InvResult.ub
    | some c =>
      c.dependent_cells_.foldl
        (fun acc d =>
          match acc with
          | InvResult.done m1 => InvalidateCache depth m1 d
          | r => r)
        (InvResult.done
          (CellMap.modify m a (fun c1 => { c1 with impl_ := c1.impl_.InvalidateCache })))

/-- The depth that is enough for every acyclic dependent relation. -/
def invDepth (m : CellMap) : Nat := m.length + 1

/-! ## The constructor of `Cell` -/

/-- The first part of `Cell::Cell`: choose the implementation from the text. -/
def classify (E : Env) (text : String) : Except Exception Impl :=
  match text.data with
  | [] => Except.ok Impl.EmptyImpl
  | '=' :: [] => Except.ok (Impl.TextImpl text)
  | '=' :: rest =>
    match E.ParseFormulaAST (String.mk rest) with
    | none => Except.error Exception.FormulaException
    | some f => Except.ok (Impl.FormulaImpl (String.mk rest) f none)
  | _ => Except.ok (Impl.TextImpl text)

/-- `sheet_->SetCell(current, "")` as called from the cycle check, where
`current` is valid and holds no cell: a fresh `Empty` cell is stored there. -/
def Sheet.materialize (s : Sheet) (current : Position) : Sheet :=
  { sheet_ := CellMap.assign s.sheet_ current
      (some { addr := s.next, impl_ := Impl.EmptyImpl, dependent_cells_ := [] }),
    next := s.next + 1 }

/-- The `while (!queue.empty())` loop of `Cell::Cell`. The first argument
bounds the number of iterations. -/
def cycleLoop (pos : Position) :
    Nat → Sheet → List Position → List Position → Outcome Unit
  | 0, _, _, _ => Outcome.diverge
  | _ + 1, s, [], _ => Outcome.ok () s
  | fuel + 1, s, current :: queue, predecessors =>
    if current = pos then
      Outcome.raised Exception.CircularDependencyException s
    else if !current.IsValid then
      Outcome.raised Exception.InvalidPositionException s
    else
      match CellMap.find s.sheet_ current with
      | some (some cell) =>
        cycleLoop pos fuel s
          (queue ++ cell.GetReferencedCells.filter (fun x => !(predecessors.contains x)))
          (current :: predecessors)
      | _ =>
        cycleLoop pos fuel (s.materialize current) queue (current :: predecessors)

/-- Weight of a queued position that is not yet among the predecessors, when
`u` listed positions are still unprocessed and no cell has more than `r`
references. -/
def weightNew (r : Nat) : Nat → Nat
  | 0 => 1
  | u + 1 => r * (r * weightNew r u + 1) + 1

/-- Weight of a queued position already among the predecessors. -/
def weightOld (r u : Nat) : Nat := r * weightNew r u + 1

/-- Every position the loop can meet, with repetitions: the starting references
and the references of every stored cell. -/
def positionsOf (s : Sheet) (refs : List Position) : List Position :=
  refs ++ s.sheet_.flatMap (fun e =>
    match e.2 with
    | some c => c.GetReferencedCells
    | none => [])

/-- An iteration bound that is enough for the loop started with queue `refs`. -/
def cycleFuel (s : Sheet) (refs : List Position) : Nat :=
  refs.length * weightNew (positionsOf s refs).length (positionsOf s refs).length + 1

/-- The constructor's result once the cycle check is over: the new cell on
normal completion, the exception of the check otherwise. -/
def withCell (cell : Cell) : Outcome Unit → Outcome Cell
  | Outcome.ok _ s1 => Outcome.ok cell s1
  | Outcome.raised e s1 => Outcome.raised e s1
  | Outcome.ub => Outcome.ub
  | Outcome.diverge => Outcome.diverge

/-- `Cell::Cell(text, sheet, pos)`: the new cell (at a fresh address) and the
sheet after the cycle check, or the exception thrown. -/
def Cell.new (E : Env) (text : String) (s : Sheet) (pos : Position) : Outcome Cell :=
  match classify E text with
  | Except.error e => Outcome.raised e s
  | Except.ok (Impl.FormulaImpl t f ch) =>
    withCell { addr := s.next, impl_ := Impl.FormulaImpl t f ch, dependent_cells_ := [] }
      (cycleLoop pos
        (cycleFuel { sheet_ := s.sheet_, next := s.next + 1 } f.GetReferencedCells)
        { sheet_ := s.sheet_, next := s.next + 1 } f.GetReferencedCells [])
  | Except.ok impl =>
    Outcome.ok { addr := s.next, impl_ := impl, dependent_cells_ := [] }
      { sheet_ := s.sheet_, next := s.next + 1 }

/-! ## The member functions of `Sheet` -/

/-- `std::set<Cell*>::insert`: ordered by address, no duplicates. -/
def insertAddr (a : Nat) : List Nat → List Nat
  | [] => [a]
  | b :: bs =>
    if a = b then b :: bs
    else if a < b then a :: b :: bs
    else b :: insertAddr a bs

/-- `std::set<Cell*>::erase`. -/
def eraseAddr (a : Nat) (l : List Nat) : List Nat :=
  l.filter (fun b => !decide (b = a))

/-- `Sheet::GetCell`: the stored cell, `none` for `nullptr`. -/
def Sheet.GetCell (s : Sheet) (pos : Position) : Outcome (Option Cell) :=
  if !pos.IsValid then
    Outcome.raised Exception.InvalidPositionException s
  else
    match CellMap.find s.sheet_ pos with
    | some (some c) => Outcome.ok (some c) s
    | _ => Outcome.ok none s

/-- `Sheet::GetRawCell`: creates an `Empty` cell when `pos` is not mapped and
returns the pointer held at `pos`, which is null when a null pointer is mapped. -/
def Sheet.GetRawCell (s : Sheet) (pos : Position) : Outcome (Option Cell) :=
  if !pos.IsValid then
    Outcome.raised Exception.InvalidPositionException s
  else
    match CellMap.find s.sheet_ pos with
    | none =>
      let c : Cell := { addr := s.next, impl_ := Impl.EmptyImpl, dependent_cells_ := [] }
      Outcome.ok (some c) (s.materialize pos)
    | some v => Outcome.ok v s

/-- One iteration of the loops over referenced cells in `SetCell` and
`ClearCell`: replace the dependent set of the cell at `pos_` by `upd` of it. -/
def Sheet.updateDependents (upd : List Nat → List Nat) (s : Sheet) (pos_ : Position) :
    Outcome Unit :=
  match s.GetRawCell pos_ with
  | Outcome.ok (some c) s1 =>
    Outcome.ok ()
      { s1 with sheet_ :=
          CellMap.assign s1.sheet_ pos_ (some (c.SetDependentCells (upd c.GetDependentCells))) }
  | Outcome.ok none _ => Outcome.ub
  | Outcome.raised e s1 => Outcome.raised e s1
  | Outcome.ub => Outcome.ub
  | Outcome.diverge => Outcome.diverge

/-- The loop `for (auto pos_ : ...GetReferencedCells())` of `SetCell` and `ClearCell`. -/
def Sheet.updateAll (upd : List Nat → List Nat) : Sheet → List Position → Outcome Unit
  | s, [] => Outcome.ok () s
  | s, pos_ :: rest =>
    match s.updateDependents upd pos_ with
    | Outcome.ok _ s1 => Sheet.updateAll upd s1 rest
    | r => r

/-- The first branch of `Sheet::SetCell` (no cell is stored at `pos`):
build the cell, store it and enter it in the dependent sets of the cells it
references; on a circular dependency erase `pos`. In
`sheet_[pos] = std::make_unique<Cell>(...)` the right operand is evaluated
first (C++17), so an exception of the constructor leaves the map as the
constructor left it. -/
def Sheet.createCell (E : Env) (s : Sheet) (pos : Position) (text : String) : Outcome Unit :=
  match Cell.new E text s pos with
  | Outcome.ok c s1 =>
    Sheet.updateAll (insertAddr c.addr)
      { sheet_ := CellMap.assign s1.sheet_ pos (some c), next := s1.next }
      c.GetReferencedCells
  | Outcome.raised e s1 =>
    if e = Exception.CircularDependencyException then
      Outcome.raised Exception.CircularDependencyException
        { sheet_ := CellMap.erase s1.sheet_ pos, next := s1.next }
    else Outcome.raised e s1
  | Outcome.ub => Outcome.ub
  | Outcome.diverge => Outcome.diverge

/-- The handler `catch (const CircularDependencyException& e)` of the second
branch: a cell built from the old text is stored and the exception is thrown
again. An exception of that construction leaves the handler instead. -/
def Sheet.restoreCell (E : Env) (s : Sheet) (pos : Position) (old_text : String) :
    Outcome Unit :=
  match Cell.new E old_text s pos with
  | Outcome.ok c s1 =>
    Outcome.raised Exception.CircularDependencyException
      { sheet_ := CellMap.assign s1.sheet_ pos (some c), next := s1.next }
  | Outcome.raised e s1 => Outcome.raised e s1
  | Outcome.ub => Outcome.ub
  | Outcome.diverge => Outcome.diverge

/-- The second branch of `Sheet::SetCell` after the comparison of the texts:
invalidate, remember dependents and text, reset the pointer at `pos`, build the
new cell and give it the old dependents. -/
def Sheet.replaceCell (E : Env) (s : Sheet) (pos : Position) (text : String) (old : Cell) :
    Outcome Unit :=
  match InvalidateCache (invDepth s.sheet_) s.sheet_ old.addr with
  | InvResult.ub => Outcome.ub
  | InvResult.diverge => Outcome.diverge
  | InvResult.done m1 =>
    match CellMap.find m1 pos with
    | some (some old1) =>
      match Cell.new E text { sheet_ := CellMap.assign m1 pos none, next := s.next } pos with
      | Outcome.ok c s3 =>
        Outcome.ok ()
          { sheet_ := CellMap.assign s3.sheet_ pos
              (some (c.SetDependentCells old1.GetDependentCells)),
            next := s3.next }
      | Outcome.raised e s3 =>
        if e = Exception.CircularDependencyException then
          Sheet.restoreCell E s3 pos (old1.GetText E)
        else Outcome.raised e s3
      | Outcome.ub => Outcome.ub
      | Outcome.diverge => Outcome.diverge
    | _ => Outcome.ub

/-- `Sheet::SetCell`. -/
def Sheet.SetCell (E : Env) (s : Sheet) (pos : Position) (text : String) : Outcome Unit :=
  if !pos.IsValid then
    Outcome.raised Exception.InvalidPositionException s
  else
    match CellMap.find s.sheet_ pos with
    | some (some old) =>
      if old.GetText E = text then Outcome.ok () s
      else s.replaceCell E pos text old
    | _ => s.createCell E pos text

/-- `Sheet::ClearCell`. -/
def Sheet.ClearCell (s : Sheet) (pos : Position) : Outcome Unit :=
  if !pos.IsValid then
    Outcome.raised Exception.InvalidPositionException s
  else
    match CellMap.find s.sheet_ pos with
    | none => Outcome.ok () s
    | some none => Outcome.ub
    | some (some c) =>
      match InvalidateCache (invDepth s.sheet_) s.sheet_ c.addr with
      | InvResult.ub => Outcome.ub
      | InvResult.diverge => Outcome.diverge
      | InvResult.done m1 =>
        match Sheet.updateAll (eraseAddr c.addr) { sheet_ := m1, next := s.next }
            c.GetReferencedCells with
        | Outcome.ok _ s2 => Outcome.ok () { s2 with sheet_ := CellMap.erase s2.sheet_ pos }
        | r => r

/-- `Size` of `common.h`. -/
structure Size where
  rows : Int
  cols : Int
deriving DecidableEq, Repr

/-- The loop of `Sheet::GetPrintableSize` over the entries of `sheet_`;
`none` when a null cell is dereferenced. -/
def printableLoop (E : Env) : CellMap → (Bool × Int × Int) → Option (Bool × Int × Int)
  | [], acc => some acc
  | (_, none) :: _, _ => none
  | (pos, some cell) :: rest, (flag, max_row, max_col) =>
    if cell.GetText E ≠ "" then
      printableLoop E rest (true, max max_row pos.row, max max_col pos.col)
    else
      printableLoop E rest (flag, max_row, max_col)

/-- `Sheet::GetPrintableSize`; `none` is undefined behaviour (null dereference). -/
def Sheet.GetPrintableSize (E : Env) (s : Sheet) : Option Size :=
  match s.sheet_ with
  | [] => some { rows := 0, cols := 0 }
  | m =>
    match printableLoop E m (false, 0, 0) with
    | none => none
    | some (false, _, _) => some { rows := 0, cols := 0 }
    | some (true, max_row, max_col) => some { rows := max_row + 1, cols := max_col + 1 }

/-! ## A concrete environment

Modelled from the specification (§3, §4.1, §4.2); used to run the sheet on
concrete inputs. Number literals are restricted to unsigned decimal integers. -/

/-- Skip blanks between tokens. -/
def skipWs : List Char → List Char
  | ' ' :: cs => skipWs cs
  | cs => cs

/-- Value of a string of decimal digits, most significant first. -/
def digitsValue (cs : List Char) : Nat :=
  cs.foldl (fun acc c => acc * 10 + (c.toNat - 48)) 0

/-- Value of a column name in bijective base 26. -/
def lettersValue (cs : List Char) : Nat :=
  cs.foldl (fun acc c => acc * 26 + (c.toNat - 64)) 0

/-- Modelled from the spec: `Position::FromString` on a letter part and a digit
part; `none` stands for an invalid position. -/
def positionFromParts (letters digits : List Char) : Option Position :=
  if letters.length = 0 ∨ 3 < letters.length ∨ digits.length = 0 ∨ 5 < digits.length then none
  else if !letters.all (fun c => decide ('A' ≤ c ∧ c ≤ 'Z')) then none
  else
    let p : Position :=
      { row := (digitsValue digits : Int) - 1, col := (lettersValue letters : Int) - 1 }
    if p.IsValid then some p else none

/-- Modelled from the spec: the recursive-descent parser of the grammar of §4.2.
The tag selects the nonterminal: 0 `expr`, 1 the tail of `expr`, 2 `term`,
3 the tail of `term`, 4 `factor`. The tails take the left operand built so far. -/
def parseAt : Nat → Nat → Option AST → List Char → Option (AST × List Char)
  | 0, _, _, _ => none
  | fuel + 1, 0, _, cs =>
    match parseAt fuel 2 none cs with
    | some (t, rest) => parseAt fuel 1 (some t) rest
    | none => none
  | fuel + 1, 1, some l, cs =>
    match skipWs cs with
    | '+' :: rest =>
      match parseAt fuel 2 none rest with
      | some (t, rest1) => parseAt fuel 1 (some (AST.Binop Op.add l t)) rest1
      | none => none
    | '-' :: rest =>
      match parseAt fuel 2 none rest with
      | some (t, rest1) => parseAt fuel 1 (some (AST.Binop Op.sub l t)) rest1
      | none => none
    | rest => some (l, rest)
  | fuel + 1, 2, _, cs =>
    match parseAt fuel 4 none cs with
    | some (f, rest) => parseAt fuel 3 (some f) rest
    | none => none
  | fuel + 1, 3, some l, cs =>
    match skipWs cs with
    | '*' :: rest =>
      match parseAt fuel 4 none rest with
      | some (f, rest1) => parseAt fuel 3 (some (AST.Binop Op.mul l f)) rest1
      | none => none
    | '/' :: rest =>
      match parseAt fuel 4 none rest with
      | some (f, rest1) => parseAt fuel 3 (some (AST.Binop Op.div l f)) rest1
      | none => none
    | rest => some (l, rest)
  | fuel + 1, 4, _, cs =>
    match skipWs cs with
    | '-' :: rest =>
      match parseAt fuel 4 none rest with
      | some (f, rest1) => some (AST.UnaryMinus f, rest1)
      | none => none
    | '+' :: rest =>
      match parseAt fuel 4 none rest with
      | some (f, rest1) => some (AST.UnaryPlus f, rest1)
      | none => none
    | '(' :: rest =>
      match parseAt fuel 0 none rest with
      | some (e, rest1) =>
        match skipWs rest1 with
        | ')' :: rest2 => some (e, rest2)
        | _ => none
      | none => none
    | c :: rest =>
      if c.isDigit then
        let ds := (c :: rest).takeWhile Char.isDigit
        some (AST.Num (digitsValue ds : Nat), (c :: rest).dropWhile Char.isDigit)
      else if c.isAlpha then
        let letters := (c :: rest).takeWhile Char.isAlpha
        let after := (c :: rest).dropWhile Char.isAlpha
        let digits := after.takeWhile Char.isDigit
        match positionFromParts letters digits with
        | some p => some (AST.Ref p, after.dropWhile Char.isDigit)
        | none => none
      else none
    | [] => none
  | _ + 1, _, _, _ => none

/-- Modelled from the spec: `ParseFormulaAST`; the whole input must be one `expr`,
and a reference to a position that is not valid is a syntax error. -/
def stdParse (text : String) : Option AST :=
  match parseAt (6 * text.data.length + 6) 0 none text.data with
  | some (e, rest) =>
    if skipWs rest = [] ∧ e.GetReferencedCells.all Position.IsValid = true then some e else none
  | none => none

/-- Decimal digits of a natural number. -/
def natDigits : Nat → Nat → List Char
  | 0, _ => []
  | fuel + 1, n =>
    if n < 10 then [Char.ofNat (48 + n)]
    else natDigits fuel (n / 10) ++ [Char.ofNat (48 + n % 10)]

/-- Text of a number literal of the AST. -/
def printNum (x : Rat) : String :=
  let body := String.mk (natDigits (x.num.natAbs + 1) x.num.natAbs)
  let signed := if x.num < 0 then "-" ++ body else body
  if x.den = 1 then signed else signed ++ "/" ++ String.mk (natDigits (x.den + 1) x.den)

/-- The symbol of a binary operator. -/
def Op.symbol : Op → String
  | Op.add => "+"
  | Op.sub => "-"
  | Op.mul => "*"
  | Op.div => "/"

/-- Additive operators bind weaker than multiplicative ones. -/
def Op.isAdditive : Op → Bool
  | Op.add => true
  | Op.sub => true
  | _ => false

/-- Whether the right operand `r` of `op` keeps its parentheses. -/
def needsParensRight (op : Op) (r : AST) : Bool :=
  match r with
  | AST.Binop rop _ _ =>
    match op with
    | Op.add => false
    | Op.sub => rop.isAdditive
    | Op.mul => rop.isAdditive
    | Op.div => true
  | _ => false

/-- Whether the left operand `l` of `op` keeps its parentheses. -/
def needsParensLeft (op : Op) (l : AST) : Bool :=
  match l with
  | AST.Binop lop _ _ => !op.isAdditive && lop.isAdditive
  | _ => false

/-- Modelled from the spec: `FormulaAST::PrintFormula`, the canonical text
without blanks and with the parentheses that the parse needs. -/
def stdPrint : AST → String
  | AST.Num x => printNum x
  | AST.Ref p =>
    if p.IsValid then
      let c := p.col.toNat
      let letters : List Char :=
        if c < 26 then [Char.ofNat (65 + c)]
        else if c < 702 then [Char.ofNat (65 + (c - 26) / 26), Char.ofNat (65 + (c - 26) % 26)]
        else [Char.ofNat (65 + (c - 702) / 676), Char.ofNat (65 + (c - 702) / 26 % 26),
              Char.ofNat (65 + (c - 702) % 26)]
      String.mk (letters ++ natDigits (p.row.toNat + 2) (p.row.toNat + 1))
    else ""
  | AST.UnaryMinus c =>
    match c with
    | AST.Binop _ _ _ => "-(" ++ stdPrint c ++ ")"
    | _ => "-" ++ stdPrint c
  | AST.UnaryPlus c =>
    match c with
    | AST.Binop _ _ _ => "+(" ++ stdPrint c ++ ")"
    | _ => "+" ++ stdPrint c
  | AST.Binop op l r =>
    (if needsParensLeft op l then "(" ++ stdPrint l ++ ")" else stdPrint l) ++ op.symbol ++
    (if needsParensRight op r then "(" ++ stdPrint r ++ ")" else stdPrint r)

/-- The prefix `digits [. digits]` of a text: the number that its digits spell
without the point, the count of digits after the point, and its length; length
0 when there is no digit. -/
def mantissaPrefix (cs : List Char) : Nat × Nat × Nat :=
  let ip := cs.takeWhile Char.isDigit
  match cs.dropWhile Char.isDigit with
  | '.' :: rest =>
    let fp := rest.takeWhile Char.isDigit
    if ip = [] ∧ fp = [] then (0, 0, 0)
    else (digitsValue (ip ++ fp), fp.length, ip.length + 1 + fp.length)
  | _ => if ip = [] then (0, 0, 0) else (digitsValue ip, 0, ip.length)

/-- An exponent part `e [sign] digits` (or `E`) at the start of a text: the
exponent and its length; length 0 when there is none. -/
def exponentPrefix (cs : List Char) : Int × Nat :=
  match cs with
  | [] => (0, 0)
  | c :: rest =>
    if c = 'e' ∨ c = 'E' then
      match rest with
      | '-' :: ds =>
        if ds.takeWhile Char.isDigit = [] then (0, 0)
        else (-(digitsValue (ds.takeWhile Char.isDigit) : Int),
              (ds.takeWhile Char.isDigit).length + 2)
      | '+' :: ds =>
        if ds.takeWhile Char.isDigit = [] then (0, 0)
        else ((digitsValue (ds.takeWhile Char.isDigit) : Int),
              (ds.takeWhile Char.isDigit).length + 2)
      | ds =>
        if ds.takeWhile Char.isDigit = [] then (0, 0)
        else ((digitsValue (ds.takeWhile Char.isDigit) : Int),
              (ds.takeWhile Char.isDigit).length + 1)
    else (0, 0)

/-- The number `2 ^ 1024 - 2 ^ 970`, the least one that rounds to infinity as a
`double`, written with small exponents. -/
def doubleOverflow : Nat := (2 ^ 128) ^ 8 - (2 ^ 97) ^ 10

/-- The number `2 ^ 1022`, whose inverse is the least positive normal `double`,
written with small exponents. -/
def doubleTiny : Nat := (2 ^ 146) ^ 7

/-- Whether the fraction `num / den` (with `0 < den`) is outside the range of
`double`: it rounds to infinity (it is at least `2 ^ 1024 - 2 ^ 970`), or it is
not zero and below the least positive normal `double`, `2 ^ (-1022)`. -/
def outOfDoubleRange (num den : Nat) : Bool :=
  decide (doubleOverflow * den ≤ num) || (decide (0 < num) && decide (num * doubleTiny < den))

/-- Number and length of the prefix `digits [. digits] [e [sign] digits]` of a
text: `none` when there is no digit (`std::invalid_argument`) or when the number
is outside the range of `double` (`std::out_of_range`). -/
def unsignedStod (cs : List Char) : Option (Rat × Nat) :=
  let mp := mantissaPrefix cs
  if mp.2.2 = 0 then none
  else
    let ex := exponentPrefix (cs.drop mp.2.2)
    let num := mp.1 * 10 ^ ex.1.toNat
    let den := 10 ^ mp.2.1 * 10 ^ (-ex.1).toNat
    if outOfDoubleRange num den then none
    else some (mkRat num den, mp.2.2 + ex.2)

/-- Modelled on `std::stod` for decimal numbers with an optional sign, an
optional fraction and an optional exponent: the value of the longest such
prefix and how many characters it takes, `none` where `std::stod` throws.
The value is the exact rational, not rounded to a `double`; leading white
space, hexadecimal numbers, `inf` and `nan` are not modelled. -/
def stdStod (text : String) : Option (Rat × Nat) :=
  match text.data with
  | '-' :: rest => (unsignedStod rest).map (fun r => (-r.1, r.2 + 1))
  | '+' :: rest => (unsignedStod rest).map (fun r => (r.1, r.2 + 1))
  | cs => unsignedStod cs

/-- The concrete environment. -/
def stdEnv : Env :=
  { ParseFormulaAST := stdParse, PrintFormula := stdPrint, stod := stdStod }

/-- Modelled from the spec: the `_pos` literal of the tests, `Position::FromString`. -/
def posOf (text : String) : Position :=
  match positionFromParts (text.data.takeWhile Char.isAlpha)
      (text.data.dropWhile Char.isAlpha) with
  | some p => p
  | none => { row := -1, col := -1 }

/-! ## Values of cells -/

/-- `Cell::TextImpl::GetValue`. `std::stod` is called when the first character
is a digit; `none` when it throws, which the function does not catch. -/
def TextImpl.GetValue (E : Env) (text_ : String) : Option Value :=
  match text_.data with
  | [] => some (Value.text text_)
  | c :: rest =>
    if c.isDigit then
      match E.stod text_ with
      | none => none
      | some (num, pos) =>
        if pos = text_.data.length then some (Value.number num)
        else if c = '\'' then some (Value.text (String.mk rest))
        else some (Value.text text_)
    else if c = '\'' then some (Value.text (String.mk rest))
    else some (Value.text text_)

/-- Modelled from the spec: the number a `Ref` node reads from the value of the
referenced cell (§4.2): empty text is zero, a number is itself, a text that
parses in full is its number, everything else is `#VALUE!`. -/
def refNumber (E : Env) : Value → Except FormulaError Rat
  | Value.number x => Except.ok x
  | Value.text t =>
    if t = "" then Except.ok 0
    else
      match E.stod t with
      | some (x, n) => if n = t.data.length then Except.ok x else Except.error ⟨Category.Value⟩
      | none => Except.error ⟨Category.Value⟩
  | Value.error _ => Except.error ⟨Category.Value⟩

/-- Modelled from the spec: a binary operation on two numbers; a result that is
not finite is `#ARITHM!` (with exact rationals: division by zero). -/
def applyOp (op : Op) (l r : Rat) : Except FormulaError Rat :=
  match op with
  | Op.add => Except.ok (l + r)
  | Op.sub => Except.ok (l - r)
  | Op.mul => Except.ok (l * r)
  | Op.div => if r = 0 then Except.error ⟨Category.Arithmetic⟩ else Except.ok (l / r)

/-- The `Value` that `FormulaImpl::GetValue` makes of the result of `Evaluate`. -/
def resultValue : Except FormulaError Rat → Value
  | Except.ok x => Value.number x
  | Except.error e => Value.error e

/-- `cache_ = result` in the `FormulaImpl` of the cell with address `a`. -/
def CellMap.setCache (m : CellMap) (a : Nat) (v : Value) : CellMap :=
  CellMap.modify m a (fun c =>
    match c.impl_ with
    | Impl.FormulaImpl t f _ => { c with impl_ := Impl.FormulaImpl t f (some v) }
    | _ => c)

/-- Modelled from the spec: `FormulaAST::Execute` (§4.2) over the map of the
sheet. A `Ref` node calls `GetCell(pos)->GetValue()`, which for a formula cell
without a cache evaluates that cell's formula and stores the result in its
cache, so the map is threaded through. The first argument bounds the depth of
the recursion; `none` when it is exhausted. The result is `some (Except.ok x)`
for a number, `some (Except.error e)` for a thrown `FormulaError`, and `none`
for any other exception that leaves `Execute`: the one of `std::stod` in the
`GetValue` of a referenced text cell, or the `FormulaException` that the
`GetValue` of a referenced formula cell throws when its own evaluation ends so
(that cell's cache is then not set). -/
def Execute (E : Env) :
    Nat → AST → CellMap → Option (Option (Except FormulaError Rat) × CellMap)
  | 0, _, _ => none
  | _ + 1, AST.Num x, m => some (some (Except.ok x), m)
  | fuel + 1, AST.Ref p, m =>
    if !p.IsValid then some (some (Except.error ⟨Category.Ref⟩), m)
    else
      match CellMap.find m p with
      | some (some c) =>
        match c.impl_ with
        | Impl.EmptyImpl => some (some (Except.ok 0), m)
        | Impl.TextImpl t => some ((TextImpl.GetValue E t).map (refNumber E), m)
        | Impl.FormulaImpl _ _ (some v) => some (some (refNumber E v), m)
        | Impl.FormulaImpl _ f none =>
          match Execute E fuel f m with
          | some (some r, m1) =>
            some (some (refNumber E (resultValue r)),
              CellMap.setCache m1 c.addr (resultValue r))
          | some (none, m1) => some (none, m1)
          | none => none
      | _ => some (some (Except.ok 0), m)
  | fuel + 1, AST.UnaryMinus child, m =>
    match Execute E fuel child m with
    | some (some (Except.ok x), m1) => some (some (Except.ok (-x)), m1)
    | r => r
  | fuel + 1, AST.UnaryPlus child, m => Execute E fuel child m
  | fuel + 1, AST.Binop op left right, m =>
    match Execute E fuel left m with
    | some (some (Except.ok l), m1) =>
      match Execute E fuel right m1 with
      | some (some (Except.ok r), m2) => some (some (applyOp op l r), m2)
      | r => r
    | r => r

/-- Number of nodes of a formula. -/
def AST.size : AST → Nat
  | AST.Num _ => 1
  | AST.Ref _ => 1
  | AST.UnaryMinus c => c.size + 1
  | AST.UnaryPlus c => c.size + 1
  | AST.Binop _ l r => l.size + r.size + 1

/-- A recursion depth that is enough for evaluating `f` when the references of
the stored cells have no cycle: the nodes of `f` and of all stored formulas. -/
def evalFuel (m : CellMap) (f : AST) : Nat :=
  f.size + (m.map (fun e =>
    match e.2 with
    | some { addr := _, impl_ := Impl.FormulaImpl _ g _, dependent_cells_ := _ } => g.size + 1
    | _ => 0)).sum + 1

/-- `Formula::Evaluate` on the current sheet, as `FormulaImpl::GetValue` calls it
when there is no cache: the value and the map with the caches filled on the way.
The value is `none` when `Evaluate` throws `FormulaException`, which it does for
every exception of `Execute` that is not a `FormulaError`. -/
def Sheet.Evaluate (E : Env) (s : Sheet) (f : AST) : Option (Option Value × CellMap) :=
  match Execute E (evalFuel s.sheet_ f) f s.sheet_ with
  | some (r, m1) => some (r.map resultValue, m1)
  | none => none

/-- `GetCell(pos)->GetValue()`, the way the tests read a value. A null cell is
not dereferenced: the call then changes nothing and has no value. The exception
of `std::stod` leaves the `GetValue` of a text cell as it is; a formula cell
whose evaluation throws passes the `FormulaException` on without setting its
cache, the caches filled before that stay. -/
def Sheet.GetValue (E : Env) (s : Sheet) (pos : Position) : Outcome (Option Value) :=
  if !pos.IsValid then
    Outcome.raised Exception.InvalidPositionException s
  else
    match CellMap.find s.sheet_ pos with
    | some (some c) =>
      match c.impl_ with
      | Impl.EmptyImpl => Outcome.ok (some (Value.number 0)) s
      | Impl.TextImpl t =>
        match TextImpl.GetValue E t with
        | some v => Outcome.ok (some v) s
        | none => Outcome.raised Exception.out_of_range s
      | Impl.FormulaImpl _ _ (some v) => Outcome.ok (some v) s
      | Impl.FormulaImpl _ f none =>
        match s.Evaluate E f with
        | some (some v, m1) =>
          Outcome.ok (some v) { sheet_ := CellMap.setCache m1 c.addr v, next := s.next }
        | some (none, m1) =>
          Outcome.raised Exception.FormulaException { sheet_ := m1, next := s.next }
        | none => Outcome.diverge
    | _ => Outcome.ok none s

/-! ## Call sequences -/

/-- A call of the public interface that can change the sheet: `SetCell`,
`ClearCell`, and `GetValue` on the cell at a position, which fills caches. -/
inductive Call where
  | Set (pos : Position) (text : String)
  | Clear (pos : Position)
  | GetValue (pos : Position)
deriving DecidableEq, Repr

/-- Forget the value an outcome returns. -/
def Outcome.discard {α : Type} : Outcome α → Outcome Unit
  | Outcome.ok _ s => Outcome.ok () s
  | Outcome.raised e s => Outcome.raised e s
  | Outcome.ub => Outcome.ub
  | Outcome.diverge => Outcome.diverge

/-- Run one call. -/
def Sheet.call (E : Env) (s : Sheet) : Call → Outcome Unit
  | Call.Set pos text => s.SetCell E pos text
  | Call.Clear pos => s.ClearCell pos
  | Call.GetValue pos => (s.GetValue E pos).discard

/-- Run a sequence of calls; the caller catches every exception and goes on
with the sheet as the exception left it. `none` when a call has undefined
behaviour or does not return. -/
def Sheet.run (E : Env) : Sheet → List Call → Option Sheet
  | s, [] => some s
  | s, c :: rest =>
    match (s.call E c).state with
    | some s1 => Sheet.run E s1 rest
    | none => none


/-! ## Observations used in the statements -/

/-- The cell `GetCell(pos)` returns, without the validity check. -/
def Sheet.cellAt (s : Sheet) (pos : Position) : Option Cell :=
  match CellMap.find s.sheet_ pos with
  | some (some c) => some c
  | _ => none

/-- Forward references of the cell stored at `pos`; none when no cell is stored. -/
def Sheet.refsAt (s : Sheet) (pos : Position) : List Position :=
  match s.cellAt pos with
  | some c => c.GetReferencedCells
  | none => []

/-- Text shown at `pos`: `GetText` of the stored cell, empty when `GetCell` is null. -/
def Sheet.textAt (E : Env) (s : Sheet) (pos : Position) : String :=
  match s.cellAt pos with
  | some c => c.GetText E
  | none => ""

/-- A forward edge: the cell stored at `p` references `q`. -/
def Sheet.Edge (s : Sheet) (p q : Position) : Prop := q ∈ s.refsAt p

/-- Cycle freedom: no position is reachable from itself through one or more
forward edges. -/
def Sheet.Acyclic (s : Sheet) : Prop :=
  ∀ p, ¬ Relation.TransGen s.Edge p p

/-- Every reference of every stored cell is a valid position. -/
def Sheet.RefsValid (s : Sheet) : Prop :=
  ∀ p q, q ∈ s.refsAt p → q.IsValid = true

/-- The parser only produces formulas whose references are valid positions
(§4.2: a `CELLREF` that is not a valid position is a syntax error). -/
def Env.ValidRefs (E : Env) : Prop :=
  ∀ t f, E.ParseFormulaAST t = some f → ∀ q ∈ f.GetReferencedCells, q.IsValid = true

/-- The sheets that a sequence of `Set`, `Clear` and `GetValue` calls can produce
from the empty sheet, every call returning or raising. -/
inductive Reachable (E : Env) : Sheet → Prop where
  | empty : Reachable E Sheet.empty
  | step (s : Sheet) (c : Call) (s1 : Sheet) :
      Reachable E s → (s.call E c).state = some s1 → Reachable E s1

/-- The sheet `s1` is `s` with `Empty` placeholders stored at some positions
that held no cell in `s`. -/
def Sheet.Grows (s s1 : Sheet) : Prop :=
  ∀ p, CellMap.find s1.sheet_ p = CellMap.find s.sheet_ p ∨
    (s.cellAt p = none ∧
      ∃ a, CellMap.find s1.sheet_ p =
        some (some { addr := a, impl_ := Impl.EmptyImpl, dependent_cells_ := [] }))

/-- Number of listed positions not yet among the predecessors. -/
def unprocessed (L pred : List Position) : Nat :=
  (L.filter (fun x => decide (x ∉ pred))).length

/-- Weight of one queued position. -/
def weight (r : Nat) (L pred : List Position) (x : Position) : Nat :=
  if x ∈ pred then weightOld r (unprocessed L pred) else weightNew r (unprocessed L pred)

/-- The potential of the queue: it drops with every iteration of the loop. -/
def potential (r : Nat) (L pred : List Position) : List Position → Nat
  | [] => 0
  | x :: q => weight r L pred x + potential r L pred q

/-- The references of an implementation (`Cell::GetReferencedCells`). -/
def Impl.refs : Impl → List Position
  | Impl.FormulaImpl _ f _ => f.GetReferencedCells
  | _ => []

/-- The cell without its cache. -/
def Cell.dropCache (c : Cell) : Cell := { c with impl_ := c.impl_.InvalidateCache }

/-- The map with every cache dropped. -/
def CellMap.strip (m : CellMap) : CellMap :=
  m.map (fun e => (e.1, e.2.map Cell.dropCache))

/-- At position `p` the sheet `s1` shows what `s` shows: a cell stored in `s` is
still stored with the same implementation up to its cache, and where `s` has no
cell `s1` has none or an `Empty` one. -/
def Sheet.SimilarAt (s s1 : Sheet) (p : Position) : Prop :=
  (∀ c, s.cellAt p = some c →
    ∃ c1, s1.cellAt p = some c1 ∧ c1.impl_.InvalidateCache = c.impl_.InvalidateCache) ∧
  (s.cellAt p = none →
    s1.cellAt p = none ∨ ∃ c1, s1.cellAt p = some c1 ∧ c1.impl_ = Impl.EmptyImpl)

/-- The two sheets show the same at every position. -/
def Sheet.Similar (s s1 : Sheet) : Prop := ∀ p, s.SimilarAt s1 p

/-- What a call of `SetCell` at `pos` may do to the sheet: the other positions
show the same, and `pos` shows the same, or holds no cell, or holds a cell
built from some text whose references do not lead back to `pos`. -/
def Sheet.SetResult (E : Env) (s s1 : Sheet) (pos : Position) : Prop :=
  (∀ q, q ≠ pos → s.SimilarAt s1 q) ∧
  (s.SimilarAt s1 pos ∨ s1.cellAt pos = none ∨
    ∃ c t impl, s1.cellAt pos = some c ∧ classify E t = Except.ok impl ∧
      c.impl_.InvalidateCache = impl.InvalidateCache ∧
      ∀ x ∈ impl.refs, ¬ Relation.ReflTransGen (fun p q => p ≠ pos ∧ s.Edge p q) x pos)

/-- The calls of the test `TestCellCircularReferences` before the rejected one. -/
def chainCalls : List Call :=
  [Call.Set (posOf "E2") "=E4", Call.Set (posOf "E4") "=X9", Call.Set (posOf "X9") "=M6",
   Call.Set (posOf "M6") "Ready"]

/-- The sheet after `chainCalls`. -/
def chainSheet : Sheet :=
  (Sheet.run stdEnv Sheet.empty chainCalls).getD Sheet.empty

/-- Every stored cell has, up to its cache, the implementation that the
constructor chooses for some text. -/
def Sheet.Classified (E : Env) (s : Sheet) : Prop :=
  ∀ p c, s.cellAt p = some c → ∃ t, classify E t = Except.ok c.impl_.InvalidateCache

/-- Printing the formula of the implementation and parsing the result gives the
formula back. -/
def Impl.RoundTrips (E : Env) (i : Impl) : Prop :=
  ∀ t f ch, i = Impl.FormulaImpl t f ch → E.ParseFormulaAST (E.PrintFormula f) = some f

/-- The sheet after the rejected `Set(M6, "=E2")` of `TestCellCircularReferences`. -/
def chainRejected : Sheet :=
  ((chainSheet.SetCell stdEnv (posOf "M6") "=E2").state).getD Sheet.empty

/-- At position `p` the sheet `s1` keeps what `s` stores: a cell of `s` is still
there with the same address, implementation and dependent set, up to its
cache, and where `s` has no cell `s1` has none or a fresh `Empty` one. -/
def Sheet.KeepsAt (s s1 : Sheet) (p : Position) : Prop :=
  (∀ c, s.cellAt p = some c → ∃ c1, s1.cellAt p = some c1 ∧ c1.dropCache = c.dropCache) ∧
  (s.cellAt p = none →
    s1.cellAt p = none ∨
    ∃ a, s1.cellAt p = some { addr := a, impl_ := Impl.EmptyImpl, dependent_cells_ := [] })

/-- The sheet after `Set(B1, "=A1+B1")` is rejected on the empty sheet. -/
def selfRefRejected : Sheet :=
  ((Sheet.empty.SetCell stdEnv (posOf "B1") "=A1+B1").state).getD Sheet.empty

/-- The sheet after `A1 = "1"`, `B1 = "=A1"`. -/
def depSheet : Sheet :=
  (Sheet.run stdEnv Sheet.empty
    [Call.Set (posOf "A1") "1", Call.Set (posOf "B1") "=A1"]).getD Sheet.empty

/-- The sheet after the rejected `Set(A1, "=B1")` on `depSheet`. -/
def depRejected : Sheet :=
  ((depSheet.SetCell stdEnv (posOf "A1") "=B1").state).getD Sheet.empty

/-- The sheet after `A1 = "1"`, `A1 = "=B1"`. -/
def relinkSheet : Sheet :=
  (Sheet.run stdEnv Sheet.empty
    [Call.Set (posOf "A1") "1", Call.Set (posOf "A1") "=B1"]).getD Sheet.empty

/-- The sheet after `A1 = "=B1"`, `A1 = "2"`. -/
def danglingSheet : Sheet :=
  (Sheet.run stdEnv Sheet.empty
    [Call.Set (posOf "A1") "=B1", Call.Set (posOf "A1") "2"]).getD Sheet.empty

/-- The sheet after `A1 = "x"`. -/
def textSheet : Sheet :=
  (Sheet.run stdEnv Sheet.empty [Call.Set (posOf "A1") "x"]).getD Sheet.empty

/-- The sheet after `Set(A1, "=X0")` raised the formula-syntax error on `textSheet`. -/
def nullSheet : Sheet :=
  ((textSheet.SetCell stdEnv (posOf "A1") "=X0").state).getD Sheet.empty

/-- The calls `A2 = "5"`, `A2 = "=B1"`, `GetValue(A2)`, `B1 = "7"`. -/
def staleCalls : List Call :=
  [Call.Set (posOf "A2") "5", Call.Set (posOf "A2") "=B1", Call.GetValue (posOf "A2"),
   Call.Set (posOf "B1") "7"]

/-- The sheet after `staleCalls`. -/
def staleSheet : Sheet :=
  (Sheet.run stdEnv Sheet.empty staleCalls).getD Sheet.empty

/-- At position `q` the sheet `s1` has what `s` has up to dependent sets: a cell
of `s` is still there with the same address and implementation (cache
included), and where `s` has no cell `s1` has none or an `Empty` one. -/
def Sheet.RelinkAt (s s1 : Sheet) (q : Position) : Prop :=
  (∀ c, s.cellAt q = some c →
    ∃ c1, s1.cellAt q = some c1 ∧ c1.impl_ = c.impl_ ∧ c1.addr = c.addr) ∧
  (s.cellAt q = none →
    s1.cellAt q = none ∨ ∃ c1, s1.cellAt q = some c1 ∧ c1.impl_ = Impl.EmptyImpl)

/-- What a completed `SetCell(pos, text)` that built a new cell leaves at `pos`:
a cell `c` at the fresh address with the implementation chosen for the text and
the dependent set `deps`, every position it references holding a cell, an
`Empty` one where `s` had none. -/
def Sheet.Stored (E : Env) (s s1 : Sheet) (pos : Position) (text : String)
    (deps : List Nat) (c : Cell) : Prop :=
  s1.cellAt pos = some c ∧ classify E text = Except.ok c.impl_ ∧ c.addr = s.next ∧
  c.dependent_cells_ = deps ∧
  ∀ x ∈ c.GetReferencedCells, x.IsValid = true ∧
    ∃ cx, s1.cellAt x = some cx ∧ (s.cellAt x = none → cx.impl_ = Impl.EmptyImpl)

/-- The text is not a formula: it is empty, exactly `=`, or does not start with
`=` (the condition of the constructor, `text[0] == FORMULA_SIGN` and a size
above one, fails). -/
def NotFormula (t : String) : Prop :=
  ∀ c rest, t.data ≠ '=' :: c :: rest

/-- The sheet after `A1 = "=1"` and `GetValue(A1)`. -/
def cachedSheet : Sheet :=
  (Sheet.run stdEnv Sheet.empty
    [Call.Set (posOf "A1") "=1", Call.GetValue (posOf "A1")]).getD Sheet.empty

/-- The sheet after `Set(A1, "= 1")` on `cachedSheet`. -/
def reparsedSheet : Sheet :=
  ((cachedSheet.SetCell stdEnv (posOf "A1") "= 1").state).getD Sheet.empty

/-- The sheet after `A1 = "=B1"`, `Clear(B1)`. -/
def clearedRefSheet : Sheet :=
  (Sheet.run stdEnv Sheet.empty
    [Call.Set (posOf "A1") "=B1", Call.Clear (posOf "B1")]).getD Sheet.empty

/-- The sheet after `C2 = "7"`. -/
def sevenSheet : Sheet :=
  (Sheet.run stdEnv Sheet.empty [Call.Set (posOf "C2") "7"]).getD Sheet.empty

/-- The sheet after `Set(A1, "=B1+C2")` on `sevenSheet`. -/
def sumSheet : Sheet :=
  ((sevenSheet.SetCell stdEnv (posOf "A1") "=B1+C2").state).getD Sheet.empty

/-- The sheet after `A1 = "x"`, `B2 = "y"`. -/
def twoTextSheet : Sheet :=
  (Sheet.run stdEnv Sheet.empty
    [Call.Set (posOf "A1") "x", Call.Set (posOf "B2") "y"]).getD Sheet.empty

/-- The sheet after `Set(A1, "=X0")` raised the formula-syntax error on
`twoTextSheet`. -/
def holeSheet : Sheet :=
  ((twoTextSheet.SetCell stdEnv (posOf "A1") "=X0").state).getD Sheet.empty

/-- The entry of the map holds a cell with non-empty text. -/
def HasText (E : Env) (e : Position × Option Cell) : Prop :=
  ∃ cell, e.2 = some cell ∧ cell.GetText E ≠ ""

/-- A sheet whose forward references form a cycle between `A1` and `B1` (no
sequence of calls produces it; the cycle check is run on it from `C1`). -/
def loopSheet : Sheet :=
  { sheet_ :=
      [(posOf "A1", some (Cell.mk 0 (Impl.FormulaImpl "B1" (AST.Ref (posOf "B1")) none) [])),
       (posOf "B1", some (Cell.mk 1 (Impl.FormulaImpl "A1" (AST.Ref (posOf "A1")) none) []))],
    next := 2 }

/-- The sheet after `clearedRefSheet` has `A1` cleared as well. -/
def reclearedSheet : Sheet :=
  ((clearedRefSheet.ClearCell (posOf "A1")).state).getD Sheet.empty

/-- The mapped positions, in the order of the map. -/
def CellMap.keys (m : CellMap) : List Position := m.map Prod.fst

/-- The heap of the sheet is well formed. The list `X` holds the addresses
handed out to cells that are under construction and not stored yet. -/
structure Sheet.Heap (X : List Nat) (s : Sheet) : Prop where
  /-- A position is mapped once (`sheet_` is a `std::map`). -/
  keysNodup : (CellMap.keys s.sheet_).Nodup
  /-- Every mapped position is valid. -/
  keysValid : ∀ p ∈ CellMap.keys s.sheet_, p.IsValid = true
  /-- Two stored cells have different addresses. -/
  addrInj : ∀ p q c d, s.cellAt p = some c → s.cellAt q = some d → c.addr = d.addr → p = q
  /-- The address of a stored cell has been handed out and is not reserved. -/
  fresh : ∀ p c, s.cellAt p = some c → c.addr < s.next ∧ c.addr ∉ X
  /-- The reserved addresses have been handed out. -/
  reserved : ∀ x ∈ X, x < s.next
  /-- Dependent sets hold addresses that have been handed out and are not reserved. -/
  depsFresh : ∀ p c, s.cellAt p = some c → ∀ a ∈ c.dependent_cells_, a < s.next ∧ a ∉ X
  /-- A stored cell in the dependent set of the cell at `q` references `q`. -/
  depsSound : ∀ q c p ca, s.cellAt q = some c → s.cellAt p = some ca →
    ca.addr ∈ c.dependent_cells_ → q ∈ ca.GetReferencedCells

/-- The sheet `s1` is `s` with fresh `Empty` cells stored at some positions that
held no cell; the cells of `s` are untouched. -/
def Sheet.Extends (s s1 : Sheet) : Prop :=
  s.next ≤ s1.next ∧
  (∀ p c, s.cellAt p = some c → s1.cellAt p = some c) ∧
  ∀ p c, s1.cellAt p = some c →
    s.cellAt p = some c ∨
    (s.cellAt p = none ∧ c.impl_ = Impl.EmptyImpl ∧ c.dependent_cells_ = [] ∧ s.next ≤ c.addr)

/-- What a printing member function did: the text written to the stream on
normal return, an exception with the text written before it, or undefined
behaviour or an unbounded run. -/
inductive Printed where
  | ok (out : String)
  | raised (e : Exception) (out : String)
  | ub
  | diverge
deriving DecidableEq, Repr

/-- The inner loop `for (int j = ...; j < max_size.cols; ++j)` of
`Sheet::PrintTexts` in row `i`, from column `j` on with `n` columns to go,
appending to `out`. -/
def printTextsCols (E : Env) (s : Sheet) (cols i : Int) : Nat → Int → String → Printed
  | 0, _, out => Printed.ok out
  | n + 1, j, out =>
    match s.GetCell { row := i, col := j } with
    | Outcome.ok (some c) _ =>
      printTextsCols E s cols i n (j + 1)
        ((out ++ c.GetText E).push (if j = cols - 1 then '\n' else '\t'))
    | Outcome.ok none _ =>
      printTextsCols E s cols i n (j + 1) (out.push (if j = cols - 1 then '\n' else '\t'))
    | Outcome.raised e _ => Printed.raised e out
    | Outcome.ub => Printed.ub
    | Outcome.diverge => Printed.diverge

/-- The outer loop `for (int i = ...; i < max_size.rows; ++i)` of
`Sheet::PrintTexts`, from row `i` on with `n` rows to go. -/
def printTextsRows (E : Env) (s : Sheet) (max_size : Size) : Nat → Int → String → Printed
  | 0, _, out => Printed.ok out
  | n + 1, i, out =>
    match printTextsCols E s max_size.cols i max_size.cols.toNat 0 out with
    | Printed.ok out1 => printTextsRows E s max_size n (i + 1) out1
    | r => r

/-- `Sheet::PrintTexts`: the text written to the stream. -/
def Sheet.PrintTexts (E : Env) (s : Sheet) : Printed :=
  match s.GetPrintableSize E with
  | none => Printed.ub
  | some max_size => printTextsRows E s max_size max_size.rows.toNat 0 ""

/-- The texts joined by a single tab (the wording of the specification). -/
def joinTabs : List String → String
  | [] => ""
  | [a] => a
  | a :: b :: rest => a ++ "\t" ++ joinTabs (b :: rest)

/-- The concatenation of the lines. -/
def concatLines : List String → String
  | [] => ""
  | l :: rest => l ++ concatLines rest

/-- The texts of the cells `(i, j)`, `j` running through `cols`; a missing cell
contributes the empty string. -/
def Sheet.rowTexts (E : Env) (s : Sheet) (i : Nat) (cols : List Nat) : List String :=
  cols.map (fun (j : Nat) => s.textAt E (Position.mk (i : Int) (j : Int)))

/-- The output the specification describes for a sheet of printable size
`(R, C)`: for the rows `0..R-1` in order, the texts of the cells
`(i, 0)..(i, C-1)` joined by a single tab and followed by a newline. -/
def Sheet.textLines (E : Env) (s : Sheet) (R C : Nat) : String :=
  concatLines
    ((List.range R).map (fun (i : Nat) => joinTabs (s.rowTexts E i (List.range C)) ++ "\n"))

/-- The sheet after `A2 = "meow"`, `B2 = "=35"`. -/
def meowSheet : Sheet :=
  (Sheet.run stdEnv Sheet.empty
    [Call.Set (posOf "A2") "meow", Call.Set (posOf "B2") "=35"]).getD Sheet.empty

/-- The mapping at `q` is kept from `s` to `s1`: a mapped position stays
mapped, and a null pointer is mapped at `q` in `s1` only if one was in `s`. -/
def Sheet.MapsKept (s s1 : Sheet) (q : Position) : Prop :=
  (CellMap.find s.sheet_ q ≠ none → CellMap.find s1.sheet_ q ≠ none) ∧
  (CellMap.find s1.sheet_ q = some none → CellMap.find s.sheet_ q = some none)

/-- The map with the cache dropped in every cell whose address is in `V`. -/
def CellMap.clear (V : List Nat) (m : CellMap) : CellMap :=
  m.map (fun e => (e.1, e.2.map (fun c => if c.addr ∈ V then c.dropCache else c)))

/-- The set `V` of addresses is closed under dependents: the dependent set of
every cell that an address of `V` points at lies in `V`. -/
def CellMap.Closed (m : CellMap) (V : List Nat) : Prop :=
  ∀ x ∈ V, ∀ c, CellMap.deref m x = some c → ∀ y ∈ c.dependent_cells_, y ∈ V

/-- A reverse edge between addresses: a stored cell with address `a` has `b` in
its dependent set. -/
def Sheet.DepEdge (s : Sheet) (a b : Nat) : Prop :=
  ∃ p c, s.cellAt p = some c ∧ c.addr = a ∧ b ∈ c.dependent_cells_

/-- The cell has no cached value (`cache_` of a formula cell is empty). -/
def Cell.CacheCleared (c : Cell) : Prop := c.impl_.InvalidateCache = c.impl_

/-- The calls `A1 = "1"`, `B1 = "=A1"`, `C1 = "=B1"`, `GetValue(C1)`. -/
def cachedChainCalls : List Call :=
  [Call.Set (posOf "A1") "1", Call.Set (posOf "B1") "=A1", Call.Set (posOf "C1") "=B1",
   Call.GetValue (posOf "C1")]

/-- The sheet after `cachedChainCalls`: `B1` and `C1` hold cached values. -/
def cachedChainSheet : Sheet :=
  (Sheet.run stdEnv Sheet.empty cachedChainCalls).getD Sheet.empty

/-- The sheet after `Set(A1, "2")` on `cachedChainSheet`. -/
def cachedChainSet : Sheet :=
  ((cachedChainSheet.SetCell stdEnv (posOf "A1") "2").state).getD Sheet.empty

/-- The addresses of the stored cells, in the order of the map. -/
def CellMap.addrs (m : CellMap) : List Nat := m.filterMap (fun e => e.2.map Cell.addr)

/-- The sheet after `A1 = "1e999"`, `B1 = "=A1"`. -/
def hugeRefSheet : Sheet :=
  (Sheet.run stdEnv Sheet.empty
    [Call.Set (posOf "A1") "1e999", Call.Set (posOf "B1") "=A1"]).getD Sheet.empty

/-- The calls `A1 = "=B1"`, `Clear(B1)`, `GetValue(A1)`. -/
def cachedRefCalls : List Call :=
  [Call.Set (posOf "A1") "=B1", Call.Clear (posOf "B1"), Call.GetValue (posOf "A1")]

/-- The sheet after `cachedRefCalls`. -/
def cachedRefSheet : Sheet :=
  (Sheet.run stdEnv Sheet.empty cachedRefCalls).getD Sheet.empty

/-- The sheet after `Set(B1, "5")` on `cachedRefSheet`. -/
def cachedRefSet : Sheet :=
  ((cachedRefSheet.SetCell stdEnv (posOf "B1") "5").state).getD Sheet.empty

/-- The sheet after `A2 = "5"`, `A2 = "=B1"`, `GetValue(A2)`, the first three of
`staleCalls`. -/
def staleBefore : Sheet :=
  (Sheet.run stdEnv Sheet.empty (staleCalls.take 3)).getD Sheet.empty

/-! ## Lemmas on the map -/

theorem find_assign (m : CellMap) (p q : Position) (v : Option Cell) :
    CellMap.find (CellMap.assign m p v) q = if p = q then some v else CellMap.find m q := by
  induction m with
  | nil =>
    simp only [CellMap.assign, CellMap.find]
  | cons e rest ih =>
    obtain ⟨k, w⟩ := e
    simp only [CellMap.assign]
    by_cases hk : k = p
    · subst hk
      simp only [if_true, CellMap.find]
      split <;> rfl
    · simp only [hk, if_false, CellMap.find, ih]
      by_cases hq : k = q
      · subst hq
        simp [Ne.symm hk]
      · simp [hq]

theorem find_erase (m : CellMap) (p q : Position) :
    CellMap.find (CellMap.erase m p) q = if p = q then none else CellMap.find m q := by
  induction m with
  | nil => simp [CellMap.erase, CellMap.find]
  | cons e rest ih =>
    obtain ⟨k, w⟩ := e
    simp only [CellMap.erase]
    by_cases hk : k = p
    · subst hk
      simp only [if_true, ih, CellMap.find]
      by_cases hq : k = q <;> simp [hq]
    · simp only [hk, if_false, CellMap.find, ih]
      by_cases hq : k = q
      · subst hq
        simp [Ne.symm hk]
      · simp [hq]


theorem cellAt_eq_of_find {s s1 : Sheet} {p : Position}
    (h : CellMap.find s1.sheet_ p = CellMap.find s.sheet_ p) : s1.cellAt p = s.cellAt p := by
  simp only [Sheet.cellAt, h]

theorem Sheet.Grows.refl_grows (s : Sheet) : s.Grows s := fun _ => Or.inl rfl

theorem Sheet.Grows.trans_grows {s s1 s2 : Sheet} (h1 : s.Grows s1) (h2 : s1.Grows s2) : s.Grows s2 := by
  intro p
  rcases h2 p with h | ⟨hn, a, ha⟩
  · rcases h1 p with h' | ⟨hn', a', ha'⟩
    · exact Or.inl (h.trans h')
    · exact Or.inr ⟨hn', a', h.trans ha'⟩
  · rcases h1 p with h' | ⟨_, a', ha'⟩
    · exact Or.inr ⟨by rw [← cellAt_eq_of_find h']; exact hn, a, ha⟩
    · simp [Sheet.cellAt, ha'] at hn

theorem Sheet.Grows.materialize (s : Sheet) (c : Position) (h : s.cellAt c = none) :
    s.Grows (s.materialize c) := by
  intro p
  simp only [Sheet.materialize, find_assign]
  by_cases hc : c = p
  · subst hc
    exact Or.inr ⟨h, s.next, by simp⟩
  · exact Or.inl (by simp [hc])

theorem Sheet.Grows.refsAt_grows {s s1 : Sheet} (h : s.Grows s1) (p : Position) :
    s1.refsAt p = s.refsAt p := by
  rcases h p with h | ⟨hn, a, ha⟩
  · simp only [Sheet.refsAt, cellAt_eq_of_find h]
  · have h1 : s1.cellAt p = some { addr := a, impl_ := Impl.EmptyImpl, dependent_cells_ := [] } := by
      simp only [Sheet.cellAt, ha]
    simp only [Sheet.refsAt, h1, hn, Cell.GetReferencedCells]

theorem Sheet.Grows.textAt_grows (E : Env) {s s1 : Sheet} (h : s.Grows s1) (p : Position) :
    s1.textAt E p = s.textAt E p := by
  rcases h p with h | ⟨hn, a, ha⟩
  · simp only [Sheet.textAt, cellAt_eq_of_find h]
  · have h1 : s1.cellAt p = some { addr := a, impl_ := Impl.EmptyImpl, dependent_cells_ := [] } := by
      simp only [Sheet.cellAt, ha]
    simp only [Sheet.textAt, h1, hn, Cell.GetText, Impl.GetText]

theorem Sheet.Grows.cellAt_some {s s1 : Sheet} (h : s.Grows s1) {p : Position} {c : Cell}
    (hc : s.cellAt p = some c) : s1.cellAt p = some c := by
  rcases h p with h | ⟨hn, _⟩
  · rw [cellAt_eq_of_find h, hc]
  · rw [hn] at hc
    cases hc

theorem Sheet.Grows.edge {s s1 : Sheet} (h : s.Grows s1) : s1.Edge = s.Edge := by
  funext p q
  simp only [Sheet.Edge, h.refsAt_grows]

theorem Sheet.Grows.refsValid {s s1 : Sheet} (h : s.Grows s1) (hv : s.RefsValid) : s1.RefsValid := by
  intro p q hq
  rw [h.refsAt_grows] at hq
  exact hv p q hq

/-! ## The cycle check -/

theorem cycleLoop_nil (pos : Position) (fuel : Nat) (s : Sheet) (pred : List Position) :
    cycleLoop pos (fuel + 1) s [] pred = Outcome.ok () s := rfl

theorem cycleLoop_cons (pos : Position) (fuel : Nat) (s : Sheet) (current : Position)
    (queue pred : List Position) :
    cycleLoop pos (fuel + 1) s (current :: queue) pred =
      if current = pos then Outcome.raised Exception.CircularDependencyException s
      else if !current.IsValid then Outcome.raised Exception.InvalidPositionException s
      else match s.cellAt current with
        | some cell =>
          cycleLoop pos fuel s
            (queue ++ cell.GetReferencedCells.filter (fun x => !(pred.contains x)))
            (current :: pred)
        | none => cycleLoop pos fuel (s.materialize current) queue (current :: pred) := by
  simp only [cycleLoop, Sheet.cellAt]
  split
  · rfl
  · split
    · rfl
    · split <;> simp_all

theorem cycleLoop_grows (pos : Position) (fuel : Nat) :
    ∀ (s : Sheet) (q pred : List Position) (s1 : Sheet),
      (cycleLoop pos fuel s q pred).state = some s1 → s.Grows s1 := by
  induction fuel with
  | zero => intro s q pred s1 h; simp [cycleLoop, Outcome.state] at h
  | succ fuel ih =>
    intro s q pred s1 h
    cases q with
    | nil =>
      simp only [cycleLoop_nil, Outcome.state, Option.some.injEq] at h
      subst h; exact Sheet.Grows.refl_grows s
    | cons current queue =>
      rw [cycleLoop_cons] at h
      split at h
      · simp only [Outcome.state, Option.some.injEq] at h
        subst h; exact Sheet.Grows.refl_grows s
      · split at h
        · simp only [Outcome.state, Option.some.injEq] at h
          subst h; exact Sheet.Grows.refl_grows s
        · split at h
          · exact ih _ _ _ _ h
          · rename_i hnone
            exact (Sheet.Grows.materialize s current hnone).trans_grows (ih _ _ _ _ h)

theorem cycleLoop_not_ub (pos : Position) (fuel : Nat) :
    ∀ (s : Sheet) (q pred : List Position), cycleLoop pos fuel s q pred ≠ Outcome.ub := by
  induction fuel with
  | zero => intro s q pred h; simp [cycleLoop] at h
  | succ fuel ih =>
    intro s q pred
    cases q with
    | nil => simp [cycleLoop_nil]
    | cons current queue =>
      rw [cycleLoop_cons]
      split
      · simp
      · split
        · simp
        · split
          · exact ih _ _ _
          · exact ih _ _ _

theorem cycleLoop_raised (pos : Position) (fuel : Nat) :
    ∀ (s : Sheet) (q pred : List Position) (e : Exception) (s1 : Sheet),
      cycleLoop pos fuel s q pred = Outcome.raised e s1 →
      e = Exception.CircularDependencyException ∨
      (e = Exception.InvalidPositionException ∧
        ¬ ((∀ x ∈ q, x.IsValid = true) ∧ s.RefsValid)) := by
  induction fuel with
  | zero => intro s q pred e s1 h; simp [cycleLoop] at h
  | succ fuel ih =>
    intro s q pred e s1 h
    cases q with
    | nil => simp [cycleLoop_nil] at h
    | cons current queue =>
      rw [cycleLoop_cons] at h
      split at h
      · simp only [Outcome.raised.injEq] at h
        exact Or.inl h.1.symm
      · split at h
        · rename_i hv
          simp only [Outcome.raised.injEq] at h
          refine Or.inr ⟨h.1.symm, ?_⟩
          rintro ⟨hq, -⟩
          have := hq current (List.mem_cons_self _ _)
          simp [this] at hv
        · split at h
          · rename_i cell hcell
            rcases ih _ _ _ _ _ h with h1 | ⟨h1, h2⟩
            · exact Or.inl h1
            · refine Or.inr ⟨h1, ?_⟩
              rintro ⟨hq, hrv⟩
              apply h2
              refine ⟨?_, hrv⟩
              intro x hx
              rcases List.mem_append.1 hx with hx | hx
              · exact hq x (List.mem_cons_of_mem _ hx)
              · have hx1 := (List.mem_filter.1 hx).1
                apply hrv current x
                simp only [Sheet.refsAt, hcell]
                exact hx1
          · rename_i hnone
            rcases ih _ _ _ _ _ h with h1 | ⟨h1, h2⟩
            · exact Or.inl h1
            · refine Or.inr ⟨h1, ?_⟩
              rintro ⟨hq, hrv⟩
              apply h2
              exact ⟨fun x hx => hq x (List.mem_cons_of_mem _ hx),
                (Sheet.Grows.materialize s current hnone).refsValid hrv⟩

theorem cycleLoop_circular_reach (pos : Position) (fuel : Nat) :
    ∀ (s : Sheet) (q pred : List Position) (s1 : Sheet),
      cycleLoop pos fuel s q pred = Outcome.raised Exception.CircularDependencyException s1 →
      ∃ x ∈ q, Relation.ReflTransGen s.Edge x pos := by
  induction fuel with
  | zero => intro s q pred s1 h; simp [cycleLoop] at h
  | succ fuel ih =>
    intro s q pred s1 h
    cases q with
    | nil => simp [cycleLoop_nil] at h
    | cons current queue =>
      rw [cycleLoop_cons] at h
      split at h
      · rename_i hc
        exact ⟨current, List.mem_cons_self _ _, hc ▸ Relation.ReflTransGen.refl⟩
      · split at h
        · simp at h
        · split at h
          · rename_i cell hcell
            obtain ⟨x, hx, hreach⟩ := ih _ _ _ _ h
            rcases List.mem_append.1 hx with hx | hx
            · exact ⟨x, List.mem_cons_of_mem _ hx, hreach⟩
            · refine ⟨current, List.mem_cons_self _ _, Relation.ReflTransGen.head ?_ hreach⟩
              simp only [Sheet.Edge, Sheet.refsAt, hcell]
              exact (List.mem_filter.1 hx).1
          · rename_i hnone
            obtain ⟨x, hx, hreach⟩ := ih _ _ _ _ h
            rw [(Sheet.Grows.materialize s current hnone).edge] at hreach
            exact ⟨x, List.mem_cons_of_mem _ hx, hreach⟩

theorem cycleLoop_ok_closed (pos : Position) (fuel : Nat) :
    ∀ (s : Sheet) (q pred : List Position) (s1 : Sheet),
      cycleLoop pos fuel s q pred = Outcome.ok () s1 →
      ∃ S : List Position, (∀ x ∈ q, x ∈ S) ∧ (∀ x ∈ pred, x ∈ S) ∧
        (∀ x ∈ S, x ≠ pos ∨ x ∈ pred) ∧
        (∀ x ∈ S, x ∈ pred ∨ ∀ y ∈ s.refsAt x, y ∈ S) := by
  induction fuel with
  | zero => intro s q pred s1 h; simp [cycleLoop] at h
  | succ fuel ih =>
    intro s q pred s1 h
    cases q with
    | nil =>
      exact ⟨pred, by simp, fun x hx => hx, fun x hx => Or.inr hx, fun x hx => Or.inl hx⟩
    | cons current queue =>
      rw [cycleLoop_cons] at h
      split at h
      · simp at h
      · rename_i hne
        split at h
        · simp at h
        · split at h
          · rename_i cell hcell
            obtain ⟨S, hq, hp, hpos, hcl⟩ := ih _ _ _ _ h
            refine ⟨S, ?_, fun x hx => hp x (List.mem_cons_of_mem _ hx), ?_, ?_⟩
            · intro x hx
              rcases List.mem_cons.1 hx with hx | hx
              · subst hx; exact hp x (List.mem_cons_self _ _)
              · exact hq x (List.mem_append_left _ hx)
            · intro x hx
              rcases hpos x hx with h1 | h1
              · exact Or.inl h1
              · rcases List.mem_cons.1 h1 with h2 | h2
                · subst h2; exact Or.inl hne
                · exact Or.inr h2
            · intro x hx
              rcases hcl x hx with h1 | h1
              · rcases List.mem_cons.1 h1 with h2 | h2
                · subst h2
                  by_cases hxp : x ∈ pred
                  · exact Or.inl hxp
                  · refine Or.inr ?_
                    intro y hy
                    simp only [Sheet.refsAt, hcell] at hy
                    by_cases hyp : y ∈ pred
                    · exact hp y (List.mem_cons_of_mem _ hyp)
                    · apply hq y
                      apply List.mem_append_right
                      apply List.mem_filter.2
                      refine ⟨hy, ?_⟩
                      simpa using hyp
                · exact Or.inl h2
              · exact Or.inr h1
          · rename_i hnone
            obtain ⟨S, hq, hp, hpos, hcl⟩ := ih _ _ _ _ h
            have hg := Sheet.Grows.materialize s current hnone
            refine ⟨S, ?_, fun x hx => hp x (List.mem_cons_of_mem _ hx), ?_, ?_⟩
            · intro x hx
              rcases List.mem_cons.1 hx with hx | hx
              · subst hx; exact hp x (List.mem_cons_self _ _)
              · exact hq x hx
            · intro x hx
              rcases hpos x hx with h1 | h1
              · exact Or.inl h1
              · rcases List.mem_cons.1 h1 with h2 | h2
                · subst h2; exact Or.inl hne
                · exact Or.inr h2
            · intro x hx
              rcases hcl x hx with h1 | h1
              · rcases List.mem_cons.1 h1 with h2 | h2
                · subst h2
                  refine Or.inr ?_
                  intro y hy
                  simp [Sheet.refsAt, hnone] at hy
                · exact Or.inl h2
              · refine Or.inr ?_
                intro y hy
                rw [← hg.refsAt_grows] at hy
                exact h1 y hy

/-- When the loop started with no predecessors returns, the position is not
reachable from any queued position. -/
theorem cycleLoop_ok_unreachable (pos : Position) (fuel : Nat) (s : Sheet)
    (q : List Position) (s1 : Sheet)
    (h : cycleLoop pos fuel s q [] = Outcome.ok () s1) :
    ∀ x ∈ q, ¬ Relation.ReflTransGen s.Edge x pos := by
  obtain ⟨S, hq, -, hpos, hcl⟩ := cycleLoop_ok_closed pos fuel s q [] s1 h
  intro x hx hreach
  have hmem : ∀ y, Relation.ReflTransGen s.Edge x y → y ∈ S := by
    intro y hy
    induction hy with
    | refl => exact hq x hx
    | tail _ hedge ih =>
      rcases hcl _ ih with h1 | h1
      · simp at h1
      · exact h1 _ hedge
  rcases hpos pos (hmem pos hreach) with h1 | h1
  · exact h1 rfl
  · simp at h1

/-! ### Termination of the cycle check -/

theorem weightNew_pos (r u : Nat) : 1 ≤ weightNew r u := by
  cases u <;> simp [weightNew]

theorem weightNew_le_weightOld (r u : Nat) : weightNew r u ≤ weightOld r u := by
  unfold weightOld
  rcases Nat.eq_zero_or_pos r with h | h
  · subst h
    cases u <;> simp [weightNew]
  · nlinarith [weightNew_pos r u]

theorem weightOld_le_weightNew_succ (r u : Nat) : weightOld r u ≤ weightNew r (u + 1) := by
  simp only [weightNew, weightOld]
  rcases Nat.eq_zero_or_pos r with h | h
  · subst h; simp
  · exact Nat.le_succ_of_le (Nat.le_mul_of_pos_left _ h)

theorem weightNew_succ (r u : Nat) : weightNew r (u + 1) = r * weightOld r u + 1 := by
  simp only [weightNew, weightOld]

theorem weightNew_mono (r : Nat) {u v : Nat} (h : u ≤ v) : weightNew r u ≤ weightNew r v := by
  induction h with
  | refl => exact Nat.le_refl _
  | step _ ih =>
    exact ih.trans ((weightNew_le_weightOld r _).trans (weightOld_le_weightNew_succ r _))

theorem weightOld_mono (r : Nat) {u v : Nat} (h : u ≤ v) : weightOld r u ≤ weightOld r v := by
  unfold weightOld
  have := weightNew_mono r h
  nlinarith

theorem unprocessed_cons_le (L pred : List Position) (c : Position) :
    unprocessed L (c :: pred) ≤ unprocessed L pred := by
  unfold unprocessed
  induction L with
  | nil => simp
  | cons a L ih =>
    simp only [List.filter_cons]
    by_cases h1 : a ∈ pred
    · have h2 : a ∈ c :: pred := List.mem_cons_of_mem _ h1
      simpa [h1, h2] using ih
    · by_cases h2 : a ∈ c :: pred
      · simp only [h1, h2, not_true_eq_false, not_false_eq_true, decide_True, decide_False,
          if_true, List.length_cons]
        simp only [Bool.false_eq_true, if_false]
        exact Nat.le_succ_of_le ih
      · simp only [h1, h2, not_false_eq_true, decide_True, if_true, List.length_cons]
        exact Nat.succ_le_succ ih

theorem unprocessed_cons_lt (L pred : List Position) (c : Position)
    (hL : c ∈ L) (hp : c ∉ pred) :
    unprocessed L (c :: pred) + 1 ≤ unprocessed L pred := by
  induction L with
  | nil => simp at hL
  | cons a L ih =>
    by_cases hac : a = c
    · subst hac
      have h := unprocessed_cons_le L pred a
      have h2 : a ∈ a :: pred := List.mem_cons_self _ _
      unfold unprocessed at h ⊢
      simp only [List.filter_cons]
      simp only [hp, h2, not_true_eq_false, not_false_eq_true, decide_True,
        decide_False, if_true, List.length_cons]
      simp only [Bool.false_eq_true, if_false]
      omega
    · have hL1 : c ∈ L := by
        rcases List.mem_cons.1 hL with h | h
        · exact absurd h.symm hac
        · exact h
      have h := ih hL1
      unfold unprocessed at h ⊢
      simp only [List.filter_cons]
      by_cases h1 : a ∈ pred
      · have h2 : a ∈ c :: pred := List.mem_cons_of_mem _ h1
        simpa [h1, h2] using h
      · have h2 : a ∉ c :: pred := by
          simp only [List.mem_cons, not_or]
          exact ⟨hac, h1⟩
        simp only [h1, h2, not_false_eq_true, decide_True, if_true, List.length_cons]
        omega

theorem weight_le_weightOld (r : Nat) (L pred : List Position) (y : Position) :
    weight r L pred y ≤ weightOld r (unprocessed L pred) := by
  unfold weight
  split
  · exact Nat.le_refl _
  · exact weightNew_le_weightOld r _

theorem weight_pos (r : Nat) (L pred : List Position) (y : Position) :
    1 ≤ weight r L pred y := by
  unfold weight
  split
  · exact (weightNew_pos r _).trans (weightNew_le_weightOld r _)
  · exact weightNew_pos r _

theorem weight_cons_le (r : Nat) (L pred : List Position) (c y : Position) (hc : c ∈ L) :
    weight r L (c :: pred) y ≤ weight r L pred y := by
  have hle := unprocessed_cons_le L pred c
  by_cases hy : y ∈ pred
  · have hy1 : y ∈ c :: pred := List.mem_cons_of_mem _ hy
    simp only [weight, hy, hy1, if_true]
    exact weightOld_mono r hle
  · by_cases hyc : y = c
    · subst hyc
      have hlt := unprocessed_cons_lt L pred y hc hy
      have hy1 : y ∈ y :: pred := List.mem_cons_self _ _
      simp only [weight, hy, hy1, if_true, if_false]
      exact (weightOld_le_weightNew_succ r _).trans (weightNew_mono r hlt)
    · have hy1 : y ∉ c :: pred := by
        simp only [List.mem_cons, not_or]
        exact ⟨hyc, hy⟩
      simp only [weight, hy, hy1, if_false]
      exact weightNew_mono r hle

theorem potential_cons_le (r : Nat) (L pred : List Position) (c : Position) (hc : c ∈ L)
    (q : List Position) : potential r L (c :: pred) q ≤ potential r L pred q := by
  induction q with
  | nil => simp [potential]
  | cons y q ih =>
    simp only [potential]
    exact Nat.add_le_add (weight_cons_le r L pred c y hc) ih

theorem potential_append (r : Nat) (L pred : List Position) (q1 q2 : List Position) :
    potential r L pred (q1 ++ q2) = potential r L pred q1 + potential r L pred q2 := by
  induction q1 with
  | nil => simp [potential]
  | cons y q ih =>
    show weight r L pred y + potential r L pred (q ++ q2) = _
    rw [ih]
    simp only [potential, Nat.add_assoc]

theorem potential_le_of_bound (r : Nat) (L pred : List Position) (l : List Position) (W : Nat)
    (h : ∀ y ∈ l, weight r L pred y ≤ W) : potential r L pred l ≤ l.length * W := by
  induction l with
  | nil => simp [potential]
  | cons y l ih =>
    simp only [potential, List.length_cons]
    have h1 := h y (List.mem_cons_self _ _)
    have h2 := ih (fun z hz => h z (List.mem_cons_of_mem _ hz))
    rw [Nat.succ_mul]
    omega

/-- One iteration on a position that holds a cell lowers the potential. -/
theorem potential_step (r : Nat) (L pred : List Position) (c : Position)
    (q refs : List Position) (hc : c ∈ L) (hr : refs.length ≤ r) :
    potential r L (c :: pred)
        (q ++ refs.filter (fun x => !(pred.contains x))) + 1 ≤
      potential r L pred (c :: q) := by
  rw [potential_append]
  have hq := potential_cons_le r L pred c hc q
  have hlen : (refs.filter (fun x => !(pred.contains x))).length ≤ r :=
    (List.length_filter_le _ _).trans hr
  simp only [potential]
  by_cases hcp : c ∈ pred
  · have hnew : potential r L (c :: pred) (refs.filter (fun x => !(pred.contains x))) ≤
        (refs.filter (fun x => !(pred.contains x))).length *
          weightNew r (unprocessed L pred) := by
      apply potential_le_of_bound
      intro y hy
      have hy0 : y ∉ pred := by
        have := (List.mem_filter.1 hy).2
        simpa using this
      have hy1 : y ∉ c :: pred := by
        simp only [List.mem_cons, not_or]
        refine ⟨?_, hy0⟩
        rintro rfl
        exact hy0 hcp
      simp only [weight, hy1, if_false]
      exact weightNew_mono r (unprocessed_cons_le L pred c)
    have hmul := Nat.mul_le_mul_right (weightNew r (unprocessed L pred)) hlen
    have hw : weight r L pred c = r * weightNew r (unprocessed L pred) + 1 := by
      simp only [weight, hcp, if_true, weightOld]
    omega
  · have hlt := unprocessed_cons_lt L pred c hc hcp
    have hnew : potential r L (c :: pred) (refs.filter (fun x => !(pred.contains x))) ≤
        (refs.filter (fun x => !(pred.contains x))).length *
          weightOld r (unprocessed L (c :: pred)) :=
      potential_le_of_bound r L _ _ _ (fun y _ => weight_le_weightOld r L _ y)
    have hmul := Nat.mul_le_mul_right (weightOld r (unprocessed L (c :: pred))) hlen
    have hw : r * weightOld r (unprocessed L (c :: pred)) + 1 ≤ weight r L pred c := by
      simp only [weight, hcp, if_false]
      rw [← weightNew_succ]
      exact weightNew_mono r hlt
    omega

/-- With fuel above the potential the loop does not run out of fuel. -/
theorem cycleLoop_fuel (pos : Position) (r : Nat) (L : List Position) (fuel : Nat) :
    ∀ (s : Sheet) (q pred : List Position),
      (∀ x ∈ q, x ∈ L) → (∀ p, ∀ y ∈ s.refsAt p, y ∈ L) → (∀ p, (s.refsAt p).length ≤ r) →
      potential r L pred q < fuel →
      cycleLoop pos fuel s q pred ≠ Outcome.diverge := by
  induction fuel with
  | zero => intro s q pred _ _ _ h; omega
  | succ fuel ih =>
    intro s q pred hq hL hr hpot
    cases q with
    | nil => simp [cycleLoop_nil]
    | cons current queue =>
      rw [cycleLoop_cons]
      have hcL : current ∈ L := hq current (List.mem_cons_self _ _)
      split
      · simp
      · split
        · simp
        · split
          · rename_i cell hcell
            have hrefs : s.refsAt current = cell.GetReferencedCells := by
              simp only [Sheet.refsAt, hcell]
            have hstep := potential_step r L pred current queue cell.GetReferencedCells hcL
              (hrefs ▸ hr current)
            apply ih _ _ _ _ hL hr (by omega)
            intro x hx
            rcases List.mem_append.1 hx with hx | hx
            · exact hq x (List.mem_cons_of_mem _ hx)
            · exact hL current x (hrefs ▸ (List.mem_filter.1 hx).1)
          · rename_i hnone
            have hg := Sheet.Grows.materialize s current hnone
            have h1 := potential_cons_le r L pred current hcL queue
            have h2 := weight_pos r L pred current
            simp only [potential] at hpot
            apply ih _ _ _ (fun x hx => hq x (List.mem_cons_of_mem _ hx))
            · intro p y hy
              rw [hg.refsAt_grows] at hy
              exact hL p y hy
            · intro p
              rw [hg.refsAt_grows]
              exact hr p
            · omega

theorem find_mem {m : CellMap} {p : Position} {v : Option Cell}
    (h : CellMap.find m p = some v) : (p, v) ∈ m := by
  induction m with
  | nil => simp [CellMap.find] at h
  | cons e rest ih =>
    obtain ⟨k, w⟩ := e
    simp only [CellMap.find] at h
    split at h
    · rename_i hk
      simp only [Option.some.injEq] at h
      subst hk; subst h
      exact List.mem_cons_self _ _
    · exact List.mem_cons_of_mem _ (ih h)

theorem refsAt_sublist_positionsOf (s : Sheet) (refs : List Position) (p : Position) :
    (s.refsAt p).Sublist (positionsOf s refs) := by
  unfold positionsOf
  apply List.Sublist.trans _ (List.sublist_append_right _ _)
  unfold Sheet.refsAt Sheet.cellAt
  split
  · rename_i c hc
    split at hc
    · rename_i c1 hfind
      simp only [Option.some.injEq] at hc
      subst hc
      have hmem := find_mem hfind
      generalize s.sheet_ = m at hmem
      induction m with
      | nil => simp at hmem
      | cons e rest ih =>
        simp only [List.flatMap_cons]
        rcases List.mem_cons.1 hmem with h | h
        · subst h
          exact List.sublist_append_left _ _
        · exact (ih h).trans (List.sublist_append_right _ _)
    · cases hc
  · exact List.nil_sublist _

/-- The cycle check of the constructor never runs out of fuel. -/
theorem cycleLoop_total (pos : Position) (s : Sheet) (refs : List Position) :
    cycleLoop pos (cycleFuel s refs) s refs [] ≠ Outcome.diverge := by
  apply cycleLoop_fuel pos (positionsOf s refs).length (positionsOf s refs)
  · intro x hx
    exact List.mem_append_left _ hx
  · intro p y hy
    exact (refsAt_sublist_positionsOf s refs p).subset hy
  · intro p
    exact (refsAt_sublist_positionsOf s refs p).length_le
  · have h := potential_le_of_bound (positionsOf s refs).length (positionsOf s refs) [] refs
      (weightNew (positionsOf s refs).length (positionsOf s refs).length) (by
        intro y _
        have hu : unprocessed (positionsOf s refs) [] = (positionsOf s refs).length := by
          simp [unprocessed]
        simp only [weight, List.not_mem_nil, if_false, hu]
        exact Nat.le_refl _)
    unfold cycleFuel
    omega

/-! ## The constructor -/

theorem Cell.refs_eq (c : Cell) : c.GetReferencedCells = c.impl_.refs := by
  unfold Cell.GetReferencedCells Impl.refs
  split <;> simp_all

theorem classify_error {E : Env} {text : String} {e : Exception}
    (h : classify E text = Except.error e) : e = Exception.FormulaException := by
  unfold classify at h
  split at h
  · cases h
  · cases h
  · split at h
    · cases h; rfl
    · cases h
  · cases h

theorem Sheet.Grows.of_sheet_eq {s s1 : Sheet} (s0 : Sheet) (h : s0.sheet_ = s.sheet_)
    (hg : s0.Grows s1) : s.Grows s1 := by
  intro p
  have := hg p
  simpa only [Sheet.cellAt, h] using this

theorem edge_of_sheet_eq (s s0 : Sheet) (h : s0.sheet_ = s.sheet_) : s0.Edge = s.Edge := by
  funext p q
  simp only [Sheet.Edge, Sheet.refsAt, Sheet.cellAt, h]

theorem refsValid_of_sheet_eq (s s0 : Sheet) (h : s0.sheet_ = s.sheet_) (hv : s.RefsValid) :
    s0.RefsValid := by
  intro p q hq
  apply hv p q
  simpa only [Sheet.refsAt, Sheet.cellAt, h] using hq

theorem Cell_new_not_ub (E : Env) (text : String) (s : Sheet) (pos : Position) :
    Cell.new E text s pos ≠ Outcome.ub := by
  unfold Cell.new
  split
  · simp
  · cases hloop : cycleLoop pos
        (cycleFuel { sheet_ := s.sheet_, next := s.next + 1 } _)
        { sheet_ := s.sheet_, next := s.next + 1 } _ [] with
    | ok u s2 => simp [withCell]
    | raised e s2 => simp [withCell]
    | ub => exact absurd hloop (cycleLoop_not_ub _ _ _ _ _)
    | diverge => simp [withCell]
  · simp

theorem Cell_new_not_diverge (E : Env) (text : String) (s : Sheet) (pos : Position) :
    Cell.new E text s pos ≠ Outcome.diverge := by
  unfold Cell.new
  split
  · simp
  · cases hloop : cycleLoop pos
        (cycleFuel { sheet_ := s.sheet_, next := s.next + 1 } _)
        { sheet_ := s.sheet_, next := s.next + 1 } _ [] with
    | ok u s2 => simp [withCell]
    | raised e s2 => simp [withCell]
    | ub => simp [withCell]
    | diverge => exact absurd hloop (cycleLoop_total _ _ _)
  · simp

theorem Cell_new_ok {E : Env} {text : String} {s : Sheet} {pos : Position} {c : Cell}
    {s1 : Sheet} (h : Cell.new E text s pos = Outcome.ok c s1) :
    s.Grows s1 ∧ classify E text = Except.ok c.impl_ ∧ c.addr = s.next ∧
      c.dependent_cells_ = [] ∧
      ∀ x ∈ c.GetReferencedCells, ¬ Relation.ReflTransGen s.Edge x pos := by
  unfold Cell.new at h
  split at h
  · cases h
  · rename_i t f ch hcl
    cases hloop : cycleLoop pos
        (cycleFuel { sheet_ := s.sheet_, next := s.next + 1 } f.GetReferencedCells)
        { sheet_ := s.sheet_, next := s.next + 1 } f.GetReferencedCells [] with
    | ok u s2 =>
      rw [hloop] at h
      simp only [withCell, Outcome.ok.injEq] at h
      obtain ⟨hc, hs⟩ := h
      subst hc; subst hs
      refine ⟨?_, hcl, rfl, rfl, ?_⟩
      · exact Sheet.Grows.of_sheet_eq { sheet_ := s.sheet_, next := s.next + 1 } rfl
          (cycleLoop_grows _ _ _ _ _ _ (by rw [hloop]; rfl))
      · intro x hx
        have := cycleLoop_ok_unreachable _ _ _ _ _ hloop x hx
        rwa [edge_of_sheet_eq s { sheet_ := s.sheet_, next := s.next + 1 } rfl] at this
    | raised e s2 => rw [hloop] at h; simp [withCell] at h
    | ub => rw [hloop] at h; simp [withCell] at h
    | diverge => rw [hloop] at h; simp [withCell] at h
  · rename_i impl hnf hcl
    simp only [Outcome.ok.injEq] at h
    obtain ⟨hc, hs⟩ := h
    subst hc; subst hs
    refine ⟨fun _ => Or.inl rfl, hcl, rfl, rfl, ?_⟩
    intro x hx
    rw [Cell.refs_eq] at hx
    cases impl with
    | EmptyImpl => simp [Impl.refs] at hx
    | TextImpl t => simp [Impl.refs] at hx
    | FormulaImpl t f ch => exact absurd rfl (hnf t f ch)

theorem Cell_new_raised {E : Env} {text : String} {s : Sheet} {pos : Position}
    {e : Exception} {s1 : Sheet} (h : Cell.new E text s pos = Outcome.raised e s1) :
    s.Grows s1 ∧
      ((e = Exception.FormulaException ∧ s1 = s ∧
          classify E text = Except.error Exception.FormulaException) ∨
       (∃ impl, classify E text = Except.ok impl ∧
          ((e = Exception.CircularDependencyException ∧
            ∃ x ∈ impl.refs, Relation.ReflTransGen s.Edge x pos) ∨
           (e = Exception.InvalidPositionException ∧
            ¬ ((∀ x ∈ impl.refs, x.IsValid = true) ∧ s.RefsValid))))) := by
  unfold Cell.new at h
  split at h
  · rename_i e1 hcl
    simp only [Outcome.raised.injEq] at h
    obtain ⟨he, hs⟩ := h
    subst he; subst hs
    have := classify_error hcl
    subst this
    exact ⟨Sheet.Grows.refl_grows _, Or.inl ⟨rfl, rfl, hcl⟩⟩
  · rename_i t f ch hcl
    cases hloop : cycleLoop pos
        (cycleFuel { sheet_ := s.sheet_, next := s.next + 1 } f.GetReferencedCells)
        { sheet_ := s.sheet_, next := s.next + 1 } f.GetReferencedCells [] with
    | ok u s2 => rw [hloop] at h; simp [withCell] at h
    | raised e2 s2 =>
      rw [hloop] at h
      simp only [withCell, Outcome.raised.injEq] at h
      obtain ⟨he, hs⟩ := h
      subst he; subst hs
      refine ⟨Sheet.Grows.of_sheet_eq { sheet_ := s.sheet_, next := s.next + 1 } rfl
          (cycleLoop_grows _ _ _ _ _ _ (by rw [hloop]; rfl)), Or.inr ⟨_, hcl, ?_⟩⟩
      rcases cycleLoop_raised _ _ _ _ _ _ _ hloop with h1 | ⟨h1, h2⟩
      · subst h1
        left
        refine ⟨rfl, ?_⟩
        have := cycleLoop_circular_reach _ _ _ _ _ _ hloop
        rwa [edge_of_sheet_eq s { sheet_ := s.sheet_, next := s.next + 1 } rfl] at this
      · subst h1
        right
        refine ⟨rfl, ?_⟩
        rintro ⟨hv, hrv⟩
        exact h2 ⟨hv, refsValid_of_sheet_eq s _ rfl hrv⟩
    | ub => rw [hloop] at h; simp [withCell] at h
    | diverge => rw [hloop] at h; simp [withCell] at h
  · cases h

/-! ## Similar sheets -/

theorem Impl.refs_InvalidateCache (i : Impl) : i.InvalidateCache.refs = i.refs := by
  cases i <;> rfl

theorem Impl.InvalidateCache_idem (i : Impl) :
    i.InvalidateCache.InvalidateCache = i.InvalidateCache := by
  cases i <;> rfl

theorem Impl.refs_congr {i j : Impl} (h : i.InvalidateCache = j.InvalidateCache) :
    i.refs = j.refs := by
  rw [← Impl.refs_InvalidateCache i, h, Impl.refs_InvalidateCache]

/-- `GetText` computed on the implementation. -/
theorem Cell.GetText_congr (E : Env) {c d : Cell}
    (h : c.impl_.InvalidateCache = d.impl_.InvalidateCache) : c.GetText E = d.GetText E := by
  unfold Cell.GetText
  cases hc : c.impl_ <;> cases hd : d.impl_ <;>
    simp_all [Impl.InvalidateCache, Impl.GetText]

theorem Sheet.SimilarAt.refl_at (s : Sheet) (p : Position) : s.SimilarAt s p :=
  ⟨fun c hc => ⟨c, hc, rfl⟩, fun h => Or.inl h⟩

theorem Sheet.SimilarAt.trans_at {s s1 s2 : Sheet} {p : Position}
    (h1 : s.SimilarAt s1 p) (h2 : s1.SimilarAt s2 p) : s.SimilarAt s2 p := by
  constructor
  · intro c hc
    obtain ⟨c1, hc1, e1⟩ := h1.1 c hc
    obtain ⟨c2, hc2, e2⟩ := h2.1 c1 hc1
    exact ⟨c2, hc2, e2.trans e1⟩
  · intro hn
    rcases h1.2 hn with h | ⟨c1, hc1, e1⟩
    · exact h2.2 h
    · obtain ⟨c2, hc2, e2⟩ := h2.1 c1 hc1
      refine Or.inr ⟨c2, hc2, ?_⟩
      rw [e1] at e2
      cases hi : c2.impl_ <;> simp_all [Impl.InvalidateCache]

theorem Sheet.SimilarAt.of_find {s s1 : Sheet} {p : Position}
    (h : CellMap.find s1.sheet_ p = CellMap.find s.sheet_ p) : s.SimilarAt s1 p := by
  have hc := cellAt_eq_of_find h
  exact ⟨fun c h1 => ⟨c, hc.trans h1, rfl⟩, fun h1 => Or.inl (hc.trans h1)⟩

theorem Sheet.Similar.refl_sim (s : Sheet) : s.Similar s := fun p => Sheet.SimilarAt.refl_at s p

theorem Sheet.Similar.trans_sim {s s1 s2 : Sheet} (h1 : s.Similar s1) (h2 : s1.Similar s2) :
    s.Similar s2 := fun p => (h1 p).trans_at (h2 p)

theorem Sheet.Grows.similar {s s1 : Sheet} (h : s.Grows s1) : s.Similar s1 := by
  intro p
  rcases h p with h | ⟨hn, a, ha⟩
  · exact Sheet.SimilarAt.of_find h
  · refine ⟨fun c hc => ?_, fun _ => Or.inr
      ⟨{ addr := a, impl_ := Impl.EmptyImpl, dependent_cells_ := [] }, ?_, rfl⟩⟩
    · rw [hn] at hc; cases hc
    · simp only [Sheet.cellAt, ha]

theorem Sheet.SimilarAt.refsAt_at {s s1 : Sheet} {p : Position} (h : s.SimilarAt s1 p) :
    s1.refsAt p = s.refsAt p := by
  unfold Sheet.refsAt
  cases hc : s.cellAt p with
  | some c =>
    obtain ⟨c1, hc1, e1⟩ := h.1 c hc
    simp only [hc1, Cell.refs_eq]
    exact Impl.refs_congr e1
  | none =>
    rcases h.2 hc with h1 | ⟨c1, hc1, e1⟩
    · simp only [h1]
    · simp only [hc1, Cell.refs_eq, e1, Impl.refs]

theorem Sheet.SimilarAt.textAt_at (E : Env) {s s1 : Sheet} {p : Position}
    (h : s.SimilarAt s1 p) : s1.textAt E p = s.textAt E p := by
  unfold Sheet.textAt
  cases hc : s.cellAt p with
  | some c =>
    obtain ⟨c1, hc1, e1⟩ := h.1 c hc
    simp only [hc1]
    exact Cell.GetText_congr E e1
  | none =>
    rcases h.2 hc with h1 | ⟨c1, hc1, e1⟩
    · simp only [h1]
    · simp only [hc1, Cell.GetText, e1, Impl.GetText]

/-! ## Cache invalidation keeps everything but caches -/

theorem Cell.dropCache_idem (c : Cell) : c.dropCache.dropCache = c.dropCache := by
  simp only [Cell.dropCache, Impl.InvalidateCache_idem]

theorem modify_strip (m : CellMap) (a : Nat) :
    CellMap.strip (CellMap.modify m a
      (fun c1 => { c1 with impl_ := c1.impl_.InvalidateCache })) = CellMap.strip m := by
  unfold CellMap.strip CellMap.modify
  rw [List.map_map]
  apply List.map_congr_left
  intro e _
  obtain ⟨k, v⟩ := e
  cases v with
  | none => rfl
  | some c =>
    simp only [Function.comp, Option.map_some', Prod.mk.injEq, Option.some.injEq, true_and]
    split
    · exact Cell.dropCache_idem c
    · rfl

theorem invFold_strip (depth : Nat) (m : CellMap)
    (ih : ∀ (m0 : CellMap) (a : Nat) (m1 : CellMap),
      InvalidateCache depth m0 a = InvResult.done m1 → CellMap.strip m1 = CellMap.strip m0) :
    ∀ (ds : List Nat) (init : InvResult) (m1 : CellMap),
      (∀ m0, init = InvResult.done m0 → CellMap.strip m0 = CellMap.strip m) →
      ds.foldl (fun acc d =>
          match acc with
          | InvResult.done m2 => InvalidateCache depth m2 d
          | r => r) init = InvResult.done m1 →
      CellMap.strip m1 = CellMap.strip m := by
  intro ds
  induction ds with
  | nil =>
    intro init m1 hinit h
    simp only [List.foldl_nil] at h
    exact hinit m1 h
  | cons d ds ihds =>
    intro init m1 hinit h
    simp only [List.foldl_cons] at h
    refine ihds _ m1 ?_ h
    intro m0 h0
    cases init with
    | done m2 =>
      simp only at h0
      exact (ih m2 d m0 h0).trans (hinit m2 rfl)
    | ub => simp at h0
    | diverge => simp at h0

theorem InvalidateCache_strip (depth : Nat) :
    ∀ (m : CellMap) (a : Nat) (m1 : CellMap),
      InvalidateCache depth m a = InvResult.done m1 → CellMap.strip m1 = CellMap.strip m := by
  induction depth with
  | zero => intro m a m1 h; simp [InvalidateCache] at h
  | succ depth ih =>
    intro m a m1 h
    unfold InvalidateCache at h
    split at h
    · cases h
    · exact invFold_strip depth m ih _ _ m1
        (fun m0 h0 => by
          simp only [InvResult.done.injEq] at h0
          subst h0
          exact modify_strip m a) h

theorem find_strip (m : CellMap) (p : Position) :
    CellMap.find (CellMap.strip m) p = (CellMap.find m p).map (Option.map Cell.dropCache) := by
  induction m with
  | nil => rfl
  | cons e rest ih =>
    obtain ⟨k, v⟩ := e
    simp only [CellMap.strip, List.map_cons, CellMap.find]
    split
    · rfl
    · exact ih

theorem similar_of_strip {s s1 : Sheet} (h : CellMap.strip s1.sheet_ = CellMap.strip s.sheet_) :
    s.Similar s1 := by
  intro p
  have hp : (CellMap.find s1.sheet_ p).map (Option.map Cell.dropCache) =
      (CellMap.find s.sheet_ p).map (Option.map Cell.dropCache) := by
    rw [← find_strip, ← find_strip, h]
  unfold Sheet.SimilarAt Sheet.cellAt
  cases h0 : CellMap.find s.sheet_ p with
  | none =>
    rw [h0] at hp
    cases h1 : CellMap.find s1.sheet_ p with
    | none => simp
    | some v => rw [h1] at hp; simp at hp
  | some v =>
    rw [h0] at hp
    cases h1 : CellMap.find s1.sheet_ p with
    | none => rw [h1] at hp; simp at hp
    | some v1 =>
      rw [h1] at hp
      simp only [Option.map_some', Option.some.injEq] at hp
      cases v with
      | none =>
        cases v1 with
        | none => simp
        | some c1 => simp at hp
      | some c =>
        cases v1 with
        | none => simp at hp
        | some c1 =>
          simp only [Option.map_some', Option.some.injEq] at hp
          simp only [Option.some.injEq, forall_eq', exists_eq_left', false_imp_iff, and_true]
          have := congrArg Cell.impl_ hp
          simpa [Cell.dropCache] using this

/-! ## The loops over referenced cells -/

theorem find_none_cellAt {s : Sheet} {p : Position} (h : CellMap.find s.sheet_ p = none) :
    s.cellAt p = none := by
  simp only [Sheet.cellAt, h]

theorem similar_assign_same_impl {s : Sheet} {p : Position} {c d : Cell} {n : Nat}
    (hc : s.cellAt p = some c) (hd : d.impl_ = c.impl_) :
    s.Similar { sheet_ := CellMap.assign s.sheet_ p (some d), next := n } := by
  intro q
  by_cases hq : p = q
  · subst hq
    have h1 : Sheet.cellAt { sheet_ := CellMap.assign s.sheet_ p (some d), next := n } p =
        some d := by
      simp only [Sheet.cellAt, find_assign, if_true]
    refine ⟨fun c0 h0 => ⟨d, h1, ?_⟩, fun h0 => ?_⟩
    · rw [hc] at h0
      cases h0
      rw [hd]
    · rw [hc] at h0; cases h0
  · apply Sheet.SimilarAt.of_find
    simp only [find_assign, hq, if_false]

theorem updateDependents_spec (upd : List Nat → List Nat) (s : Sheet) (pos_ : Position) :
    (∃ s1, s.updateDependents upd pos_ = Outcome.ok () s1 ∧ s.Similar s1 ∧
        pos_.IsValid = true) ∨
    (s.updateDependents upd pos_ = Outcome.raised Exception.InvalidPositionException s ∧
        pos_.IsValid = false) ∨
    s.updateDependents upd pos_ = Outcome.ub := by
  unfold Sheet.updateDependents Sheet.GetRawCell
  cases hv : pos_.IsValid with
  | false => simp
  | true =>
    simp only [Bool.not_true, Bool.false_eq_true, if_false]
    cases hf : CellMap.find s.sheet_ pos_ with
    | none =>
      left
      refine ⟨_, rfl, ?_, by simp⟩
      have hg := (Sheet.Grows.materialize s pos_ (find_none_cellAt hf)).similar
      refine hg.trans_sim ?_
      have hcell : (s.materialize pos_).cellAt pos_ =
          some { addr := s.next, impl_ := Impl.EmptyImpl, dependent_cells_ := [] } := by
        simp only [Sheet.cellAt, Sheet.materialize, find_assign, if_true]
      exact similar_assign_same_impl hcell rfl
    | some v =>
      cases v with
      | none => right; right; rfl
      | some c =>
        left
        refine ⟨_, rfl, ?_, by simp⟩
        have hcell : s.cellAt pos_ = some c := by
          simp only [Sheet.cellAt, hf]
        exact similar_assign_same_impl hcell rfl

theorem updateAll_spec (upd : List Nat → List Nat) (refs : List Position) :
    ∀ s : Sheet,
    (∃ s1, Sheet.updateAll upd s refs = Outcome.ok () s1 ∧ s.Similar s1 ∧
        ∀ x ∈ refs, x.IsValid = true) ∨
    (∃ s1, Sheet.updateAll upd s refs = Outcome.raised Exception.InvalidPositionException s1 ∧
        s.Similar s1 ∧ ∃ x ∈ refs, x.IsValid = false) ∨
    Sheet.updateAll upd s refs = Outcome.ub := by
  induction refs with
  | nil =>
    intro s
    exact Or.inl ⟨s, rfl, Sheet.Similar.refl_sim s, by simp⟩
  | cons pos_ rest ih =>
    intro s
    unfold Sheet.updateAll
    rcases updateDependents_spec upd s pos_ with ⟨s1, h1, hs1, hv⟩ | ⟨h1, hv⟩ | h1
    · rw [h1]
      simp only
      rcases ih s1 with ⟨s2, h2, hs2, hv2⟩ | ⟨s2, h2, hs2, x, hx, hv2⟩ | h2
      · left
        refine ⟨s2, h2, hs1.trans_sim hs2, ?_⟩
        intro x hx
        rcases List.mem_cons.1 hx with h | h
        · subst h; exact hv
        · exact hv2 x h
      · right; left
        exact ⟨s2, h2, hs1.trans_sim hs2, x, List.mem_cons_of_mem _ hx, hv2⟩
      · right; right; exact h2
    · rw [h1]
      right; left
      exact ⟨s, rfl, Sheet.Similar.refl_sim s, pos_, List.mem_cons_self _ _, hv⟩
    · rw [h1]
      right; right; rfl

/-! ## Replacing the edges of one node keeps a graph acyclic -/

theorem reach_cut {α : Type} (R : α → α → Prop) (pos : α) {x : α}
    (h : Relation.ReflTransGen R x pos) :
    Relation.ReflTransGen (fun p q => p ≠ pos ∧ R p q) x pos := by
  induction h using Relation.ReflTransGen.head_induction_on with
  | refl => exact Relation.ReflTransGen.refl
  | @head a b hab _ ih =>
    by_cases ha : a = pos
    · rw [ha]
    · exact Relation.ReflTransGen.head ⟨ha, hab⟩ ih

theorem path_split {α : Type} (R : α → α → Prop) (pos : α) {a b : α}
    (h : Relation.TransGen R a b) :
    Relation.TransGen (fun p q => p ≠ pos ∧ R p q) a b ∨
      (Relation.ReflTransGen R a pos ∧ ∃ x, R pos x ∧ Relation.ReflTransGen R x b) := by
  induction h with
  | @single b hab =>
    by_cases ha : a = pos
    · refine Or.inr ⟨ha ▸ Relation.ReflTransGen.refl, b, ha ▸ hab, Relation.ReflTransGen.refl⟩
    · exact Or.inl (Relation.TransGen.single ⟨ha, hab⟩)
  | @tail c d hac hcb ih =>
    rcases ih with h1 | ⟨h1, x, hx, h2⟩
    · by_cases hc : c = pos
      · exact Or.inr ⟨hc ▸ hac.to_reflTransGen, d, hc ▸ hcb, Relation.ReflTransGen.refl⟩
      · exact Or.inl (Relation.TransGen.tail h1 ⟨hc, hcb⟩)
    · exact Or.inr ⟨h1, x, hx, Relation.ReflTransGen.tail h2 hcb⟩

theorem acyclic_of_update {α : Type} (R R1 : α → α → Prop) (pos : α)
    (hsub : ∀ p q, p ≠ pos → R1 p q → R p q)
    (hnew : ∀ x, R1 pos x → ¬ Relation.ReflTransGen (fun p q => p ≠ pos ∧ R p q) x pos)
    (hac : ∀ p, ¬ Relation.TransGen R p p) : ∀ p, ¬ Relation.TransGen R1 p p := by
  intro p hp
  rcases path_split R1 pos hp with h | ⟨h1, x, hx, h2⟩
  · exact hac p (Relation.TransGen.mono (fun a b hab => hsub a b hab.1 hab.2) h)
  · have hcut := reach_cut R1 pos (h2.trans h1)
    exact hnew x hx (Relation.ReflTransGen.mono (fun a b hab => ⟨hab.1, hsub a b hab.1 hab.2⟩) hcut)

theorem acyclic_of_subset {α : Type} (R R1 : α → α → Prop)
    (hsub : ∀ p q, R1 p q → R p q)
    (hac : ∀ p, ¬ Relation.TransGen R p p) : ∀ p, ¬ Relation.TransGen R1 p p :=
  fun p hp => hac p (Relation.TransGen.mono hsub hp)

/-! ## What `SetCell` does to the sheet -/

theorem edge_sub_of_similar {s sB : Sheet} {pos : Position}
    (hsim : ∀ q, q ≠ pos → s.SimilarAt sB q) :
    ∀ p q, (p ≠ pos ∧ s.Edge p q) → sB.Edge p q := by
  rintro p q ⟨hp, hpq⟩
  simp only [Sheet.Edge] at hpq ⊢
  rw [(hsim p hp).refsAt_at]
  exact hpq

theorem after_new_ok {E : Env} {s sB s1 s2 : Sheet} {pos : Position} {t : String} {c : Cell}
    (hsim : ∀ q, q ≠ pos → s.SimilarAt sB q)
    (hnew : Cell.new E t sB pos = Outcome.ok c s1)
    (hq : ∀ q, q ≠ pos → s1.SimilarAt s2 q)
    (hpos : ∃ c1, s2.cellAt pos = some c1 ∧
      c1.impl_.InvalidateCache = c.impl_.InvalidateCache) :
    Sheet.SetResult E s s2 pos := by
  obtain ⟨hg, hcl, -, -, hun⟩ := Cell_new_ok hnew
  obtain ⟨c1, hc1, he⟩ := hpos
  refine ⟨fun q hne => ((hsim q hne).trans_at (hg.similar q)).trans_at (hq q hne), ?_⟩
  right; right
  refine ⟨c1, t, c.impl_, hc1, hcl, he, ?_⟩
  intro x hx hreach
  rw [← Cell.refs_eq] at hx
  exact hun x hx (Relation.ReflTransGen.mono (edge_sub_of_similar hsim) hreach)

theorem after_grows {E : Env} {s sB s1 : Sheet} {pos : Position}
    (hsim : ∀ q, q ≠ pos → s.SimilarAt sB q) (hnone : sB.cellAt pos = none)
    (hg : sB.Grows s1) : Sheet.SetResult E s s1 pos := by
  refine ⟨fun q hne => (hsim q hne).trans_at (hg.similar q), ?_⟩
  rcases (hg.similar pos).2 hnone with h | ⟨c1, hc1, he⟩
  · exact Or.inr (Or.inl h)
  · right; right
    refine ⟨c1, "", Impl.EmptyImpl, hc1, rfl, by rw [he], ?_⟩
    intro x hx
    simp [Impl.refs] at hx

theorem after_erase {E : Env} {s sB s1 : Sheet} {pos : Position} (n : Nat)
    (hsim : ∀ q, q ≠ pos → s.SimilarAt sB q) (hg : sB.Grows s1) :
    Sheet.SetResult E s { sheet_ := CellMap.erase s1.sheet_ pos, next := n } pos := by
  refine ⟨fun q hne => ((hsim q hne).trans_at (hg.similar q)).trans_at ?_, Or.inr (Or.inl ?_)⟩
  · apply Sheet.SimilarAt.of_find
    simp only [find_erase, Ne.symm hne, if_false]
  · simp only [Sheet.cellAt, find_erase, if_true]

theorem similarAt_assign_ne (s : Sheet) (pos q : Position) (v : Option Cell) (n : Nat)
    (hne : q ≠ pos) :
    s.SimilarAt { sheet_ := CellMap.assign s.sheet_ pos v, next := n } q := by
  apply Sheet.SimilarAt.of_find
  simp only [find_assign, Ne.symm hne, if_false]

theorem cellAt_assign_self (m : CellMap) (pos : Position) (c : Cell) (n : Nat) :
    Sheet.cellAt { sheet_ := CellMap.assign m pos (some c), next := n } pos = some c := by
  simp only [Sheet.cellAt, find_assign, if_true]

theorem createCell_result {E : Env} {s s1 : Sheet} {pos : Position} {text : String}
    (h : (s.createCell E pos text).state = some s1) : Sheet.SetResult E s s1 pos := by
  unfold Sheet.createCell at h
  have hsim : ∀ q, q ≠ pos → s.SimilarAt s q := fun q _ => Sheet.SimilarAt.refl_at s q
  cases hnew : Cell.new E text s pos with
  | ok c s2 =>
    rw [hnew] at h
    simp only at h
    have key : ∀ s3, Sheet.Similar (Sheet.mk (CellMap.assign s2.sheet_ pos (some c)) s2.next) s3 →
        Sheet.SetResult E s s3 pos := by
      intro s3 h3
      refine after_new_ok hsim hnew
        (fun q hne => (similarAt_assign_ne s2 pos q _ _ hne).trans_at (h3 q)) ?_
      exact (h3 pos).1 c (cellAt_assign_self _ _ _ _)
    rcases updateAll_spec (insertAddr c.addr) c.GetReferencedCells
        { sheet_ := CellMap.assign s2.sheet_ pos (some c), next := s2.next }
      with ⟨s3, h3, hs3, -⟩ | ⟨s3, h3, hs3, -⟩ | h3
    · rw [h3] at h
      simp only [Outcome.state, Option.some.injEq] at h
      subst h
      exact key _ hs3
    · rw [h3] at h
      simp only [Outcome.state, Option.some.injEq] at h
      subst h
      exact key _ hs3
    · rw [h3] at h
      simp [Outcome.state] at h
  | raised e s2 =>
    rw [hnew] at h
    simp only at h
    have hg := (Cell_new_raised hnew).1
    split at h
    · simp only [Outcome.state, Option.some.injEq] at h
      subst h
      exact after_erase _ hsim hg
    · simp only [Outcome.state, Option.some.injEq] at h
      subst h
      exact ⟨fun q _ => hg.similar q, Or.inl (hg.similar pos)⟩
  | ub => rw [hnew] at h; simp [Outcome.state] at h
  | diverge => rw [hnew] at h; simp [Outcome.state] at h

theorem restoreCell_result {E : Env} {s sB s1 : Sheet} {pos : Position} {old_text : String}
    (hsim : ∀ q, q ≠ pos → s.SimilarAt sB q) (hnone : sB.cellAt pos = none)
    (h : (sB.restoreCell E pos old_text).state = some s1) : Sheet.SetResult E s s1 pos := by
  unfold Sheet.restoreCell at h
  cases hnew : Cell.new E old_text sB pos with
  | ok c s2 =>
    rw [hnew] at h
    simp only [Outcome.state, Option.some.injEq] at h
    subst h
    exact after_new_ok hsim hnew (fun q hne => similarAt_assign_ne s2 pos q _ _ hne)
      ⟨c, cellAt_assign_self _ _ _ _, rfl⟩
  | raised e s2 =>
    rw [hnew] at h
    simp only [Outcome.state, Option.some.injEq] at h
    subst h
    exact after_grows hsim hnone (Cell_new_raised hnew).1
  | ub => rw [hnew] at h; simp [Outcome.state] at h
  | diverge => rw [hnew] at h; simp [Outcome.state] at h

theorem replaceCell_result {E : Env} {s s1 : Sheet} {pos : Position} {text : String}
    {old : Cell} (h : (s.replaceCell E pos text old).state = some s1) :
    Sheet.SetResult E s s1 pos := by
  unfold Sheet.replaceCell at h
  cases hinv : InvalidateCache (invDepth s.sheet_) s.sheet_ old.addr with
  | ub => rw [hinv] at h; simp [Outcome.state] at h
  | diverge => rw [hinv] at h; simp [Outcome.state] at h
  | done m1 =>
    rw [hinv] at h
    simp only at h
    have hstrip : s.Similar (Sheet.mk m1 s.next) :=
      similar_of_strip (InvalidateCache_strip _ _ _ _ hinv)
    have hsim : ∀ q, q ≠ pos →
        s.SimilarAt (Sheet.mk (CellMap.assign m1 pos none) s.next) q :=
      fun q hne => (hstrip q).trans_at (similarAt_assign_ne (Sheet.mk m1 s.next) pos q none _ hne)
    have hnone : Sheet.cellAt (Sheet.mk (CellMap.assign m1 pos none) s.next) pos = none := by
      simp only [Sheet.cellAt, find_assign, if_true]
    split at h
    · rename_i old1 hfind
      cases hnew : Cell.new E text (Sheet.mk (CellMap.assign m1 pos none) s.next) pos with
      | ok c s3 =>
        rw [hnew] at h
        simp only [Outcome.state, Option.some.injEq] at h
        subst h
        exact after_new_ok hsim hnew (fun q hne => similarAt_assign_ne s3 pos q _ _ hne)
          ⟨_, cellAt_assign_self _ _ _ _, rfl⟩
      | raised e s3 =>
        rw [hnew] at h
        simp only at h
        have hg := (Cell_new_raised hnew).1
        split at h
        · have hsim3 : ∀ q, q ≠ pos → s.SimilarAt s3 q :=
            fun q hne => (hsim q hne).trans_at (hg.similar q)
          rcases (hg.similar pos).2 hnone with h3 | ⟨c3, hc3, he3⟩
          · exact restoreCell_result hsim3 h3 h
          · -- a cell at `pos` makes no difference to the construction
            unfold Sheet.restoreCell at h
            cases hnew2 : Cell.new E (old1.GetText E) s3 pos with
            | ok c4 s4 =>
              rw [hnew2] at h
              simp only [Outcome.state, Option.some.injEq] at h
              subst h
              exact after_new_ok hsim3 hnew2
                (fun q hne => similarAt_assign_ne s4 pos q _ _ hne)
                ⟨c4, cellAt_assign_self _ _ _ _, rfl⟩
            | raised e4 s4 =>
              rw [hnew2] at h
              simp only [Outcome.state, Option.some.injEq] at h
              subst h
              have hg4 := (Cell_new_raised hnew2).1
              refine ⟨fun q hne => (hsim3 q hne).trans_at (hg4.similar q), ?_⟩
              obtain ⟨c5, hc5, he5⟩ := (hg4.similar pos).1 c3 hc3
              right; right
              refine ⟨c5, "", Impl.EmptyImpl, hc5, rfl, by rw [he5, he3], ?_⟩
              intro x hx
              simp [Impl.refs] at hx
            | ub => rw [hnew2] at h; simp [Outcome.state] at h
            | diverge => rw [hnew2] at h; simp [Outcome.state] at h
        · simp only [Outcome.state, Option.some.injEq] at h
          subst h
          exact after_grows hsim hnone hg
      | ub => rw [hnew] at h; simp [Outcome.state] at h
      | diverge => rw [hnew] at h; simp [Outcome.state] at h
    · simp [Outcome.state] at h

theorem SetCell_result {E : Env} {s s1 : Sheet} {pos : Position} {text : String}
    (h : (s.SetCell E pos text).state = some s1) : Sheet.SetResult E s s1 pos := by
  unfold Sheet.SetCell at h
  have hsame : Sheet.SetResult E s s pos :=
    ⟨fun q _ => Sheet.SimilarAt.refl_at s q, Or.inl (Sheet.SimilarAt.refl_at s pos)⟩
  split at h
  · simp only [Outcome.state, Option.some.injEq] at h
    subst h; exact hsame
  · split at h
    · split at h
      · simp only [Outcome.state, Option.some.injEq] at h
        subst h; exact hsame
      · exact replaceCell_result h
    · exact createCell_result h

/-! ## What `ClearCell` does to the sheet -/

theorem ClearCell_result {s s1 : Sheet} {pos : Position}
    (h : (s.ClearCell pos).state = some s1) :
    (∀ q, q ≠ pos → s.SimilarAt s1 q) ∧ (s1.cellAt pos = none ∨ s.SimilarAt s1 pos) := by
  unfold Sheet.ClearCell at h
  have hsame : (∀ q, q ≠ pos → s.SimilarAt s q) ∧ (s.cellAt pos = none ∨ s.SimilarAt s pos) :=
    ⟨fun q _ => Sheet.SimilarAt.refl_at s q, Or.inr (Sheet.SimilarAt.refl_at s pos)⟩
  split at h
  · simp only [Outcome.state, Option.some.injEq] at h
    subst h; exact hsame
  · split at h
    · simp only [Outcome.state, Option.some.injEq] at h
      subst h; exact hsame
    · simp [Outcome.state] at h
    · rename_i c hfind
      cases hinv : InvalidateCache (invDepth s.sheet_) s.sheet_ c.addr with
      | ub => rw [hinv] at h; simp [Outcome.state] at h
      | diverge => rw [hinv] at h; simp [Outcome.state] at h
      | done m1 =>
        rw [hinv] at h
        simp only at h
        have hstrip : s.Similar (Sheet.mk m1 s.next) :=
          similar_of_strip (InvalidateCache_strip _ _ _ _ hinv)
        rcases updateAll_spec (eraseAddr c.addr) c.GetReferencedCells (Sheet.mk m1 s.next)
          with ⟨s3, h3, hs3, -⟩ | ⟨s3, h3, hs3, -⟩ | h3
        · rw [h3] at h
          simp only [Outcome.state, Option.some.injEq] at h
          subst h
          refine ⟨fun q hne => ((hstrip q).trans_at (hs3 q)).trans_at ?_, Or.inl ?_⟩
          · apply Sheet.SimilarAt.of_find
            simp only [find_erase, Ne.symm hne, if_false]
          · simp only [Sheet.cellAt, find_erase, if_true]
        · rw [h3] at h
          simp only [Outcome.state, Option.some.injEq] at h
          subst h
          exact ⟨fun q _ => (hstrip q).trans_at (hs3 q), Or.inr ((hstrip pos).trans_at (hs3 pos))⟩
        · rw [h3] at h
          simp [Outcome.state] at h

/-! ## Invariants of the reachable sheets -/

theorem refsAt_of_cellAt_none {s : Sheet} {p : Position} (h : s.cellAt p = none) :
    s.refsAt p = [] := by
  simp only [Sheet.refsAt, h]

theorem acyclic_SetResult {E : Env} {s s1 : Sheet} {pos : Position}
    (h : Sheet.SetResult E s s1 pos) (hac : s.Acyclic) : s1.Acyclic := by
  obtain ⟨hq, hpos⟩ := h
  have hsub : ∀ p q, p ≠ pos → s1.Edge p q → s.Edge p q := by
    intro p q hp hpq
    simp only [Sheet.Edge] at hpq ⊢
    rwa [(hq p hp).refsAt_at] at hpq
  rcases hpos with h1 | h1 | ⟨c, t, impl, hc, -, he, hun⟩
  · apply acyclic_of_subset s.Edge s1.Edge _ hac
    intro p q hpq
    by_cases hp : p = pos
    · subst hp
      simp only [Sheet.Edge] at hpq ⊢
      rwa [h1.refsAt_at] at hpq
    · exact hsub p q hp hpq
  · apply acyclic_of_subset s.Edge s1.Edge _ hac
    intro p q hpq
    by_cases hp : p = pos
    · subst hp
      simp [Sheet.Edge, refsAt_of_cellAt_none h1] at hpq
    · exact hsub p q hp hpq
  · apply acyclic_of_update s.Edge s1.Edge pos hsub _ hac
    intro x hx
    apply hun x
    simp only [Sheet.Edge, Sheet.refsAt, hc, Cell.refs_eq] at hx
    rwa [Impl.refs_congr he] at hx

theorem classify_refs_valid {E : Env} (hE : E.ValidRefs) {t : String} {impl : Impl}
    (h : classify E t = Except.ok impl) : ∀ x ∈ impl.refs, x.IsValid = true := by
  unfold classify at h
  split at h
  · cases h; simp [Impl.refs]
  · cases h; simp [Impl.refs]
  · split at h
    · cases h
    · rename_i f hf
      cases h
      exact hE _ f hf
  · cases h; simp [Impl.refs]

theorem refsValid_SetResult {E : Env} (hE : E.ValidRefs) {s s1 : Sheet} {pos : Position}
    (h : Sheet.SetResult E s s1 pos) (hv : s.RefsValid) : s1.RefsValid := by
  obtain ⟨hq, hpos⟩ := h
  intro p q hpq
  by_cases hp : p = pos
  · subst hp
    rcases hpos with h1 | h1 | ⟨c, t, impl, hc, hcl, he, -⟩
    · rw [h1.refsAt_at] at hpq
      exact hv p q hpq
    · simp [refsAt_of_cellAt_none h1] at hpq
    · simp only [Sheet.refsAt, hc, Cell.refs_eq] at hpq
      rw [Impl.refs_congr he] at hpq
      exact classify_refs_valid hE hcl q hpq
  · rw [(hq p hp).refsAt_at] at hpq
    exact hv p q hpq

/-! ## Evaluation changes caches only -/

theorem modify_strip_of (m : CellMap) (a : Nat) (g : Cell → Cell)
    (hg : ∀ c, (g c).dropCache = c.dropCache) :
    CellMap.strip (CellMap.modify m a g) = CellMap.strip m := by
  unfold CellMap.strip CellMap.modify
  rw [List.map_map]
  apply List.map_congr_left
  intro e _
  obtain ⟨k, v⟩ := e
  cases v with
  | none => rfl
  | some c =>
    simp only [Function.comp, Option.map_some', Prod.mk.injEq, Option.some.injEq, true_and]
    split
    · exact hg c
    · rfl

theorem setCache_strip (m : CellMap) (a : Nat) (v : Value) :
    CellMap.strip (CellMap.setCache m a v) = CellMap.strip m := by
  apply modify_strip_of
  intro c
  obtain ⟨ca, ci, cd⟩ := c
  cases ci <;> rfl

theorem Execute_strip (E : Env) (fuel : Nat) :
    ∀ (f : AST) (m : CellMap) (r : Option (Except FormulaError Rat)) (m1 : CellMap),
      Execute E fuel f m = some (r, m1) → CellMap.strip m1 = CellMap.strip m := by
  induction fuel with
  | zero => intro f m r m1 h; simp [Execute] at h
  | succ fuel ih =>
    intro f m r m1 h
    cases f with
    | Num x =>
      simp only [Execute, Option.some.injEq, Prod.mk.injEq] at h
      rw [h.2]
    | Ref p =>
      simp only [Execute] at h
      split at h
      · simp only [Option.some.injEq, Prod.mk.injEq] at h
        rw [h.2]
      · split at h
        · split at h
          · simp only [Option.some.injEq, Prod.mk.injEq] at h
            rw [h.2]
          · simp only [Option.some.injEq, Prod.mk.injEq] at h
            rw [h.2]
          · simp only [Option.some.injEq, Prod.mk.injEq] at h
            rw [h.2]
          · split at h
            · rename_i r2 m2 hex
              simp only [Option.some.injEq, Prod.mk.injEq] at h
              rw [← h.2, setCache_strip]
              exact ih _ _ _ _ hex
            · rename_i m2 hex
              simp only [Option.some.injEq, Prod.mk.injEq] at h
              rw [← h.2]
              exact ih _ _ _ _ hex
            · cases h
        · simp only [Option.some.injEq, Prod.mk.injEq] at h
          rw [h.2]
    | UnaryMinus c =>
      simp only [Execute] at h
      split at h
      · rename_i x m2 hex
        simp only [Option.some.injEq, Prod.mk.injEq] at h
        rw [← h.2]
        exact ih _ _ _ _ hex
      · exact ih _ _ _ _ h
    | UnaryPlus c =>
      simp only [Execute] at h
      exact ih _ _ _ _ h
    | Binop op l r0 =>
      simp only [Execute] at h
      split at h
      · rename_i x m2 hex
        have h2 := ih _ _ _ _ hex
        split at h
        · rename_i y m3 hex2
          simp only [Option.some.injEq, Prod.mk.injEq] at h
          rw [← h.2]
          exact (ih _ _ _ _ hex2).trans h2
        · exact (ih _ _ _ _ h).trans h2
      · exact ih _ _ _ _ h

theorem Evaluate_strip {E : Env} {s : Sheet} {f : AST} {v : Option Value} {m1 : CellMap}
    (h : s.Evaluate E f = some (v, m1)) : CellMap.strip m1 = CellMap.strip s.sheet_ := by
  unfold Sheet.Evaluate at h
  split at h
  · rename_i r m2 hex
    simp only [Option.some.injEq, Prod.mk.injEq] at h
    rw [← h.2]
    exact Execute_strip E _ _ _ _ _ hex
  · cases h

theorem GetValue_similar {E : Env} {s s1 : Sheet} {pos : Position}
    (h : (s.GetValue E pos).state = some s1) : s.Similar s1 := by
  unfold Sheet.GetValue at h
  split at h
  · simp only [Outcome.state, Option.some.injEq] at h
    subst h; exact Sheet.Similar.refl_sim s
  · split at h
    · split at h
      · simp only [Outcome.state, Option.some.injEq] at h
        subst h; exact Sheet.Similar.refl_sim s
      · split at h
        · simp only [Outcome.state, Option.some.injEq] at h
          subst h; exact Sheet.Similar.refl_sim s
        · simp only [Outcome.state, Option.some.injEq] at h
          subst h; exact Sheet.Similar.refl_sim s
      · simp only [Outcome.state, Option.some.injEq] at h
        subst h; exact Sheet.Similar.refl_sim s
      · split at h
        · rename_i v m1 hev
          simp only [Outcome.state, Option.some.injEq] at h
          subst h
          apply similar_of_strip
          simp only [setCache_strip]
          exact Evaluate_strip hev
        · rename_i m1 hev
          simp only [Outcome.state, Option.some.injEq] at h
          subst h
          apply similar_of_strip
          exact Evaluate_strip hev
        · simp [Outcome.state] at h
    · simp only [Outcome.state, Option.some.injEq] at h
      subst h; exact Sheet.Similar.refl_sim s

theorem state_discard {α : Type} (o : Outcome α) : o.discard.state = o.state := by
  cases o <;> rfl

theorem call_edges {E : Env} {s s1 : Sheet} {c : Call} (h : (s.call E c).state = some s1) :
    (∃ pos, Sheet.SetResult E s s1 pos) := by
  cases c with
  | Set pos text => exact ⟨pos, SetCell_result h⟩
  | Clear pos =>
    obtain ⟨hq, hpos⟩ := ClearCell_result h
    refine ⟨pos, hq, ?_⟩
    rcases hpos with h1 | h1
    · exact Or.inr (Or.inl h1)
    · exact Or.inl h1
  | GetValue pos =>
    simp only [Sheet.call, state_discard] at h
    have hsim := GetValue_similar h
    exact ⟨pos, fun q _ => hsim q, Or.inl (hsim pos)⟩

theorem acyclic_empty : Sheet.empty.Acyclic := by
  intro p hp
  have hno : ∀ a b, ¬ Sheet.empty.Edge a b := by
    intro a b hab
    simp [Sheet.Edge, Sheet.refsAt, Sheet.cellAt, Sheet.empty, CellMap.find] at hab
  rcases Relation.TransGen.head'_iff.1 hp with ⟨b, hab, -⟩
  exact hno p b hab

theorem refsValid_empty : Sheet.empty.RefsValid := by
  intro p q hpq
  simp [Sheet.refsAt, Sheet.cellAt, Sheet.empty, CellMap.find] at hpq

theorem reachable_acyclic {E : Env} {s : Sheet} (h : Reachable E s) : s.Acyclic := by
  induction h with
  | empty => exact acyclic_empty
  | step s c s1 _ hcall ih =>
    obtain ⟨pos, hres⟩ := call_edges hcall
    exact acyclic_SetResult hres ih

theorem reachable_refsValid {E : Env} (hE : E.ValidRefs) {s : Sheet} (h : Reachable E s) :
    s.RefsValid := by
  induction h with
  | empty => exact refsValid_empty
  | step s c s1 _ hcall ih =>
    obtain ⟨pos, hres⟩ := call_edges hcall
    exact refsValid_SetResult hE hres ih

theorem reachable_of_run (E : Env) (calls : List Call) :
    ∀ (s s1 : Sheet), Reachable E s → Sheet.run E s calls = some s1 → Reachable E s1 := by
  induction calls with
  | nil =>
    intro s s1 hs h
    simp only [Sheet.run, Option.some.injEq] at h
    subst h; exact hs
  | cons c rest ih =>
    intro s s1 hs h
    simp only [Sheet.run] at h
    split at h
    · rename_i s2 h2
      exact ih s2 s1 (Reachable.step s c s2 hs h2) h
    · cases h

theorem stdEnv_validRefs : stdEnv.ValidRefs := by
  intro t f h
  simp only [stdEnv, stdParse] at h
  split at h
  · split at h
    · rename_i hcond
      simp only [Option.some.injEq] at h
      subst h
      intro q hq
      exact List.all_eq_true.1 hcond.2 q hq
    · cases h
  · cases h

/-! ## No invalid-position error at a valid position -/

theorem refsValid_of_similar_except {s sB : Sheet} {pos : Position} (hv : s.RefsValid)
    (hsim : ∀ q, q ≠ pos → s.SimilarAt sB q) (hnone : sB.cellAt pos = none) :
    sB.RefsValid := by
  intro p q hpq
  by_cases hp : p = pos
  · subst hp
    simp [refsAt_of_cellAt_none hnone] at hpq
  · rw [(hsim p hp).refsAt_at] at hpq
    exact hv p q hpq

theorem Cell_new_not_invalid {E : Env} (hE : E.ValidRefs) {sB : Sheet} (hv : sB.RefsValid)
    (t : String) (pos : Position) (s1 : Sheet) :
    Cell.new E t sB pos ≠ Outcome.raised Exception.InvalidPositionException s1 := by
  intro h
  rcases (Cell_new_raised h).2 with ⟨h1, -⟩ | ⟨impl, hcl, h1 | ⟨-, h2⟩⟩
  · cases h1
  · cases h1.1
  · exact h2 ⟨classify_refs_valid hE hcl, hv⟩

theorem createCell_not_invalid {E : Env} (hE : E.ValidRefs) {s : Sheet} (hv : s.RefsValid)
    (pos : Position) (text : String) (s1 : Sheet) :
    s.createCell E pos text ≠ Outcome.raised Exception.InvalidPositionException s1 := by
  intro h
  unfold Sheet.createCell at h
  cases hnew : Cell.new E text s pos with
  | ok c s2 =>
    rw [hnew] at h
    simp only at h
    obtain ⟨-, hcl, -, -, -⟩ := Cell_new_ok hnew
    rcases updateAll_spec (insertAddr c.addr) c.GetReferencedCells
        { sheet_ := CellMap.assign s2.sheet_ pos (some c), next := s2.next }
      with ⟨s3, h3, -, -⟩ | ⟨s3, h3, -, x, hx, hxv⟩ | h3
    · rw [h3] at h; cases h
    · rw [Cell.refs_eq] at hx
      have := classify_refs_valid hE hcl x hx
      rw [this] at hxv
      cases hxv
    · rw [h3] at h; cases h
  | raised e s2 =>
    rw [hnew] at h
    simp only at h
    split at h
    · cases h
    · simp only [Outcome.raised.injEq] at h
      obtain ⟨he, hs⟩ := h
      subst he
      exact Cell_new_not_invalid hE hv text pos s2 hnew
  | ub => rw [hnew] at h; cases h
  | diverge => rw [hnew] at h; cases h

theorem restoreCell_not_invalid {E : Env} (hE : E.ValidRefs) {s : Sheet} (hv : s.RefsValid)
    (pos : Position) (text : String) (s1 : Sheet) :
    s.restoreCell E pos text ≠ Outcome.raised Exception.InvalidPositionException s1 := by
  intro h
  unfold Sheet.restoreCell at h
  cases hnew : Cell.new E text s pos with
  | ok c s2 => rw [hnew] at h; cases h
  | raised e s2 =>
    rw [hnew] at h
    simp only [Outcome.raised.injEq] at h
    obtain ⟨he, hs⟩ := h
    subst he
    exact Cell_new_not_invalid hE hv text pos s2 hnew
  | ub => rw [hnew] at h; cases h
  | diverge => rw [hnew] at h; cases h

theorem replaceCell_not_invalid {E : Env} (hE : E.ValidRefs) {s : Sheet} (hv : s.RefsValid)
    (pos : Position) (text : String) (old : Cell) (s1 : Sheet) :
    s.replaceCell E pos text old ≠ Outcome.raised Exception.InvalidPositionException s1 := by
  intro h
  unfold Sheet.replaceCell at h
  cases hinv : InvalidateCache (invDepth s.sheet_) s.sheet_ old.addr with
  | ub => rw [hinv] at h; cases h
  | diverge => rw [hinv] at h; cases h
  | done m1 =>
    rw [hinv] at h
    simp only at h
    have hstrip : s.Similar (Sheet.mk m1 s.next) :=
      similar_of_strip (InvalidateCache_strip _ _ _ _ hinv)
    have hsim : ∀ q, q ≠ pos →
        s.SimilarAt (Sheet.mk (CellMap.assign m1 pos none) s.next) q :=
      fun q hne =>
        (hstrip q).trans_at (similarAt_assign_ne (Sheet.mk m1 s.next) pos q none _ hne)
    have hnone : Sheet.cellAt (Sheet.mk (CellMap.assign m1 pos none) s.next) pos = none := by
      simp only [Sheet.cellAt, find_assign, if_true]
    have hv2 := refsValid_of_similar_except hv hsim hnone
    split at h
    · cases hnew : Cell.new E text (Sheet.mk (CellMap.assign m1 pos none) s.next) pos with
      | ok c s3 => rw [hnew] at h; cases h
      | raised e s3 =>
        rw [hnew] at h
        simp only at h
        split at h
        · exact restoreCell_not_invalid hE ((Cell_new_raised hnew).1.refsValid hv2) _ _ _ h
        · simp only [Outcome.raised.injEq] at h
          obtain ⟨he, hs⟩ := h
          subst he
          exact Cell_new_not_invalid hE hv2 text pos s3 hnew
      | ub => rw [hnew] at h; cases h
      | diverge => rw [hnew] at h; cases h
    · cases h

theorem SetCell_not_invalid {E : Env} (hE : E.ValidRefs) {s : Sheet} (hv : s.RefsValid)
    {pos : Position} (hpos : pos.IsValid = true) (text : String) (s1 : Sheet) :
    s.SetCell E pos text ≠ Outcome.raised Exception.InvalidPositionException s1 := by
  intro h
  unfold Sheet.SetCell at h
  simp only [hpos, Bool.not_true, Bool.false_eq_true, if_false] at h
  split at h
  · split at h
    · cases h
    · exact replaceCell_not_invalid hE hv _ _ _ _ h
  · exact createCell_not_invalid hE hv _ _ _ h

theorem ClearCell_not_invalid {s : Sheet} (hv : s.RefsValid)
    {pos : Position} (hpos : pos.IsValid = true) (s1 : Sheet) :
    s.ClearCell pos ≠ Outcome.raised Exception.InvalidPositionException s1 := by
  intro h
  unfold Sheet.ClearCell at h
  simp only [hpos, Bool.not_true, Bool.false_eq_true, if_false] at h
  split at h
  · cases h
  · cases h
  · rename_i c hfind
    cases hinv : InvalidateCache (invDepth s.sheet_) s.sheet_ c.addr with
    | ub => rw [hinv] at h; cases h
    | diverge => rw [hinv] at h; cases h
    | done m1 =>
      rw [hinv] at h
      simp only at h
      rcases updateAll_spec (eraseAddr c.addr) c.GetReferencedCells (Sheet.mk m1 s.next)
        with ⟨s3, h3, -, -⟩ | ⟨s3, h3, -, x, hx, hxv⟩ | h3
      · rw [h3] at h; cases h
      · have hc : s.cellAt pos = some c := by simp only [Sheet.cellAt, hfind]
        have := hv pos x (by simp only [Sheet.refsAt, hc]; exact hx)
        rw [this] at hxv
        cases hxv
      · rw [h3] at h; cases h

/-! ## Stored cells come from the constructor -/

theorem classify_fresh {E : Env} {t : String} {impl : Impl}
    (h : classify E t = Except.ok impl) : impl.InvalidateCache = impl := by
  unfold classify at h
  split at h
  · cases h; rfl
  · cases h; rfl
  · split at h
    · cases h
    · cases h; rfl
  · cases h; rfl

theorem similarAt_classified {E : Env} {s s1 : Sheet} {p : Position} (h : s.SimilarAt s1 p)
    (hs : ∀ c, s.cellAt p = some c → ∃ t, classify E t = Except.ok c.impl_.InvalidateCache) :
    ∀ c, s1.cellAt p = some c → ∃ t, classify E t = Except.ok c.impl_.InvalidateCache := by
  intro c1 hc1
  cases hc : s.cellAt p with
  | some c =>
    obtain ⟨c2, hc2, he⟩ := h.1 c hc
    rw [hc1] at hc2
    cases hc2
    obtain ⟨t, ht⟩ := hs c hc
    exact ⟨t, by rw [he]; exact ht⟩
  | none =>
    rcases h.2 hc with h1 | ⟨c2, hc2, he⟩
    · rw [h1] at hc1; cases hc1
    · rw [hc1] at hc2
      cases hc2
      exact ⟨"", by rw [he]; rfl⟩

theorem classified_SetResult {E : Env} {s s1 : Sheet} {pos : Position}
    (h : Sheet.SetResult E s s1 pos) (hs : s.Classified E) : s1.Classified E := by
  obtain ⟨hq, hpos⟩ := h
  intro p c hc
  by_cases hp : p = pos
  · subst hp
    rcases hpos with h1 | h1 | ⟨c1, t, impl, hc1, hcl, he, -⟩
    · exact similarAt_classified h1 (hs p) c hc
    · rw [h1] at hc; cases hc
    · rw [hc] at hc1
      cases hc1
      exact ⟨t, by rw [he, classify_fresh hcl]; exact hcl⟩
  · exact similarAt_classified (hq p hp) (hs p) c hc

theorem classified_empty (E : Env) : Sheet.empty.Classified E := by
  intro p c hc
  simp [Sheet.cellAt, Sheet.empty, CellMap.find] at hc

theorem reachable_classified {E : Env} {s : Sheet} (h : Reachable E s) : s.Classified E := by
  induction h with
  | empty => exact classified_empty E
  | step s c s1 _ hcall ih =>
    obtain ⟨pos, hres⟩ := call_edges hcall
    exact classified_SetResult hres ih

/-- Building a cell from the text of a stored implementation gives that text
back, and no references beyond those of the implementation. -/
theorem classify_restore {E : Env} {t0 : String} {i0 impl : Impl}
    (h0 : classify E t0 = Except.ok i0) (hrt : i0.RoundTrips E)
    (h : classify E (i0.GetText E) = Except.ok impl) :
    impl.GetText E = i0.GetText E ∧ ∀ x ∈ impl.refs, x ∈ i0.refs := by
  unfold classify at h0
  split at h0
  · cases h0
    simp only [Impl.GetText] at h ⊢
    cases h
    simp [Impl.GetText]
  · cases h0
    simp only [Impl.GetText] at h ⊢
    rename_i hd
    simp only [classify, hd] at h
    cases h
    simp [Impl.GetText, Impl.refs]
  · rename_i rest hne hd
    split at h0
    · cases h0
    · rename_i f hf
      cases h0
      have hparse := hrt _ f none rfl
      simp only [Impl.GetText] at h ⊢
      unfold classify at h
      have hdata : ("=" ++ E.PrintFormula f).data = '=' :: (E.PrintFormula f).data := rfl
      rw [hdata] at h
      cases hp : (E.PrintFormula f).data with
      | nil =>
        rw [hp] at h
        simp only at h
        cases h
        simp [Impl.GetText, Impl.refs]
      | cons a as =>
        rw [hp] at h
        simp only at h
        have hmk : String.mk (a :: as) = E.PrintFormula f := by
          rw [← hp]
        rw [hmk, hparse] at h
        simp only at h
        cases h
        simp [Impl.GetText, Impl.refs]
  · rename_i hn1 hn2 hn3
    cases h0
    simp only [Impl.GetText] at h ⊢
    unfold classify at h
    split at h
    · cases h; rename_i hd; exact absurd hd hn1
    · cases h; simp [Impl.GetText, Impl.refs]
    · rename_i rest hne hd
      exact absurd hd (hn3 rest)
    · cases h; simp [Impl.GetText, Impl.refs]

/-! ## A rejected `SetCell` puts the old text back -/

theorem Impl.GetText_InvalidateCache (E : Env) (i : Impl) :
    i.InvalidateCache.GetText E = i.GetText E := by
  cases i <;> rfl

theorem Impl.roundTrips_InvalidateCache {E : Env} {i : Impl} (h : i.RoundTrips E) :
    i.InvalidateCache.RoundTrips E := by
  intro t f ch hi
  cases i with
  | EmptyImpl => cases hi
  | TextImpl t1 => cases hi
  | FormulaImpl t1 f1 ch1 =>
    simp only [Impl.InvalidateCache, Impl.FormulaImpl.injEq] at hi
    obtain ⟨-, hf, -⟩ := hi
    subst hf
    exact h t1 f1 ch1 rfl

theorem restoreCell_circular {E : Env} {s sB s1 : Sheet} {pos : Position} {old : Cell}
    (hac : s.Acyclic) (hsim : ∀ q, q ≠ pos → s.SimilarAt sB q) (hposB : sB.refsAt pos = [])
    (hold : s.cellAt pos = some old) {t0 : String}
    (hcl : classify E t0 = Except.ok old.impl_.InvalidateCache)
    (hrt : old.impl_.RoundTrips E)
    (h : sB.restoreCell E pos (old.GetText E) =
      Outcome.raised Exception.CircularDependencyException s1) :
    ∃ c, s1.cellAt pos = some c ∧ c.GetText E = old.GetText E := by
  have htext : old.GetText E = old.impl_.InvalidateCache.GetText E := by
    rw [Impl.GetText_InvalidateCache]; rfl
  unfold Sheet.restoreCell at h
  cases hnew : Cell.new E (old.GetText E) sB pos with
  | ok c s2 =>
    rw [hnew] at h
    simp only [Outcome.raised.injEq, true_and] at h
    subst h
    refine ⟨c, cellAt_assign_self _ _ _ _, ?_⟩
    obtain ⟨-, hc, -, -, -⟩ := Cell_new_ok hnew
    rw [htext] at hc
    have := (classify_restore hcl (Impl.roundTrips_InvalidateCache hrt) hc).1
    rw [htext]
    exact this
  | raised e s2 =>
    rw [hnew] at h
    simp only [Outcome.raised.injEq] at h
    obtain ⟨he, hs⟩ := h
    subst he; subst hs
    exfalso
    rcases (Cell_new_raised hnew).2 with ⟨h1, -⟩ | ⟨impl, hc, ⟨-, x, hx, hreach⟩ | ⟨h1, -⟩⟩
    · cases h1
    · rw [htext] at hc
      have hx0 := (classify_restore hcl (Impl.roundTrips_InvalidateCache hrt) hc).2 x hx
      rw [Impl.refs_InvalidateCache] at hx0
      have hedge : s.Edge pos x := by
        simp only [Sheet.Edge, Sheet.refsAt, hold, Cell.refs_eq]
        exact hx0
      have hsub : ∀ p q, sB.Edge p q → s.Edge p q := by
        intro p q hpq
        by_cases hp : p = pos
        · subst hp
          simp [Sheet.Edge, hposB] at hpq
        · simp only [Sheet.Edge] at hpq ⊢
          rwa [(hsim p hp).refsAt_at] at hpq
      exact hac pos (Relation.TransGen.head' hedge (Relation.ReflTransGen.mono hsub hreach))
    · cases h1
  | ub => rw [hnew] at h; cases h
  | diverge => rw [hnew] at h; cases h

theorem SetCell_circular_pos {E : Env} {s s1 : Sheet} {pos : Position} {text : String}
    {old : Cell} (hac : s.Acyclic) (hcls : s.Classified E)
    (hold : s.cellAt pos = some old) (hrt : old.impl_.RoundTrips E)
    (h : s.SetCell E pos text = Outcome.raised Exception.CircularDependencyException s1) :
    ∃ c, s1.cellAt pos = some c ∧ c.GetText E = old.GetText E := by
  unfold Sheet.SetCell at h
  split at h
  · cases h
  · split at h
    · rename_i old0 hfind
      have h0 : old0 = old := by
        simp only [Sheet.cellAt, hfind, Option.some.injEq] at hold
        exact hold
      subst h0
      split at h
      · cases h
      · unfold Sheet.replaceCell at h
        cases hinv : InvalidateCache (invDepth s.sheet_) s.sheet_ old0.addr with
        | ub => rw [hinv] at h; cases h
        | diverge => rw [hinv] at h; cases h
        | done m1 =>
          rw [hinv] at h
          simp only at h
          have hstrip : s.Similar (Sheet.mk m1 s.next) :=
            similar_of_strip (InvalidateCache_strip _ _ _ _ hinv)
          have hsim : ∀ q, q ≠ pos →
              s.SimilarAt (Sheet.mk (CellMap.assign m1 pos none) s.next) q :=
            fun q hne =>
              (hstrip q).trans_at (similarAt_assign_ne (Sheet.mk m1 s.next) pos q none _ hne)
          have hnone : Sheet.cellAt (Sheet.mk (CellMap.assign m1 pos none) s.next) pos =
              none := by
            simp only [Sheet.cellAt, find_assign, if_true]
          split at h
          · rename_i old1 hfind1
            have hold1 : Sheet.cellAt (Sheet.mk m1 s.next) pos = some old1 := by
              simp only [Sheet.cellAt, hfind1]
            obtain ⟨c2, hc2, he⟩ := (hstrip pos).1 old0 hold
            rw [hold1] at hc2
            cases hc2
            have htext : old1.GetText E = old0.GetText E := Cell.GetText_congr E he
            cases hnew : Cell.new E text (Sheet.mk (CellMap.assign m1 pos none) s.next) pos with
            | ok c s3 => rw [hnew] at h; cases h
            | raised e s3 =>
              rw [hnew] at h
              simp only at h
              have hg := (Cell_new_raised hnew).1
              split at h
              · rw [htext] at h
                obtain ⟨t0, ht0⟩ := hcls pos old0 hold
                refine restoreCell_circular hac
                  (fun q hne => (hsim q hne).trans_at (hg.similar q)) ?_ hold ht0 hrt h
                rw [hg.refsAt_grows]
                exact refsAt_of_cellAt_none hnone
              · simp only [Outcome.raised.injEq] at h
                rename_i hne
                exact absurd h.1 hne
            | ub => rw [hnew] at h; cases h
            | diverge => rw [hnew] at h; cases h
          · cases h
    · rename_i hno
      exfalso
      unfold Sheet.cellAt at hold
      split at hold
      · rename_i c hc
        exact hno c hc
      · cases hold

theorem GetCell_some {s : Sheet} {pos : Position} {c : Cell}
    (h : s.GetCell pos = Outcome.ok (some c) s) : pos.IsValid = true ∧ s.cellAt pos = some c := by
  unfold Sheet.GetCell at h
  split at h
  · cases h
  · rename_i hv
    refine ⟨by simpa using hv, ?_⟩
    split at h
    · rename_i c1 hfind
      simp only [Outcome.ok.injEq, Option.some.injEq, and_true] at h
      subst h
      simp only [Sheet.cellAt, hfind]
    · cases h

theorem GetCell_of_cellAt {s : Sheet} {pos : Position} {c : Cell}
    (hv : pos.IsValid = true) (h : s.cellAt pos = some c) :
    s.GetCell pos = Outcome.ok (some c) s := by
  unfold Sheet.GetCell
  simp only [hv, Bool.not_true, Bool.false_eq_true, if_false]
  unfold Sheet.cellAt at h
  split at h
  · rename_i c1 hfind
    cases h
    simp only [hfind]
  · cases h

/-! ## A rejected `SetCell` keeps the other cells -/

theorem keepsAt_refl (s : Sheet) (p : Position) : s.KeepsAt s p :=
  ⟨fun c hc => ⟨c, hc, rfl⟩, fun h => Or.inl h⟩

theorem dropCache_eq_empty {c : Cell} {a : Nat}
    (h : c.dropCache = Cell.dropCache (Cell.mk a Impl.EmptyImpl [])) :
    c = Cell.mk a Impl.EmptyImpl [] := by
  obtain ⟨ca, ci, cd⟩ := c
  simp only [Cell.dropCache, Cell.mk.injEq] at h
  obtain ⟨h1, h2, h3⟩ := h
  subst h1; subst h3
  cases ci <;> simp_all [Impl.InvalidateCache]

theorem keepsAt_trans {s s1 s2 : Sheet} {p : Position}
    (h1 : s.KeepsAt s1 p) (h2 : s1.KeepsAt s2 p) : s.KeepsAt s2 p := by
  constructor
  · intro c hc
    obtain ⟨c1, hc1, e1⟩ := h1.1 c hc
    obtain ⟨c2, hc2, e2⟩ := h2.1 c1 hc1
    exact ⟨c2, hc2, e2.trans e1⟩
  · intro hn
    rcases h1.2 hn with h | ⟨a, ha⟩
    · exact h2.2 h
    · obtain ⟨c2, hc2, e2⟩ := h2.1 _ ha
      exact Or.inr ⟨a, by rw [hc2, dropCache_eq_empty e2]⟩

theorem keepsAt_of_find {s s1 : Sheet} {p : Position}
    (h : CellMap.find s1.sheet_ p = CellMap.find s.sheet_ p) : s.KeepsAt s1 p := by
  have hc := cellAt_eq_of_find h
  exact ⟨fun c h1 => ⟨c, hc.trans h1, rfl⟩, fun h1 => Or.inl (hc.trans h1)⟩

theorem keepsAt_of_grows {s s1 : Sheet} (h : s.Grows s1) (p : Position) : s.KeepsAt s1 p := by
  rcases h p with h | ⟨hn, a, ha⟩
  · exact keepsAt_of_find h
  · refine ⟨fun c hc => ?_, fun _ => Or.inr ⟨a, ?_⟩⟩
    · rw [hn] at hc; cases hc
    · simp only [Sheet.cellAt, ha]

theorem keepsAt_of_strip {s s1 : Sheet}
    (h : CellMap.strip s1.sheet_ = CellMap.strip s.sheet_) (p : Position) :
    s.KeepsAt s1 p := by
  have hp : (CellMap.find s1.sheet_ p).map (Option.map Cell.dropCache) =
      (CellMap.find s.sheet_ p).map (Option.map Cell.dropCache) := by
    rw [← find_strip, ← find_strip, h]
  unfold Sheet.KeepsAt Sheet.cellAt
  cases h0 : CellMap.find s.sheet_ p with
  | none =>
    rw [h0] at hp
    cases h1 : CellMap.find s1.sheet_ p with
    | none => simp
    | some v => rw [h1] at hp; simp at hp
  | some v =>
    rw [h0] at hp
    cases h1 : CellMap.find s1.sheet_ p with
    | none => rw [h1] at hp; simp at hp
    | some v1 =>
      rw [h1] at hp
      simp only [Option.map_some', Option.some.injEq] at hp
      cases v with
      | none =>
        cases v1 with
        | none => simp
        | some c1 => simp at hp
      | some c =>
        cases v1 with
        | none => simp at hp
        | some c1 =>
          simp only [Option.map_some', Option.some.injEq] at hp
          simp only [Option.some.injEq, forall_eq', exists_eq_left']
          exact ⟨hp, fun hc => by cases hc⟩

theorem keepsAt_assign_ne (s : Sheet) (pos q : Position) (v : Option Cell) (n : Nat)
    (hne : q ≠ pos) :
    s.KeepsAt { sheet_ := CellMap.assign s.sheet_ pos v, next := n } q := by
  apply keepsAt_of_find
  simp only [find_assign, Ne.symm hne, if_false]

theorem keepsAt_erase_ne (s : Sheet) (pos q : Position) (n : Nat) (hne : q ≠ pos) :
    s.KeepsAt { sheet_ := CellMap.erase s.sheet_ pos, next := n } q := by
  apply keepsAt_of_find
  simp only [find_erase, Ne.symm hne, if_false]

theorem updateAll_not_circular (upd : List Nat → List Nat) (refs : List Position) (s s1 : Sheet) :
    Sheet.updateAll upd s refs ≠ Outcome.raised Exception.CircularDependencyException s1 := by
  intro h
  rcases updateAll_spec upd refs s with ⟨s2, h2, -, -⟩ | ⟨s2, h2, -, -⟩ | h2 <;>
    rw [h2] at h <;> cases h

theorem restoreCell_keeps {E : Env} {sB s1 : Sheet} {pos : Position} {old_text : String}
    {e : Exception} (h : sB.restoreCell E pos old_text = Outcome.raised e s1) :
    ∀ q, q ≠ pos → sB.KeepsAt s1 q := by
  intro q hne
  unfold Sheet.restoreCell at h
  cases hnew : Cell.new E old_text sB pos with
  | ok c s2 =>
    rw [hnew] at h
    simp only [Outcome.raised.injEq] at h
    obtain ⟨-, hs⟩ := h
    subst hs
    exact keepsAt_trans (keepsAt_of_grows (Cell_new_ok hnew).1 q)
      (keepsAt_assign_ne s2 pos q _ _ hne)
  | raised e2 s2 =>
    rw [hnew] at h
    simp only [Outcome.raised.injEq] at h
    obtain ⟨-, hs⟩ := h
    subst hs
    exact keepsAt_of_grows (Cell_new_raised hnew).1 q
  | ub => rw [hnew] at h; cases h
  | diverge => rw [hnew] at h; cases h

theorem SetCell_circular_keeps {E : Env} {s s1 : Sheet} {pos : Position} {text : String}
    (h : s.SetCell E pos text = Outcome.raised Exception.CircularDependencyException s1) :
    (∀ q, q ≠ pos → s.KeepsAt s1 q) ∧ (s.cellAt pos = none → s1.cellAt pos = none) := by
  unfold Sheet.SetCell at h
  split at h
  · cases h
  · split at h
    · rename_i old hfind
      have hold : s.cellAt pos = some old := by simp only [Sheet.cellAt, hfind]
      refine ⟨?_, fun hn => by rw [hold] at hn; cases hn⟩
      split at h
      · cases h
      · unfold Sheet.replaceCell at h
        cases hinv : InvalidateCache (invDepth s.sheet_) s.sheet_ old.addr with
        | ub => rw [hinv] at h; cases h
        | diverge => rw [hinv] at h; cases h
        | done m1 =>
          rw [hinv] at h
          simp only at h
          have hstrip : ∀ q, s.KeepsAt (Sheet.mk m1 s.next) q :=
            keepsAt_of_strip (InvalidateCache_strip _ _ _ _ hinv)
          split at h
          · cases hnew : Cell.new E text (Sheet.mk (CellMap.assign m1 pos none) s.next) pos with
            | ok c s3 => rw [hnew] at h; cases h
            | raised e s3 =>
              rw [hnew] at h
              simp only at h
              have hg := (Cell_new_raised hnew).1
              intro q hne
              have h3 : s.KeepsAt s3 q :=
                keepsAt_trans (keepsAt_trans (hstrip q)
                  (keepsAt_assign_ne (Sheet.mk m1 s.next) pos q none _ hne))
                  (keepsAt_of_grows hg q)
              split at h
              · exact keepsAt_trans h3 (restoreCell_keeps h q hne)
              · simp only [Outcome.raised.injEq] at h
                obtain ⟨-, hs⟩ := h
                subst hs
                exact h3
            | ub => rw [hnew] at h; cases h
            | diverge => rw [hnew] at h; cases h
          · cases h
    · unfold Sheet.createCell at h
      cases hnew : Cell.new E text s pos with
      | ok c s2 =>
        rw [hnew] at h
        exact absurd h (updateAll_not_circular _ _ _ _)
      | raised e s2 =>
        rw [hnew] at h
        simp only at h
        have hg := (Cell_new_raised hnew).1
        split at h
        · simp only [Outcome.raised.injEq, true_and] at h
          subst h
          refine ⟨fun q hne => keepsAt_trans (keepsAt_of_grows hg q)
            (keepsAt_erase_ne s2 pos q _ hne), fun _ => ?_⟩
          simp only [Sheet.cellAt, find_erase, if_true]
        · simp only [Outcome.raised.injEq] at h
          rename_i hne
          exact absurd h.1 hne
      | ub => rw [hnew] at h; cases h
      | diverge => rw [hnew] at h; cases h

theorem keepsAt_textAt (E : Env) {s s1 : Sheet} {p : Position} (h : s.KeepsAt s1 p) :
    s1.textAt E p = s.textAt E p := by
  unfold Sheet.textAt
  cases hc : s.cellAt p with
  | some c =>
    obtain ⟨c1, hc1, e1⟩ := h.1 c hc
    simp only [hc1]
    exact Cell.GetText_congr E (congrArg Cell.impl_ e1)
  | none =>
    rcases h.2 hc with h1 | ⟨a, ha⟩
    · simp only [h1]
    · simp only [ha, Cell.GetText, Impl.GetText]

/-! ## The cycle check decides reachability -/

theorem edge_of_similar_except {s sB : Sheet} {pos : Position}
    (hsim : ∀ q, q ≠ pos → s.SimilarAt sB q) (hnone : sB.refsAt pos = []) :
    ∀ p q, sB.Edge p q → s.Edge p q := by
  intro p q hpq
  by_cases hp : p = pos
  · subst hp
    simp [Sheet.Edge, hnone] at hpq
  · simp only [Sheet.Edge] at hpq ⊢
    rwa [(hsim p hp).refsAt_at] at hpq

/-- A circular-dependency error of `SetCell` means that the text is a formula
one of whose references leads to `pos`. -/
theorem SetCell_circular_sound {E : Env} {s s1 : Sheet} {pos : Position} {text : String}
    (h : s.SetCell E pos text = Outcome.raised Exception.CircularDependencyException s1) :
    ∃ impl, classify E text = Except.ok impl ∧
      ∃ x ∈ impl.refs, Relation.ReflTransGen s.Edge x pos := by
  unfold Sheet.SetCell at h
  split at h
  · cases h
  · split at h
    · rename_i old hfind
      split at h
      · cases h
      · unfold Sheet.replaceCell at h
        cases hinv : InvalidateCache (invDepth s.sheet_) s.sheet_ old.addr with
        | ub => rw [hinv] at h; cases h
        | diverge => rw [hinv] at h; cases h
        | done m1 =>
          rw [hinv] at h
          simp only at h
          have hstrip : s.Similar (Sheet.mk m1 s.next) :=
            similar_of_strip (InvalidateCache_strip _ _ _ _ hinv)
          have hsim : ∀ q, q ≠ pos →
              s.SimilarAt (Sheet.mk (CellMap.assign m1 pos none) s.next) q :=
            fun q hne =>
              (hstrip q).trans_at (similarAt_assign_ne (Sheet.mk m1 s.next) pos q none _ hne)
          have hnone : Sheet.refsAt (Sheet.mk (CellMap.assign m1 pos none) s.next) pos = [] := by
            apply refsAt_of_cellAt_none
            simp only [Sheet.cellAt, find_assign, if_true]
          split at h
          · cases hnew : Cell.new E text (Sheet.mk (CellMap.assign m1 pos none) s.next) pos with
            | ok c s3 => rw [hnew] at h; cases h
            | raised e s3 =>
              rw [hnew] at h
              simp only at h
              split at h
              · rename_i he
                subst he
                rcases (Cell_new_raised hnew).2 with ⟨h1, -⟩ | ⟨impl, hc, ⟨-, x, hx, hr⟩ | ⟨h1, -⟩⟩
                · cases h1
                · exact ⟨impl, hc, x, hx,
                    Relation.ReflTransGen.mono (edge_of_similar_except hsim hnone) hr⟩
                · cases h1
              · simp only [Outcome.raised.injEq] at h
                rename_i hne
                exact absurd h.1 hne
            | ub => rw [hnew] at h; cases h
            | diverge => rw [hnew] at h; cases h
          · cases h
    · unfold Sheet.createCell at h
      cases hnew : Cell.new E text s pos with
      | ok c s2 =>
        rw [hnew] at h
        exact absurd h (updateAll_not_circular _ _ _ _)
      | raised e s2 =>
        rw [hnew] at h
        simp only at h
        split at h
        · rename_i he
          subst he
          rcases (Cell_new_raised hnew).2 with ⟨h1, -⟩ | ⟨impl, hc, ⟨-, x, hx, hr⟩ | ⟨h1, -⟩⟩
          · cases h1
          · exact ⟨impl, hc, x, hx, hr⟩
          · cases h1
        · simp only [Outcome.raised.injEq] at h
          rename_i hne
          exact absurd h.1 hne
      | ub => rw [hnew] at h; cases h
      | diverge => rw [hnew] at h; cases h

theorem classify_text_ok {E : Env} {t0 : String} {i0 : Impl}
    (h0 : classify E t0 = Except.ok i0) (hrt : i0.RoundTrips E) :
    ∃ impl, classify E (i0.GetText E) = Except.ok impl := by
  cases hc : classify E (i0.GetText E) with
  | ok impl => exact ⟨impl, rfl⟩
  | error e =>
    exfalso
    unfold classify at h0
    split at h0
    · cases h0
      simp [Impl.GetText, classify] at hc
    · cases h0
      rename_i hd
      simp [Impl.GetText, classify, hd] at hc
    · split at h0
      · cases h0
      · rename_i f hf
        cases h0
        have hparse := hrt _ f none rfl
        simp only [Impl.GetText] at hc
        unfold classify at hc
        have hdata : ("=" ++ E.PrintFormula f).data = '=' :: (E.PrintFormula f).data := rfl
        rw [hdata] at hc
        cases hp : (E.PrintFormula f).data with
        | nil =>
          rw [hp] at hc
          simp at hc
        | cons a as =>
          rw [hp] at hc
          simp only at hc
          have hmk : String.mk (a :: as) = E.PrintFormula f := by
            rw [← hp]
          rw [hmk, hparse] at hc
          simp at hc
    · rename_i hn1 hn2 hn3
      cases h0
      simp only [Impl.GetText] at hc
      unfold classify at hc
      split at hc
      · cases hc
      · cases hc
      · rename_i rest hne hd
        exact absurd hd (hn3 rest)
      · cases hc

theorem Cell_new_circular {E : Env} (hE : E.ValidRefs) {s sB : Sheet} {pos : Position}
    (hsim : ∀ q, q ≠ pos → s.SimilarAt sB q) (hvB : sB.RefsValid)
    {text : String} {impl : Impl} (hcl : classify E text = Except.ok impl)
    {x : Position} (hx : x ∈ impl.refs) (hreach : Relation.ReflTransGen s.Edge x pos) :
    ∃ s3, Cell.new E text sB pos =
      Outcome.raised Exception.CircularDependencyException s3 := by
  cases hnew : Cell.new E text sB pos with
  | ok c s3 =>
    exfalso
    obtain ⟨-, hc, -, -, hun⟩ := Cell_new_ok hnew
    rw [hcl] at hc
    simp only [Except.ok.injEq] at hc
    apply hun x (by rw [Cell.refs_eq, ← hc]; exact hx)
    exact Relation.ReflTransGen.mono (edge_sub_of_similar hsim) (reach_cut s.Edge pos hreach)
  | raised e s3 =>
    rcases (Cell_new_raised hnew).2 with ⟨-, -, h1⟩ | ⟨impl1, hc, ⟨h1, -⟩ | ⟨-, h2⟩⟩
    · rw [hcl] at h1; cases h1
    · subst h1; exact ⟨s3, rfl⟩
    · exact absurd ⟨classify_refs_valid hE hc, hvB⟩ h2
  | ub => exact absurd hnew (Cell_new_not_ub _ _ _ _)
  | diverge => exact absurd hnew (Cell_new_not_diverge _ _ _ _)

theorem restoreCell_raises_circular {E : Env} (hE : E.ValidRefs) {sB : Sheet}
    (hvB : sB.RefsValid) (pos : Position) {old_text : String} {impl : Impl}
    (hcl : classify E old_text = Except.ok impl) :
    ∃ s1, sB.restoreCell E pos old_text =
      Outcome.raised Exception.CircularDependencyException s1 := by
  unfold Sheet.restoreCell
  cases hnew : Cell.new E old_text sB pos with
  | ok c s3 => exact ⟨_, rfl⟩
  | raised e s3 =>
    rcases (Cell_new_raised hnew).2 with ⟨-, -, h1⟩ | ⟨impl1, hc, ⟨h1, -⟩ | ⟨-, h2⟩⟩
    · rw [hcl] at h1; cases h1
    · subst h1; exact ⟨s3, rfl⟩
    · exact absurd ⟨classify_refs_valid hE hc, hvB⟩ h2
  | ub => exact absurd hnew (Cell_new_not_ub _ _ _ _)
  | diverge => exact absurd hnew (Cell_new_not_diverge _ _ _ _)

/-- When the text is a formula one of whose references leads to `pos`, a
`SetCell` that meets no dangling pointer raises the circular-dependency error. -/
theorem SetCell_circular_complete {E : Env} (hE : E.ValidRefs) {s : Sheet}
    (hac : s.Acyclic) (hcls : s.Classified E) (hv : s.RefsValid)
    {pos : Position} (hpos : pos.IsValid = true) {text : String} {impl : Impl}
    (hcl : classify E text = Except.ok impl)
    (hrt : ∀ old, s.cellAt pos = some old → old.impl_.RoundTrips E)
    {x : Position} (hx : x ∈ impl.refs) (hreach : Relation.ReflTransGen s.Edge x pos) :
    (∃ s1, s.SetCell E pos text =
        Outcome.raised Exception.CircularDependencyException s1) ∨
      s.SetCell E pos text = Outcome.ub ∨ s.SetCell E pos text = Outcome.diverge := by
  unfold Sheet.SetCell
  simp only [hpos, Bool.not_true, Bool.false_eq_true, if_false]
  split
  · rename_i old hfind
    have hold : s.cellAt pos = some old := by simp only [Sheet.cellAt, hfind]
    obtain ⟨t0, ht0⟩ := hcls pos old hold
    have hrt0 := Impl.roundTrips_InvalidateCache (hrt old hold)
    have htext0 : old.GetText E = old.impl_.InvalidateCache.GetText E := by
      rw [Impl.GetText_InvalidateCache]; rfl
    split
    · rename_i heq
      exfalso
      rw [← heq, htext0] at hcl
      have hx0 := (classify_restore ht0 hrt0 hcl).2 x hx
      rw [Impl.refs_InvalidateCache] at hx0
      have hedge : s.Edge pos x := by
        simp only [Sheet.Edge, Sheet.refsAt, hold, Cell.refs_eq]
        exact hx0
      exact hac pos (Relation.TransGen.head' hedge hreach)
    · unfold Sheet.replaceCell
      cases hinv : InvalidateCache (invDepth s.sheet_) s.sheet_ old.addr with
      | ub => exact Or.inr (Or.inl rfl)
      | diverge => exact Or.inr (Or.inr rfl)
      | done m1 =>
        simp only
        have hstrip : s.Similar (Sheet.mk m1 s.next) :=
          similar_of_strip (InvalidateCache_strip _ _ _ _ hinv)
        have hsim : ∀ q, q ≠ pos →
            s.SimilarAt (Sheet.mk (CellMap.assign m1 pos none) s.next) q :=
          fun q hne =>
            (hstrip q).trans_at (similarAt_assign_ne (Sheet.mk m1 s.next) pos q none _ hne)
        have hnone : Sheet.cellAt (Sheet.mk (CellMap.assign m1 pos none) s.next) pos =
            none := by
          simp only [Sheet.cellAt, find_assign, if_true]
        have hv2 := refsValid_of_similar_except hv hsim hnone
        obtain ⟨c2, hc2, he⟩ := (hstrip pos).1 old hold
        have hfind1 : CellMap.find m1 pos = some (some c2) := by
          unfold Sheet.cellAt at hc2
          split at hc2
          · rename_i c3 hf3
            cases hc2
            exact hf3
          · cases hc2
        rw [hfind1]
        simp only
        obtain ⟨s3, hnew⟩ := Cell_new_circular hE hsim hv2 hcl hx hreach
        rw [hnew]
        simp only [if_true]
        have hg := (Cell_new_raised hnew).1
        have htext : c2.GetText E = old.impl_.InvalidateCache.GetText E := by
          rw [← htext0]
          exact Cell.GetText_congr E he
        obtain ⟨impl0, hcl0⟩ := classify_text_ok ht0 hrt0
        rw [← htext] at hcl0
        obtain ⟨s4, h4⟩ := restoreCell_raises_circular hE (hg.refsValid hv2) pos hcl0
        exact Or.inl ⟨s4, h4⟩
  · unfold Sheet.createCell
    obtain ⟨s3, hnew⟩ := Cell_new_circular hE
      (fun q _ => Sheet.SimilarAt.refl_at s q) hv hcl hx hreach
    rw [hnew]
    simp only [if_true]
    exact Or.inl ⟨_, rfl⟩

/-! ## A completed `SetCell` -/

theorem cycleLoop_ok_cells (pos : Position) (fuel : Nat) :
    ∀ (s : Sheet) (q pred : List Position) (s1 : Sheet),
      cycleLoop pos fuel s q pred = Outcome.ok () s1 →
      ∀ x ∈ q, ∃ c, s1.cellAt x = some c := by
  induction fuel with
  | zero => intro s q pred s1 h; simp [cycleLoop] at h
  | succ fuel ih =>
    intro s q pred s1 h
    cases q with
    | nil => intro x hx; simp at hx
    | cons current queue =>
      rw [cycleLoop_cons] at h
      split at h
      · cases h
      · split at h
        · cases h
        · split at h
          · rename_i cell hcell
            intro x hx
            rcases List.mem_cons.1 hx with hx | hx
            · subst hx
              have hg := cycleLoop_grows pos fuel _ _ _ s1 (by rw [h]; rfl)
              exact ⟨cell, hg.cellAt_some hcell⟩
            · exact ih _ _ _ _ h x (List.mem_append_left _ hx)
          · rename_i hnone
            intro x hx
            rcases List.mem_cons.1 hx with hx | hx
            · subst hx
              have hg := cycleLoop_grows pos fuel _ _ _ s1 (by rw [h]; rfl)
              have hm : (s.materialize x).cellAt x =
                  some (Cell.mk s.next Impl.EmptyImpl []) := by
                simp only [Sheet.cellAt, Sheet.materialize, find_assign, if_true]
              exact ⟨_, hg.cellAt_some hm⟩
            · exact ih _ _ _ _ h x hx

theorem cycleLoop_ok_valid (pos : Position) (fuel : Nat) :
    ∀ (s : Sheet) (q pred : List Position) (s1 : Sheet),
      cycleLoop pos fuel s q pred = Outcome.ok () s1 →
      ∀ x ∈ q, x.IsValid = true := by
  induction fuel with
  | zero => intro s q pred s1 h; simp [cycleLoop] at h
  | succ fuel ih =>
    intro s q pred s1 h
    cases q with
    | nil => intro x hx; simp at hx
    | cons current queue =>
      rw [cycleLoop_cons] at h
      split at h
      · cases h
      · split at h
        · cases h
        · rename_i hv
          have hcur : current.IsValid = true := by simpa using hv
          split at h
          · intro x hx
            rcases List.mem_cons.1 hx with hx | hx
            · subst hx; exact hcur
            · exact ih _ _ _ _ h x (List.mem_append_left _ hx)
          · intro x hx
            rcases List.mem_cons.1 hx with hx | hx
            · subst hx; exact hcur
            · exact ih _ _ _ _ h x hx

theorem Cell_new_ok_valid {E : Env} {text : String} {s : Sheet} {pos : Position} {c : Cell}
    {s1 : Sheet} (h : Cell.new E text s pos = Outcome.ok c s1) :
    ∀ x ∈ c.GetReferencedCells, x.IsValid = true := by
  unfold Cell.new at h
  split at h
  · cases h
  · rename_i t f ch hcl
    cases hloop : cycleLoop pos
        (cycleFuel { sheet_ := s.sheet_, next := s.next + 1 } f.GetReferencedCells)
        { sheet_ := s.sheet_, next := s.next + 1 } f.GetReferencedCells [] with
    | ok u s2 =>
      rw [hloop] at h
      simp only [withCell, Outcome.ok.injEq] at h
      obtain ⟨hc, hs⟩ := h
      subst hc; subst hs
      exact cycleLoop_ok_valid _ _ _ _ _ _ hloop
    | raised e s2 => rw [hloop] at h; simp [withCell] at h
    | ub => rw [hloop] at h; simp [withCell] at h
    | diverge => rw [hloop] at h; simp [withCell] at h
  · rename_i impl hnf hcl
    simp only [Outcome.ok.injEq] at h
    obtain ⟨hc, hs⟩ := h
    subst hc; subst hs
    intro x hx
    rw [Cell.refs_eq] at hx
    cases impl with
    | EmptyImpl => simp [Impl.refs] at hx
    | TextImpl t => simp [Impl.refs] at hx
    | FormulaImpl t f ch => exact absurd rfl (hnf t f ch)

theorem Cell_new_ok_cells {E : Env} {text : String} {s : Sheet} {pos : Position} {c : Cell}
    {s1 : Sheet} (h : Cell.new E text s pos = Outcome.ok c s1) :
    ∀ x ∈ c.GetReferencedCells, ∃ cx, s1.cellAt x = some cx := by
  unfold Cell.new at h
  split at h
  · cases h
  · rename_i t f ch hcl
    cases hloop : cycleLoop pos
        (cycleFuel { sheet_ := s.sheet_, next := s.next + 1 } f.GetReferencedCells)
        { sheet_ := s.sheet_, next := s.next + 1 } f.GetReferencedCells [] with
    | ok u s2 =>
      rw [hloop] at h
      simp only [withCell, Outcome.ok.injEq] at h
      obtain ⟨hc, hs⟩ := h
      subst hc; subst hs
      exact cycleLoop_ok_cells _ _ _ _ _ _ hloop
    | raised e s2 => rw [hloop] at h; simp [withCell] at h
    | ub => rw [hloop] at h; simp [withCell] at h
    | diverge => rw [hloop] at h; simp [withCell] at h
  · rename_i impl hnf hcl
    simp only [Outcome.ok.injEq] at h
    obtain ⟨hc, hs⟩ := h
    subst hc; subst hs
    intro x hx
    rw [Cell.refs_eq] at hx
    cases impl with
    | EmptyImpl => simp [Impl.refs] at hx
    | TextImpl t => simp [Impl.refs] at hx
    | FormulaImpl t f ch => exact absurd rfl (hnf t f ch)

theorem relinkAt_refl (s : Sheet) (q : Position) : s.RelinkAt s q :=
  ⟨fun c hc => ⟨c, hc, rfl, rfl⟩, fun h => Or.inl h⟩

theorem relinkAt_trans {s s1 s2 : Sheet} {q : Position}
    (h1 : s.RelinkAt s1 q) (h2 : s1.RelinkAt s2 q) : s.RelinkAt s2 q := by
  constructor
  · intro c hc
    obtain ⟨c1, hc1, e1, a1⟩ := h1.1 c hc
    obtain ⟨c2, hc2, e2, a2⟩ := h2.1 c1 hc1
    exact ⟨c2, hc2, e2.trans e1, a2.trans a1⟩
  · intro hn
    rcases h1.2 hn with h | ⟨c1, hc1, e1⟩
    · exact h2.2 h
    · obtain ⟨c2, hc2, e2, -⟩ := h2.1 c1 hc1
      exact Or.inr ⟨c2, hc2, e2.trans e1⟩

theorem relinkAt_of_find {s s1 : Sheet} {q : Position}
    (h : CellMap.find s1.sheet_ q = CellMap.find s.sheet_ q) : s.RelinkAt s1 q := by
  have hc := cellAt_eq_of_find h
  exact ⟨fun c h1 => ⟨c, hc.trans h1, rfl, rfl⟩, fun h1 => Or.inl (hc.trans h1)⟩

theorem relinkAt_of_grows {s s1 : Sheet} (h : s.Grows s1) (q : Position) :
    s.RelinkAt s1 q := by
  rcases h q with h | ⟨hn, a, ha⟩
  · exact relinkAt_of_find h
  · refine ⟨fun c hc => ?_, fun _ => Or.inr ⟨Cell.mk a Impl.EmptyImpl [], ?_, rfl⟩⟩
    · rw [hn] at hc; cases hc
    · simp only [Sheet.cellAt, ha]

theorem updateDependents_relink (upd : List Nat → List Nat) (s : Sheet) (pos_ : Position)
    {s1 : Sheet} (h : (s.updateDependents upd pos_).state = some s1) :
    (∀ q, s.RelinkAt s1 q) ∧
    (∀ q, q ≠ pos_ → CellMap.find s1.sheet_ q = CellMap.find s.sheet_ q) := by
  unfold Sheet.updateDependents Sheet.GetRawCell at h
  cases hv : pos_.IsValid with
  | false =>
    simp only [hv, Bool.not_false, if_true, Outcome.state, Option.some.injEq] at h
    subst h
    exact ⟨fun q => relinkAt_refl s q, fun q _ => rfl⟩
  | true =>
    simp only [hv, Bool.not_true, Bool.false_eq_true, if_false] at h
    cases hf : CellMap.find s.sheet_ pos_ with
    | none =>
      rw [hf] at h
      simp only [Outcome.state, Option.some.injEq] at h
      subst h
      constructor
      · intro q
        by_cases hq : q = pos_
        · subst hq
          refine ⟨fun c hc => ?_, fun _ => Or.inr
            ⟨(Cell.mk s.next Impl.EmptyImpl []).SetDependentCells
              (upd (Cell.mk s.next Impl.EmptyImpl []).GetDependentCells), ?_, rfl⟩⟩
          · simp [Sheet.cellAt, hf] at hc
          · simp only [Sheet.cellAt, find_assign, if_true]
        · apply relinkAt_of_find
          simp only [Sheet.materialize, find_assign, Ne.symm hq, if_false]
      · intro q hq
        simp only [Sheet.materialize, find_assign, Ne.symm hq, if_false]
    | some v =>
      rw [hf] at h
      cases v with
      | none => simp [Outcome.state] at h
      | some c =>
        simp only [Outcome.state, Option.some.injEq] at h
        subst h
        constructor
        · intro q
          by_cases hq : q = pos_
          · subst hq
            refine ⟨fun c0 hc0 => ?_, fun hn => ?_⟩
            · simp only [Sheet.cellAt, hf, Option.some.injEq] at hc0
              subst hc0
              exact ⟨c.SetDependentCells (upd c.GetDependentCells),
                by simp only [Sheet.cellAt, find_assign, if_true], rfl, rfl⟩
            · simp [Sheet.cellAt, hf] at hn
          · apply relinkAt_of_find
            simp only [find_assign, Ne.symm hq, if_false]
        · intro q hq
          simp only [find_assign, Ne.symm hq, if_false]

theorem updateAll_relink (upd : List Nat → List Nat) (refs : List Position) :
    ∀ (s s1 : Sheet), (Sheet.updateAll upd s refs).state = some s1 →
      (∀ q, s.RelinkAt s1 q) ∧
      (∀ q, q ∉ refs → CellMap.find s1.sheet_ q = CellMap.find s.sheet_ q) := by
  induction refs with
  | nil =>
    intro s s1 h
    simp only [Sheet.updateAll, Outcome.state, Option.some.injEq] at h
    subst h
    exact ⟨fun q => relinkAt_refl s q, fun q _ => rfl⟩
  | cons pos_ rest ih =>
    intro s s1 h
    unfold Sheet.updateAll at h
    cases hstep : s.updateDependents upd pos_ with
    | ok u s2 =>
      rw [hstep] at h
      simp only at h
      obtain ⟨hr1, hf1⟩ := updateDependents_relink upd s pos_
        (by rw [hstep]; rfl : (s.updateDependents upd pos_).state = some s2)
      obtain ⟨hr2, hf2⟩ := ih s2 s1 h
      refine ⟨fun q => relinkAt_trans (hr1 q) (hr2 q), ?_⟩
      intro q hq
      simp only [List.mem_cons, not_or] at hq
      rw [hf2 q hq.2, hf1 q hq.1]
    | raised e s2 =>
      rw [hstep] at h
      simp only at h
      obtain ⟨hr1, hf1⟩ := updateDependents_relink upd s pos_
        (by rw [hstep]; exact h : (s.updateDependents upd pos_).state = some s1)
      refine ⟨hr1, ?_⟩
      intro q hq
      simp only [List.mem_cons, not_or] at hq
      exact hf1 q hq.1
    | ub => rw [hstep] at h; simp [Outcome.state] at h
    | diverge => rw [hstep] at h; simp [Outcome.state] at h

theorem not_mem_refs_of_unreachable {s : Sheet} {pos : Position} {refs : List Position}
    (h : ∀ x ∈ refs, ¬ Relation.ReflTransGen s.Edge x pos) : pos ∉ refs :=
  fun hp => h pos hp Relation.ReflTransGen.refl

theorem createCell_ok {E : Env} {s s1 : Sheet} {pos : Position} {text : String}
    (h : s.createCell E pos text = Outcome.ok () s1) :
    ∃ c, Sheet.Stored E s s1 pos text [] c := by
  unfold Sheet.createCell at h
  cases hnew : Cell.new E text s pos with
  | ok c s2 =>
    rw [hnew] at h
    simp only at h
    obtain ⟨hg, hcl, haddr, hdeps, hun⟩ := Cell_new_ok hnew
    have hcells := Cell_new_ok_cells hnew
    obtain ⟨hr, hf⟩ := updateAll_relink _ _ _ s1 (by rw [h]; rfl)
    have hpos : pos ∉ c.GetReferencedCells := not_mem_refs_of_unreachable hun
    have hc1 : s1.cellAt pos = some c := by
      apply (cellAt_eq_of_find (hf pos hpos)).trans
      exact cellAt_assign_self _ _ _ _
    refine ⟨c, hc1, hcl, haddr, hdeps, ?_⟩
    intro x hx
    refine ⟨Cell_new_ok_valid hnew x hx, ?_⟩
    have hxp : x ≠ pos := fun hxp => hpos (hxp ▸ hx)
    obtain ⟨cx2, hcx2⟩ := hcells x hx
    have hA : Sheet.cellAt (Sheet.mk (CellMap.assign s2.sheet_ pos (some c)) s2.next) x =
        some cx2 := by
      rw [← hcx2]
      apply cellAt_eq_of_find
      simp only [find_assign, Ne.symm hxp, if_false]
    obtain ⟨cx, hcx, himpl, -⟩ := (hr x).1 cx2 hA
    refine ⟨cx, hcx, fun hn => ?_⟩
    rcases (keepsAt_of_grows hg x).2 hn with h0 | ⟨a, ha⟩
    · rw [h0] at hcx2; cases hcx2
    · rw [ha] at hcx2
      cases hcx2
      exact himpl
  | raised e s2 =>
    rw [hnew] at h
    simp only at h
    split at h <;> cases h
  | ub => rw [hnew] at h; cases h
  | diverge => rw [hnew] at h; cases h

theorem replaceCell_ok {E : Env} {s s1 : Sheet} {pos : Position} {text : String} {old : Cell}
    (hold : s.cellAt pos = some old)
    (h : s.replaceCell E pos text old = Outcome.ok () s1) :
    ∃ c, Sheet.Stored E s s1 pos text old.dependent_cells_ c := by
  unfold Sheet.replaceCell at h
  cases hinv : InvalidateCache (invDepth s.sheet_) s.sheet_ old.addr with
  | ub => rw [hinv] at h; cases h
  | diverge => rw [hinv] at h; cases h
  | done m1 =>
    rw [hinv] at h
    simp only at h
    have hstrip : ∀ q, s.KeepsAt (Sheet.mk m1 s.next) q :=
      keepsAt_of_strip (InvalidateCache_strip _ _ _ _ hinv)
    split at h
    · rename_i old1 hfind1
      have hold1 : Sheet.cellAt (Sheet.mk m1 s.next) pos = some old1 := by
        simp only [Sheet.cellAt, hfind1]
      obtain ⟨c2, hc2, he⟩ := (hstrip pos).1 old hold
      rw [hold1] at hc2
      cases hc2
      have hdeps1 : old1.dependent_cells_ = old.dependent_cells_ := by
        have := congrArg Cell.dependent_cells_ he
        simpa only [Cell.dropCache] using this
      cases hnew : Cell.new E text (Sheet.mk (CellMap.assign m1 pos none) s.next) pos with
      | ok c s3 =>
        rw [hnew] at h
        simp only [Outcome.ok.injEq, true_and] at h
        subst h
        obtain ⟨hg, hcl, haddr, -, hun⟩ := Cell_new_ok hnew
        have hcells := Cell_new_ok_cells hnew
        have hpos : pos ∉ c.GetReferencedCells := not_mem_refs_of_unreachable hun
        refine ⟨c.SetDependentCells old1.GetDependentCells, cellAt_assign_self _ _ _ _,
          hcl, haddr, hdeps1, ?_⟩
        intro x hx
        refine ⟨Cell_new_ok_valid hnew x hx, ?_⟩
        have hxp : x ≠ pos := fun hxp => hpos (hxp ▸ hx)
        obtain ⟨cx, hcx⟩ := hcells x hx
        have hk : s.KeepsAt s3 x :=
          keepsAt_trans (keepsAt_trans (hstrip x)
            (keepsAt_assign_ne (Sheet.mk m1 s.next) pos x none _ hxp))
            (keepsAt_of_grows hg x)
        refine ⟨cx, ?_, fun hn => ?_⟩
        · rw [← hcx]
          apply cellAt_eq_of_find
          simp only [find_assign, Ne.symm hxp, if_false]
        · rcases hk.2 hn with h0 | ⟨a, ha⟩
          · rw [h0] at hcx; cases hcx
          · rw [ha] at hcx
            cases hcx
            rfl
      | raised e s3 =>
        rw [hnew] at h
        simp only at h
        split at h
        · unfold Sheet.restoreCell at h
          cases hnew2 : Cell.new E (old1.GetText E) s3 pos with
          | ok c4 s4 => rw [hnew2] at h; cases h
          | raised e4 s4 => rw [hnew2] at h; cases h
          | ub => rw [hnew2] at h; cases h
          | diverge => rw [hnew2] at h; cases h
        · cases h
      | ub => rw [hnew] at h; cases h
      | diverge => rw [hnew] at h; cases h
    · cases h

/-- A completed `SetCell` either found the text unchanged and did nothing, or
stored a new cell with the dependents of the old one. -/
theorem SetCell_ok {E : Env} {s s1 : Sheet} {pos : Position} {text : String}
    (h : s.SetCell E pos text = Outcome.ok () s1) :
    pos.IsValid = true ∧
    ((∃ old, s.cellAt pos = some old ∧ old.GetText E = text ∧ s1 = s) ∨
     (¬ (∃ old, s.cellAt pos = some old ∧ old.GetText E = text) ∧
      ∃ c, Sheet.Stored E s s1 pos text
        (((s.cellAt pos).map Cell.dependent_cells_).getD []) c)) := by
  unfold Sheet.SetCell at h
  split at h
  · cases h
  · rename_i hv
    refine ⟨by simpa using hv, ?_⟩
    split at h
    · rename_i old hfind
      have hold : s.cellAt pos = some old := by simp only [Sheet.cellAt, hfind]
      split at h
      · rename_i heq
        simp only [Outcome.ok.injEq, true_and] at h
        exact Or.inl ⟨old, hold, heq, h.symm⟩
      · rename_i hne
        right
        refine ⟨?_, ?_⟩
        · rintro ⟨old2, hold2, heq2⟩
          rw [hold] at hold2
          cases hold2
          exact hne heq2
        · simp only [hold, Option.map_some', Option.getD_some]
          exact replaceCell_ok hold h
    · rename_i hno
      have hnone : s.cellAt pos = none := by
        unfold Sheet.cellAt
        split
        · rename_i c hc
          exact absurd hc (hno c)
        · rfl
      right
      refine ⟨?_, ?_⟩
      · rintro ⟨old2, hold2, -⟩
        rw [hnone] at hold2
        cases hold2
      · simp only [hnone, Option.map_none', Option.getD_none]
        exact createCell_ok h

/-! ## Texts that are not formulas -/

theorem find_of_cellAt {s : Sheet} {p : Position} {c : Cell} (h : s.cellAt p = some c) :
    CellMap.find s.sheet_ p = some (some c) := by
  unfold Sheet.cellAt at h
  split at h
  · rename_i c1 hfind
    cases h
    exact hfind
  · cases h

theorem classify_plain {E : Env} {t : String} (ht : NotFormula t) :
    ∃ impl, classify E t = Except.ok impl ∧ impl.GetText E = t ∧
      (impl = Impl.EmptyImpl ∨ impl = Impl.TextImpl t) := by
  unfold classify
  split
  · rename_i h
    refine ⟨_, rfl, ?_, Or.inl rfl⟩
    simp only [Impl.GetText]
    exact String.ext h.symm
  · exact ⟨_, rfl, rfl, Or.inr rfl⟩
  · rename_i rest hne h
    exfalso
    cases rest with
    | nil => exact hne rfl
    | cons c rest => exact ht c rest h
  · exact ⟨_, rfl, rfl, Or.inr rfl⟩

theorem classify_escaped (E : Env) {t : String} {rest : List Char}
    (ht : t.data = '\'' :: rest) : classify E t = Except.ok (Impl.TextImpl t) := by
  unfold classify
  split
  · rename_i h; rw [ht] at h; cases h
  · rename_i h; simp [ht] at h
  · rename_i h; rw [ht] at h; exact absurd (List.cons.inj h).1 (by decide)
  · rfl

/-- A completed `SetCell` with a text that is not a formula leaves a cell with
that text at the position. -/
theorem SetCell_plain_ok {E : Env} {s s1 : Sheet} {pos : Position} {t : String}
    (ht : NotFormula t) (h : s.SetCell E pos t = Outcome.ok () s1) :
    ∃ c, s1.GetCell pos = Outcome.ok (some c) s1 ∧ c.GetText E = t := by
  obtain ⟨hv, h1 | ⟨-, c, hc, hcl, -⟩⟩ := SetCell_ok h
  · obtain ⟨old, hold, htext, hs⟩ := h1
    subst hs
    exact ⟨old, GetCell_of_cellAt hv hold, htext⟩
  · refine ⟨c, GetCell_of_cellAt hv hc, ?_⟩
    obtain ⟨impl, himpl, htext, -⟩ := classify_plain (E := E) ht
    rw [hcl] at himpl
    cases himpl
    exact htext

/-! ## A completed `ClearCell` -/

theorem ClearCell_ok_find {s s1 : Sheet} {pos : Position}
    (h : s.ClearCell pos = Outcome.ok () s1) : CellMap.find s1.sheet_ pos = none := by
  unfold Sheet.ClearCell at h
  split at h
  · cases h
  · split at h
    · rename_i hfind
      simp only [Outcome.ok.injEq, true_and] at h
      subst h
      exact hfind
    · cases h
    · split at h
      · cases h
      · cases h
      · split at h
        · simp only [Outcome.ok.injEq, true_and] at h
          subst h
          simp only [find_erase, if_true]
        · rename_i r hr
          exact absurd h (hr () s1)

theorem cellAt_of_GetCell_none {s : Sheet} {pos : Position}
    (h : s.GetCell pos = Outcome.ok none s) : s.cellAt pos = none := by
  cases hc : s.cellAt pos with
  | none => rfl
  | some c =>
    exfalso
    unfold Sheet.GetCell at h
    split at h
    · cases h
    · rw [find_of_cellAt hc] at h
      cases h

/-- After a completed `ClearCell` nothing is mapped at the position, and on a
position that was not mapped the call changes nothing. -/
theorem ClearCell_ok_null {s s1 : Sheet} {pos : Position}
    (h : s.ClearCell pos = Outcome.ok () s1) :
    s1.GetCell pos = Outcome.ok none s1 ∧ (CellMap.find s.sheet_ pos = none → s1 = s) := by
  have hf := ClearCell_ok_find h
  unfold Sheet.ClearCell at h
  split at h
  · cases h
  · rename_i hv
    constructor
    · unfold Sheet.GetCell
      simp only [hv, if_false, hf]
      rfl
    · intro hnone
      simp only [hnone, Outcome.ok.injEq, true_and] at h
      exact h.symm

theorem ClearCell_unmapped {s : Sheet} {pos : Position} (hv : pos.IsValid = true)
    (hnone : CellMap.find s.sheet_ pos = none) : s.ClearCell pos = Outcome.ok () s := by
  unfold Sheet.ClearCell
  simp only [hv, Bool.not_true, Bool.false_eq_true, if_false, hnone]

/-! ## The printable size -/

theorem printableLoop_spec (E : Env) :
    ∀ (m : CellMap) (flag : Bool) (r c : Int), (∀ e ∈ m, e.2 ≠ none) →
      ∃ flag1 r1 c1, printableLoop E m (flag, r, c) = some (flag1, r1, c1) ∧
        (flag1 = true ↔ flag = true ∨ ∃ e ∈ m, HasText E e) ∧
        r ≤ r1 ∧ c ≤ c1 ∧
        (∀ e ∈ m, HasText E e → e.1.row ≤ r1 ∧ e.1.col ≤ c1) ∧
        (r1 = r ∨ ∃ e ∈ m, HasText E e ∧ e.1.row = r1) ∧
        (c1 = c ∨ ∃ e ∈ m, HasText E e ∧ e.1.col = c1) := by
  intro m
  induction m with
  | nil =>
    intro flag r c _
    refine ⟨flag, r, c, rfl, ?_, le_refl _, le_refl _, ?_, Or.inl rfl, Or.inl rfl⟩
    · simp
    · intro e he; simp at he
  | cons e rest ih =>
    intro flag r c hnn
    obtain ⟨pos, v⟩ := e
    have hrest : ∀ e ∈ rest, e.2 ≠ none := fun e he => hnn e (List.mem_cons_of_mem _ he)
    cases v with
    | none => exact absurd rfl (hnn (pos, none) (List.mem_cons_self _ _))
    | some cell =>
      by_cases ht : cell.GetText E ≠ ""
      · obtain ⟨flag1, r1, c1, hloop, hflag, hr, hc, hall, hrow, hcol⟩ :=
          ih true (max r pos.row) (max c pos.col) hrest
        have hhead : HasText E (pos, some cell) := ⟨cell, rfl, ht⟩
        refine ⟨flag1, r1, c1, ?_, ?_, le_trans (le_max_left _ _) hr,
          le_trans (le_max_left _ _) hc, ?_, ?_, ?_⟩
        · simp only [printableLoop]
          rw [if_pos ht]
          exact hloop
        · constructor
          · intro _
            exact Or.inr ⟨_, List.mem_cons_self _ _, hhead⟩
          · intro _
            exact hflag.2 (Or.inl rfl)
        · intro e he hte
          rcases List.mem_cons.1 he with he | he
          · subst he
            exact ⟨le_trans (le_max_right _ _) hr, le_trans (le_max_right _ _) hc⟩
          · exact hall e he hte
        · rcases hrow with hrow | ⟨e, he, hte, hrow⟩
          · rcases max_choice r pos.row with hm | hm
            · left; rw [hrow, hm]
            · right
              exact ⟨_, List.mem_cons_self _ _, hhead, by rw [hrow, hm]⟩
          · exact Or.inr ⟨e, List.mem_cons_of_mem _ he, hte, hrow⟩
        · rcases hcol with hcol | ⟨e, he, hte, hcol⟩
          · rcases max_choice c pos.col with hm | hm
            · left; rw [hcol, hm]
            · right
              exact ⟨_, List.mem_cons_self _ _, hhead, by rw [hcol, hm]⟩
          · exact Or.inr ⟨e, List.mem_cons_of_mem _ he, hte, hcol⟩
      · obtain ⟨flag1, r1, c1, hloop, hflag, hr, hc, hall, hrow, hcol⟩ :=
          ih flag r c hrest
        have hhead : ¬ HasText E (pos, some cell) := by
          rintro ⟨cell2, h2, ht2⟩
          cases h2
          exact ht ht2
        refine ⟨flag1, r1, c1, ?_, ?_, hr, hc, ?_, ?_, ?_⟩
        · simp only [printableLoop]
          rw [if_neg ht]
          exact hloop
        · rw [hflag]
          constructor
          · rintro (h | ⟨e, he, hte⟩)
            · exact Or.inl h
            · exact Or.inr ⟨e, List.mem_cons_of_mem _ he, hte⟩
          · rintro (h | ⟨e, he, hte⟩)
            · exact Or.inl h
            · rcases List.mem_cons.1 he with he | he
              · subst he; exact absurd hte hhead
              · exact Or.inr ⟨e, he, hte⟩
        · intro e he hte
          rcases List.mem_cons.1 he with he | he
          · subst he; exact absurd hte hhead
          · exact hall e he hte
        · rcases hrow with hrow | ⟨e, he, hte, hrow⟩
          · exact Or.inl hrow
          · exact Or.inr ⟨e, List.mem_cons_of_mem _ he, hte, hrow⟩
        · rcases hcol with hcol | ⟨e, he, hte, hcol⟩
          · exact Or.inl hcol
          · exact Or.inr ⟨e, List.mem_cons_of_mem _ he, hte, hcol⟩

/-! ## More iterations than needed change nothing -/

theorem cycleLoop_succ (pos : Position) (fuel : Nat) :
    ∀ (s : Sheet) (q pred : List Position),
      cycleLoop pos fuel s q pred ≠ Outcome.diverge →
      cycleLoop pos (fuel + 1) s q pred = cycleLoop pos fuel s q pred := by
  induction fuel with
  | zero => intro s q pred h; exact absurd (by simp [cycleLoop]) h
  | succ fuel ih =>
    intro s q pred h
    cases q with
    | nil => rw [cycleLoop_nil, cycleLoop_nil]
    | cons current queue =>
      rw [cycleLoop_cons] at h
      rw [cycleLoop_cons pos (fuel + 1), cycleLoop_cons pos fuel]
      split
      · rfl
      · split
        · rfl
        · split
          · rename_i cell hc
            simp only [*, if_false] at h
            exact ih _ _ _ h
          · rename_i hc
            simp only [*, if_false] at h
            exact ih _ _ _ h

theorem cycleLoop_add (pos : Position) (fuel : Nat) (s : Sheet) (q pred : List Position)
    (h : cycleLoop pos fuel s q pred ≠ Outcome.diverge) (k : Nat) :
    cycleLoop pos (fuel + k) s q pred = cycleLoop pos fuel s q pred := by
  induction k with
  | zero => rfl
  | succ k ih =>
    rw [← Nat.add_assoc, cycleLoop_succ pos (fuel + k) s q pred (by rw [ih]; exact h), ih]

/-! ## The choice of the implementation -/

theorem classify_cases (E : Env) (t : String) :
    (t.data = [] ∧ classify E t = Except.ok Impl.EmptyImpl) ∨
    (t.data = ['='] ∧ classify E t = Except.ok (Impl.TextImpl t)) ∨
    (∃ ch rest, t.data = '=' :: ch :: rest ∧
      classify E t =
        match E.ParseFormulaAST (String.mk (ch :: rest)) with
        | none => Except.error Exception.FormulaException
        | some f => Except.ok (Impl.FormulaImpl (String.mk (ch :: rest)) f none)) ∨
    (∃ c rest, t.data = c :: rest ∧ c ≠ '=' ∧ classify E t = Except.ok (Impl.TextImpl t)) := by
  unfold classify
  split
  · rename_i h
    exact Or.inl ⟨h, rfl⟩
  · rename_i h
    exact Or.inr (Or.inl ⟨h, rfl⟩)
  · rename_i rest hne h
    cases rest with
    | nil => exact absurd rfl hne
    | cons ch rest => exact Or.inr (Or.inr (Or.inl ⟨ch, rest, h, rfl⟩))
  · rename_i h1 h2 h3
    cases hd : t.data with
    | nil => exact absurd hd h1
    | cons c rest =>
      refine Or.inr (Or.inr (Or.inr ⟨c, rest, rfl, ?_, rfl⟩))
      intro hc
      subst hc
      cases rest with
      | nil => exact h2 hd
      | cons ch rest => exact h3 (ch :: rest) hd

theorem data_eq_nil_iff (t : String) : t.data = [] ↔ t = "" :=
  ⟨fun h => String.ext h, fun h => by rw [h]⟩

/-! ## `ClearCell` and the other positions -/

theorem cellAt_none_of_strip {s s1 : Sheet}
    (h : CellMap.strip s1.sheet_ = CellMap.strip s.sheet_) (p : Position)
    (hn : s.cellAt p = none) : s1.cellAt p = none := by
  have hp : (CellMap.find s1.sheet_ p).map (Option.map Cell.dropCache) =
      (CellMap.find s.sheet_ p).map (Option.map Cell.dropCache) := by
    rw [← find_strip, ← find_strip, h]
  unfold Sheet.cellAt at hn ⊢
  cases h0 : CellMap.find s.sheet_ p with
  | none =>
    rw [h0] at hp
    cases h1 : CellMap.find s1.sheet_ p with
    | none => rfl
    | some v => rw [h1] at hp; simp at hp
  | some v =>
    rw [h0] at hp hn
    cases v with
    | some c => simp at hn
    | none =>
      cases h1 : CellMap.find s1.sheet_ p with
      | none => rfl
      | some v1 =>
        rw [h1] at hp
        cases v1 with
        | none => rfl
        | some c1 => simp at hp

/-- A `ClearCell` that returns or raises stores no cell at a position that held
none, other than the positions the cleared cell references. -/
theorem ClearCell_unreferenced {s s1 : Sheet} {pos q : Position}
    (h : (s.ClearCell pos).state = some s1) (hq : q ≠ pos) (hr : q ∉ s.refsAt pos)
    (hn : s.cellAt q = none) : s1.cellAt q = none := by
  unfold Sheet.ClearCell at h
  split at h
  · simp only [Outcome.state, Option.some.injEq] at h
    subst h; exact hn
  · split at h
    · simp only [Outcome.state, Option.some.injEq] at h
      subst h; exact hn
    · simp [Outcome.state] at h
    · rename_i c hfind
      have hrefs : s.refsAt pos = c.GetReferencedCells := by
        simp only [Sheet.refsAt, Sheet.cellAt, hfind]
      rw [hrefs] at hr
      cases hinv : InvalidateCache (invDepth s.sheet_) s.sheet_ c.addr with
      | ub => rw [hinv] at h; simp [Outcome.state] at h
      | diverge => rw [hinv] at h; simp [Outcome.state] at h
      | done m1 =>
        rw [hinv] at h
        simp only at h
        have hn1 : (Sheet.mk m1 s.next).cellAt q = none :=
          @cellAt_none_of_strip s (Sheet.mk m1 s.next)
            (InvalidateCache_strip _ _ _ _ hinv) q hn
        cases hupd : Sheet.updateAll (eraseAddr c.addr) (Sheet.mk m1 s.next)
            c.GetReferencedCells with
        | ok u s2 =>
          rw [hupd] at h
          simp only [Outcome.state, Option.some.injEq] at h
          subst h
          have hfq := (updateAll_relink _ _ _ s2 (by rw [hupd]; rfl)).2 q hr
          simp only [Sheet.cellAt, find_erase, Ne.symm hq, if_false, hfq]
          exact hn1
        | raised e s2 =>
          rw [hupd] at h
          simp only [Outcome.state, Option.some.injEq] at h
          subst h
          have hfq := (updateAll_relink _ _ _ s2 (by rw [hupd]; rfl)).2 q hr
          simp only [Sheet.cellAt, hfq]
          exact hn1
        | ub => rw [hupd] at h; simp [Outcome.state] at h
        | diverge => rw [hupd] at h; simp [Outcome.state] at h

/-! ## Well-formed heaps -/

theorem keys_strip (m : CellMap) : CellMap.keys (CellMap.strip m) = CellMap.keys m := by
  unfold CellMap.keys CellMap.strip
  rw [List.map_map]
  rfl

theorem keys_of_strip {m m1 : CellMap} (h : CellMap.strip m1 = CellMap.strip m) :
    CellMap.keys m1 = CellMap.keys m := by
  rw [← keys_strip m1, h, keys_strip]

theorem mem_keys_iff (m : CellMap) (p : Position) :
    p ∈ CellMap.keys m ↔ CellMap.find m p ≠ none := by
  induction m with
  | nil => simp [CellMap.keys, CellMap.find]
  | cons e rest ih =>
    obtain ⟨k, w⟩ := e
    simp only [CellMap.keys, List.map_cons, List.mem_cons, CellMap.find]
    by_cases hk : k = p
    · simp [hk]
    · simp only [hk, if_false]
      rw [← ih]
      constructor
      · rintro (h | h)
        · exact absurd h.symm hk
        · exact h
      · intro h
        exact Or.inr h

theorem keys_assign (m : CellMap) (p : Position) (v : Option Cell) :
    CellMap.keys (CellMap.assign m p v) =
      if p ∈ CellMap.keys m then CellMap.keys m else CellMap.keys m ++ [p] := by
  induction m with
  | nil => simp [CellMap.assign, CellMap.keys]
  | cons e rest ih =>
    obtain ⟨k, w⟩ := e
    simp only [CellMap.assign]
    by_cases hk : k = p
    · simp [hk, CellMap.keys]
    · have hpk : ¬ p = k := fun h => hk h.symm
      simp only [hk, if_false]
      simp only [CellMap.keys, List.map_cons, List.mem_cons, hpk, false_or] at ih ⊢
      rw [ih]
      split <;> simp

theorem keys_assign_nodup (m : CellMap) (p : Position) (v : Option Cell)
    (h : (CellMap.keys m).Nodup) : (CellMap.keys (CellMap.assign m p v)).Nodup := by
  rw [keys_assign]
  split
  · exact h
  · rename_i hp
    rw [List.nodup_append]
    refine ⟨h, List.nodup_singleton p, ?_⟩
    intro a ha hb
    simp only [List.mem_singleton] at hb
    subst hb
    exact hp ha

theorem keys_assign_mem (m : CellMap) (p : Position) (v : Option Cell) (q : Position) :
    q ∈ CellMap.keys (CellMap.assign m p v) ↔ q ∈ CellMap.keys m ∨ q = p := by
  rw [mem_keys_iff, mem_keys_iff, find_assign]
  by_cases hq : p = q
  · simp [hq]
  · have hq2 : ¬ q = p := fun h => hq h.symm
    simp [hq, hq2]

theorem keys_erase_sublist (m : CellMap) (p : Position) :
    (CellMap.keys (CellMap.erase m p)).Sublist (CellMap.keys m) := by
  induction m with
  | nil => exact List.Sublist.refl _
  | cons e rest ih =>
    obtain ⟨k, w⟩ := e
    simp only [CellMap.erase]
    split
    · exact List.Sublist.cons _ ih
    · exact List.Sublist.cons₂ _ ih

theorem find_of_mem_nodup {m : CellMap} (h : (CellMap.keys m).Nodup) {p : Position}
    {v : Option Cell} (hm : (p, v) ∈ m) : CellMap.find m p = some v := by
  induction m with
  | nil => simp at hm
  | cons e rest ih =>
    obtain ⟨k, w⟩ := e
    simp only [CellMap.keys, List.map_cons, List.nodup_cons] at h
    simp only [CellMap.find]
    rcases List.mem_cons.1 hm with hm | hm
    · simp only [Prod.mk.injEq] at hm
      simp [hm.1, hm.2]
    · have hne : k ≠ p := by
        intro hk
        subst hk
        exact h.1 (List.mem_map.2 ⟨(k, v), hm, rfl⟩)
      simp only [hne, if_false]
      exact ih h.2 hm

theorem cellAt_assign (m : CellMap) (p q : Position) (v : Option Cell) (n : Nat) :
    Sheet.cellAt (Sheet.mk (CellMap.assign m p v) n) q =
      if p = q then v else Sheet.cellAt (Sheet.mk m n) q := by
  simp only [Sheet.cellAt, find_assign]
  by_cases hpq : p = q
  · simp only [hpq, if_true]
    cases v <;> rfl
  · simp only [hpq, if_false]

theorem cellAt_erase (m : CellMap) (p q : Position) (n : Nat) :
    Sheet.cellAt (Sheet.mk (CellMap.erase m p) n) q =
      if p = q then none else Sheet.cellAt (Sheet.mk m n) q := by
  simp only [Sheet.cellAt, find_erase]
  by_cases hpq : p = q
  · simp only [hpq, if_true]
  · simp only [hpq, if_false]

theorem cellAt_next (m : CellMap) (n n1 : Nat) (q : Position) :
    Sheet.cellAt (Sheet.mk m n) q = Sheet.cellAt (Sheet.mk m n1) q := rfl

theorem Cell.refs_dropCache (c : Cell) :
    c.dropCache.GetReferencedCells = c.GetReferencedCells := by
  rw [Cell.refs_eq, Cell.refs_eq]
  exact Impl.refs_InvalidateCache c.impl_

theorem cellAt_strip {s s1 : Sheet} (h : CellMap.strip s1.sheet_ = CellMap.strip s.sheet_)
    (p : Position) : (s1.cellAt p).map Cell.dropCache = (s.cellAt p).map Cell.dropCache := by
  have hp : (CellMap.find s1.sheet_ p).map (Option.map Cell.dropCache) =
      (CellMap.find s.sheet_ p).map (Option.map Cell.dropCache) := by
    rw [← find_strip, ← find_strip, h]
  unfold Sheet.cellAt
  cases h0 : CellMap.find s.sheet_ p with
  | none =>
    rw [h0] at hp
    cases h1 : CellMap.find s1.sheet_ p with
    | none => rfl
    | some v => rw [h1] at hp; simp at hp
  | some v =>
    rw [h0] at hp
    cases h1 : CellMap.find s1.sheet_ p with
    | none => rw [h1] at hp; simp at hp
    | some v1 =>
      rw [h1] at hp
      simp only [Option.map_some', Option.some.injEq] at hp
      cases v <;> cases v1 <;> simp_all

theorem dropCache_fields {c c0 : Cell} (h : c.dropCache = c0.dropCache) :
    c.addr = c0.addr ∧ c.dependent_cells_ = c0.dependent_cells_ ∧
      c.GetReferencedCells = c0.GetReferencedCells := by
  refine ⟨?_, ?_, ?_⟩
  · have := congrArg Cell.addr h
    simpa only [Cell.dropCache] using this
  · have := congrArg Cell.dependent_cells_ h
    simpa only [Cell.dropCache] using this
  · rw [← Cell.refs_dropCache c, h, Cell.refs_dropCache]

theorem cellAt_of_map_dropCache {s s1 : Sheet} {p : Position} {c : Cell}
    (h : (s1.cellAt p).map Cell.dropCache = (s.cellAt p).map Cell.dropCache)
    (hc : s1.cellAt p = some c) : ∃ c0, s.cellAt p = some c0 ∧ c.dropCache = c0.dropCache := by
  rw [hc] at h
  cases h0 : s.cellAt p with
  | none => rw [h0] at h; simp at h
  | some c0 =>
    rw [h0] at h
    simp only [Option.map_some', Option.some.injEq] at h
    exact ⟨c0, rfl, h⟩

theorem heap_congr {X : List Nat} {s s1 : Sheet} (h : s.Heap X)
    (hk : CellMap.keys s1.sheet_ = CellMap.keys s.sheet_) (hn : s1.next = s.next)
    (hc : ∀ p, (s1.cellAt p).map Cell.dropCache = (s.cellAt p).map Cell.dropCache) :
    s1.Heap X := by
  refine ⟨?_, ?_, ?_, ?_, ?_, ?_, ?_⟩
  · rw [hk]; exact h.keysNodup
  · rw [hk]; exact h.keysValid
  · intro p q c d hpc hqd hcd
    obtain ⟨c0, hc0, e1⟩ := cellAt_of_map_dropCache (hc p) hpc
    obtain ⟨d0, hd0, e2⟩ := cellAt_of_map_dropCache (hc q) hqd
    apply h.addrInj p q c0 d0 hc0 hd0
    rw [← (dropCache_fields e1).1, ← (dropCache_fields e2).1]
    exact hcd
  · intro p c hpc
    obtain ⟨c0, hc0, e1⟩ := cellAt_of_map_dropCache (hc p) hpc
    rw [hn, (dropCache_fields e1).1]
    exact h.fresh p c0 hc0
  · intro x hx
    rw [hn]
    exact h.reserved x hx
  · intro p c hpc a ha
    obtain ⟨c0, hc0, e1⟩ := cellAt_of_map_dropCache (hc p) hpc
    rw [hn]
    rw [(dropCache_fields e1).2.1] at ha
    exact h.depsFresh p c0 hc0 a ha
  · intro q c p ca hqc hpca hmem
    obtain ⟨c0, hc0, e1⟩ := cellAt_of_map_dropCache (hc q) hqc
    obtain ⟨ca0, hca0, e2⟩ := cellAt_of_map_dropCache (hc p) hpca
    rw [(dropCache_fields e2).2.2]
    apply h.depsSound q c0 p ca0 hc0 hca0
    rw [← (dropCache_fields e1).2.1, ← (dropCache_fields e2).1]
    exact hmem

theorem heap_of_strip {X : List Nat} {s : Sheet} {m1 : CellMap} (h : s.Heap X)
    (hs : CellMap.strip m1 = CellMap.strip s.sheet_) : Sheet.Heap X (Sheet.mk m1 s.next) :=
  heap_congr h (keys_of_strip hs) rfl
    (fun p => @cellAt_strip s (Sheet.mk m1 s.next) hs p)

theorem heap_sub {X : List Nat} {s s1 : Sheet} (h : s.Heap X)
    (hnd : (CellMap.keys s1.sheet_).Nodup)
    (hk : ∀ p ∈ CellMap.keys s1.sheet_, p.IsValid = true) (hn : s1.next = s.next)
    (hc : ∀ p c, s1.cellAt p = some c → s.cellAt p = some c) : s1.Heap X := by
  refine ⟨hnd, hk, ?_, ?_, ?_, ?_, ?_⟩
  · intro p q c d hpc hqd hcd
    exact h.addrInj p q c d (hc p c hpc) (hc q d hqd) hcd
  · intro p c hpc
    rw [hn]
    exact h.fresh p c (hc p c hpc)
  · intro x hx
    rw [hn]
    exact h.reserved x hx
  · intro p c hpc a ha
    rw [hn]
    exact h.depsFresh p c (hc p c hpc) a ha
  · intro q c p ca hqc hpca hmem
    exact h.depsSound q c p ca (hc q c hqc) (hc p ca hpca) hmem

theorem keys_assign_valid {m : CellMap} (h : ∀ q ∈ CellMap.keys m, q.IsValid = true)
    (p : Position) (hp : p.IsValid = true) (v : Option Cell) :
    ∀ q ∈ CellMap.keys (CellMap.assign m p v), q.IsValid = true := by
  intro q hq
  rcases (keys_assign_mem _ _ _ _).1 hq with hq | hq
  · exact h q hq
  · rw [hq]; exact hp

theorem heap_assign_none {X : List Nat} {s : Sheet} (h : s.Heap X) (p : Position)
    (hp : p.IsValid = true) :
    Sheet.Heap X (Sheet.mk (CellMap.assign s.sheet_ p none) s.next) := by
  refine @heap_sub X s (Sheet.mk (CellMap.assign s.sheet_ p none) s.next) h
    (keys_assign_nodup _ _ _ h.keysNodup) (keys_assign_valid h.keysValid p hp none) rfl ?_
  intro q c hq
  rw [cellAt_assign] at hq
  split at hq
  · cases hq
  · exact hq

theorem heap_erase {X : List Nat} {s : Sheet} (h : s.Heap X) (p : Position) :
    Sheet.Heap X (Sheet.mk (CellMap.erase s.sheet_ p) s.next) := by
  refine @heap_sub X s (Sheet.mk (CellMap.erase s.sheet_ p) s.next) h
    (h.keysNodup.sublist (keys_erase_sublist _ _))
    (fun q hq => h.keysValid q ((keys_erase_sublist _ _).subset hq)) rfl ?_
  intro q c hq
  rw [cellAt_erase] at hq
  split at hq
  · cases hq
  · exact hq

theorem heap_reserve {s : Sheet} (h : s.Heap []) :
    Sheet.Heap [s.next] (Sheet.mk s.sheet_ (s.next + 1)) := by
  refine ⟨h.keysNodup, h.keysValid, h.addrInj, ?_, ?_, ?_, h.depsSound⟩
  · intro p c hc
    have := (h.fresh p c hc).1
    simp only [List.mem_singleton]
    exact ⟨Nat.lt_succ_of_lt this, Nat.ne_of_lt this⟩
  · intro x hx
    simp only [List.mem_singleton] at hx
    subst hx
    exact Nat.lt_succ_self _
  · intro p c hc a ha
    have := (h.depsFresh p c hc a ha).1
    simp only [List.mem_singleton]
    exact ⟨Nat.lt_succ_of_lt this, Nat.ne_of_lt this⟩

theorem heap_drop {X : List Nat} {s : Sheet} (h : s.Heap X) : s.Heap [] :=
  ⟨h.keysNodup, h.keysValid, h.addrInj,
   fun p c hc => ⟨(h.fresh p c hc).1, List.not_mem_nil _⟩,
   fun _ hx => absurd hx (List.not_mem_nil _),
   fun p c hc a ha => ⟨(h.depsFresh p c hc a ha).1, List.not_mem_nil _⟩,
   h.depsSound⟩

/-- Storing the cell `c` at `p`, over whatever `p` held. -/
theorem heap_store {X X1 : List Nat} {s : Sheet} (h : s.Heap X) (p : Position) (c : Cell)
    (n1 : Nat) (hp : p.IsValid = true) (hn : s.next ≤ n1)
    (hX : ∀ x ∈ X1, x ∈ X ∨ (s.next ≤ x ∧ x < n1))
    (hXn : ∀ x, x < s.next → x ∉ X → x ∉ X1)
    (haddr : ∀ q d, q ≠ p → s.cellAt q = some d → d.addr ≠ c.addr)
    (hfresh : c.addr < n1 ∧ c.addr ∉ X1)
    (hdeps : ∀ b ∈ c.dependent_cells_, b < n1 ∧ b ∉ X1)
    (hself : c.addr ∈ c.dependent_cells_ → p ∈ c.GetReferencedCells)
    (hin : ∀ q ca, q ≠ p → s.cellAt q = some ca → ca.addr ∈ c.dependent_cells_ →
      p ∈ ca.GetReferencedCells)
    (hout : ∀ q d, q ≠ p → s.cellAt q = some d → c.addr ∈ d.dependent_cells_ →
      q ∈ c.GetReferencedCells) :
    Sheet.Heap X1 (Sheet.mk (CellMap.assign s.sheet_ p (some c)) n1) := by
  have hcell : ∀ q, (Sheet.mk (CellMap.assign s.sheet_ p (some c)) n1).cellAt q =
      if p = q then some c else s.cellAt q := fun q => cellAt_assign _ _ _ _ _
  have hother : ∀ q d, (Sheet.mk (CellMap.assign s.sheet_ p (some c)) n1).cellAt q = some d →
      (q = p ∧ d = c) ∨ (q ≠ p ∧ s.cellAt q = some d) := by
    intro q d hq
    rw [hcell] at hq
    by_cases hpq : p = q
    · simp only [hpq, if_true, Option.some.injEq] at hq
      exact Or.inl ⟨hpq.symm, hq.symm⟩
    · simp only [hpq, if_false] at hq
      exact Or.inr ⟨fun h => hpq h.symm, hq⟩
  refine ⟨keys_assign_nodup _ _ _ h.keysNodup, keys_assign_valid h.keysValid p hp _,
    ?_, ?_, ?_, ?_, ?_⟩
  · intro q1 q2 d1 d2 h1 h2 he
    rcases hother q1 d1 h1 with ⟨e1, e1c⟩ | ⟨n1p, o1⟩
    · rcases hother q2 d2 h2 with ⟨e2, e2c⟩ | ⟨n2p, o2⟩
      · rw [e1, e2]
      · subst e1c
        exact absurd he.symm (haddr q2 d2 n2p o2)
    · rcases hother q2 d2 h2 with ⟨e2, e2c⟩ | ⟨n2p, o2⟩
      · subst e2c
        exact absurd he (haddr q1 d1 n1p o1)
      · exact h.addrInj q1 q2 d1 d2 o1 o2 he
  · intro q d hq
    rcases hother q d hq with ⟨-, e⟩ | ⟨-, o⟩
    · subst e; exact hfresh
    · have := h.fresh q d o
      exact ⟨Nat.lt_of_lt_of_le this.1 hn, hXn _ this.1 this.2⟩
  · intro x hx
    rcases hX x hx with hx | hx
    · exact Nat.lt_of_lt_of_le (h.reserved x hx) hn
    · exact hx.2
  · intro q d hq a ha
    rcases hother q d hq with ⟨-, e⟩ | ⟨-, o⟩
    · subst e; exact hdeps a ha
    · have := h.depsFresh q d o a ha
      exact ⟨Nat.lt_of_lt_of_le this.1 hn, hXn _ this.1 this.2⟩
  · intro q d q2 ca hq hq2 hmem
    rcases hother q d hq with ⟨e1, e1c⟩ | ⟨n1p, o1⟩
    · rcases hother q2 ca hq2 with ⟨e2, e2c⟩ | ⟨n2p, o2⟩
      · subst e1c; subst e2c
        rw [e1]
        exact hself hmem
      · subst e1c
        rw [e1]
        exact hin q2 ca n2p o2 hmem
    · rcases hother q2 ca hq2 with ⟨e2, e2c⟩ | ⟨n2p, o2⟩
      · subst e2c
        exact hout q d n1p o1 hmem
      · exact h.depsSound q d q2 ca o1 o2 hmem

theorem extends_refl (s : Sheet) : s.Extends s :=
  ⟨Nat.le_refl _, fun _ _ h => h, fun _ _ h => Or.inl h⟩

theorem extends_trans {s s1 s2 : Sheet} (h1 : s.Extends s1) (h2 : s1.Extends s2) :
    s.Extends s2 := by
  refine ⟨Nat.le_trans h1.1 h2.1, fun p c hc => h2.2.1 p c (h1.2.1 p c hc), ?_⟩
  intro p c hc
  rcases h2.2.2 p c hc with h | ⟨hn, hi, hd, ha⟩
  · exact h1.2.2 p c h
  · right
    refine ⟨?_, hi, hd, Nat.le_trans h1.1 ha⟩
    cases h0 : s.cellAt p with
    | none => rfl
    | some c0 =>
      rw [h1.2.1 p c0 h0] at hn
      cases hn

theorem extends_of_next {m : CellMap} {n n1 : Nat} {s1 : Sheet} (hn : n ≤ n1)
    (h : (Sheet.mk m n1).Extends s1) : (Sheet.mk m n).Extends s1 := by
  refine ⟨Nat.le_trans hn h.1, h.2.1, ?_⟩
  intro p c hc
  rcases h.2.2 p c hc with h0 | ⟨h0, hi, hd, ha⟩
  · exact Or.inl h0
  · exact Or.inr ⟨h0, hi, hd, Nat.le_trans hn ha⟩

theorem heap_materialize {X : List Nat} {s : Sheet} (h : s.Heap X) (current : Position)
    (hv : current.IsValid = true) (hnone : s.cellAt current = none) :
    (s.materialize current).Heap X ∧ s.Extends (s.materialize current) := by
  constructor
  · unfold Sheet.materialize
    refine heap_store h current _ (s.next + 1) hv (Nat.le_succ _) (fun x hx => Or.inl hx)
      (fun x _ hx => hx) ?_ ?_ ?_ ?_ ?_ ?_
    · intro q d _ hq
      exact Nat.ne_of_lt (h.fresh q d hq).1
    · exact ⟨Nat.lt_succ_self _, fun hx => Nat.lt_irrefl _ (h.reserved _ hx)⟩
    · intro b hb; simp at hb
    · intro hb; simp at hb
    · intro q ca _ _ hb; simp at hb
    · intro q d _ hq hb
      exact absurd (h.depsFresh q d hq _ hb).1 (Nat.lt_irrefl _)
  · have hcell : ∀ q, (s.materialize current).cellAt q =
        if current = q then some (Cell.mk s.next Impl.EmptyImpl []) else s.cellAt q :=
      fun q => cellAt_assign _ _ _ _ _
    refine ⟨Nat.le_succ _, ?_, ?_⟩
    · intro p c hc
      rw [hcell]
      by_cases hp : current = p
      · subst hp
        rw [hnone] at hc
        cases hc
      · simp only [hp, if_false]
        exact hc
    · intro p c hc
      rw [hcell] at hc
      by_cases hp : current = p
      · subst hp
        simp only [if_true, Option.some.injEq] at hc
        subst hc
        exact Or.inr ⟨hnone, rfl, rfl, Nat.le_refl _⟩
      · simp only [hp, if_false] at hc
        exact Or.inl hc

theorem heap_cycleLoop {X : List Nat} (pos : Position) (fuel : Nat) :
    ∀ (s : Sheet) (q pred : List Position) (s1 : Sheet), s.Heap X →
      (cycleLoop pos fuel s q pred).state = some s1 → s1.Heap X ∧ s.Extends s1 := by
  induction fuel with
  | zero => intro s q pred s1 _ h; simp [cycleLoop, Outcome.state] at h
  | succ fuel ih =>
    intro s q pred s1 hh h
    cases q with
    | nil =>
      simp only [cycleLoop_nil, Outcome.state, Option.some.injEq] at h
      subst h
      exact ⟨hh, extends_refl s⟩
    | cons current queue =>
      rw [cycleLoop_cons] at h
      split at h
      · simp only [Outcome.state, Option.some.injEq] at h
        subst h
        exact ⟨hh, extends_refl s⟩
      · split at h
        · simp only [Outcome.state, Option.some.injEq] at h
          subst h
          exact ⟨hh, extends_refl s⟩
        · rename_i hv
          have hcur : current.IsValid = true := by simpa using hv
          split at h
          · exact ih _ _ _ _ hh h
          · rename_i hnone
            obtain ⟨hm, hem⟩ := heap_materialize hh current hcur hnone
            obtain ⟨h1, he1⟩ := ih _ _ _ _ hm h
            exact ⟨h1, extends_trans hem he1⟩

theorem heap_Cell_new_ok {E : Env} {text : String} {s : Sheet} {pos : Position} {c : Cell}
    {s1 : Sheet} (hh : s.Heap []) (h : Cell.new E text s pos = Outcome.ok c s1) :
    s1.Heap [s.next] ∧ (Sheet.mk s.sheet_ (s.next + 1)).Extends s1 := by
  unfold Cell.new at h
  split at h
  · cases h
  · rename_i t f ch hcl
    cases hloop : cycleLoop pos
        (cycleFuel { sheet_ := s.sheet_, next := s.next + 1 } f.GetReferencedCells)
        { sheet_ := s.sheet_, next := s.next + 1 } f.GetReferencedCells [] with
    | ok u s2 =>
      rw [hloop] at h
      simp only [withCell, Outcome.ok.injEq] at h
      obtain ⟨-, hs⟩ := h
      subst hs
      exact heap_cycleLoop pos _ _ _ _ _ (heap_reserve hh) (by rw [hloop]; rfl)
    | raised e s2 => rw [hloop] at h; simp [withCell] at h
    | ub => rw [hloop] at h; simp [withCell] at h
    | diverge => rw [hloop] at h; simp [withCell] at h
  · simp only [Outcome.ok.injEq] at h
    obtain ⟨-, hs⟩ := h
    subst hs
    exact ⟨heap_reserve hh, extends_refl _⟩

theorem heap_Cell_new_raised {E : Env} {text : String} {s : Sheet} {pos : Position}
    {e : Exception} {s1 : Sheet} (hh : s.Heap [])
    (h : Cell.new E text s pos = Outcome.raised e s1) : s1.Heap [] ∧ s.Extends s1 := by
  unfold Cell.new at h
  split at h
  · simp only [Outcome.raised.injEq] at h
    obtain ⟨-, hs⟩ := h
    subst hs
    exact ⟨hh, extends_refl _⟩
  · rename_i t f ch hcl
    cases hloop : cycleLoop pos
        (cycleFuel { sheet_ := s.sheet_, next := s.next + 1 } f.GetReferencedCells)
        { sheet_ := s.sheet_, next := s.next + 1 } f.GetReferencedCells [] with
    | ok u s2 => rw [hloop] at h; simp [withCell] at h
    | raised e2 s2 =>
      rw [hloop] at h
      simp only [withCell, Outcome.raised.injEq] at h
      obtain ⟨-, hs⟩ := h
      subst hs
      obtain ⟨h1, h2⟩ := heap_cycleLoop pos _ _ _ _ _ (heap_reserve hh) (by rw [hloop]; rfl)
      exact ⟨heap_drop h1, extends_of_next (Nat.le_succ _) h2⟩
    | ub => rw [hloop] at h; simp [withCell] at h
    | diverge => rw [hloop] at h; simp [withCell] at h
  · cases h

theorem valid_of_cellAt {X : List Nat} {s : Sheet} (h : s.Heap X) {p : Position} {c : Cell}
    (hc : s.cellAt p = some c) : p.IsValid = true := by
  apply h.keysValid
  rw [mem_keys_iff, find_of_cellAt hc]
  simp

/-- Storing a cell under construction, whose address was reserved. -/
theorem heap_fill {a : Nat} {s : Sheet} (h : s.Heap [a]) (p : Position) (c : Cell)
    (hp : p.IsValid = true) (hca : c.addr = a)
    (hdeps : ∀ b ∈ c.dependent_cells_, b < s.next ∧ b ≠ a)
    (hin : ∀ q ca, q ≠ p → s.cellAt q = some ca → ca.addr ∈ c.dependent_cells_ →
      p ∈ ca.GetReferencedCells) :
    Sheet.Heap [] (Sheet.mk (CellMap.assign s.sheet_ p (some c)) s.next) := by
  refine heap_store h p c s.next hp (Nat.le_refl _) (fun x hx => absurd hx (List.not_mem_nil _))
    (fun x _ _ => List.not_mem_nil _) ?_ ?_ ?_ ?_ hin ?_
  · intro q d _ hq he
    have := (h.fresh q d hq).2
    rw [he, hca] at this
    exact this (List.mem_singleton.2 rfl)
  · rw [hca]
    exact ⟨h.reserved a (List.mem_singleton.2 rfl), List.not_mem_nil _⟩
  · intro b hb
    exact ⟨(hdeps b hb).1, List.not_mem_nil _⟩
  · intro hself
    rw [hca] at hself
    exact absurd rfl (hdeps a hself).2
  · intro q d _ hq hmem
    have := (h.depsFresh q d hq _ hmem).2
    rw [hca] at this
    exact absurd (List.mem_singleton.2 rfl) this

/-- Replacing the dependent set of a stored cell. -/
theorem heap_setdeps {s : Sheet} (h : s.Heap []) (p : Position) (c : Cell) (d : List Nat)
    (hc : s.cellAt p = some c) (hd : ∀ b ∈ d, b < s.next)
    (hin : ∀ q ca, s.cellAt q = some ca → ca.addr ∈ d → p ∈ ca.GetReferencedCells) :
    Sheet.Heap []
      (Sheet.mk (CellMap.assign s.sheet_ p (some (c.SetDependentCells d))) s.next) := by
  refine heap_store h p _ s.next (valid_of_cellAt h hc) (Nat.le_refl _)
    (fun x hx => absurd hx (List.not_mem_nil _)) (fun x _ _ => List.not_mem_nil _)
    ?_ ?_ ?_ ?_ ?_ ?_
  · intro q d0 hq hq0 he
    exact hq (h.addrInj q p d0 c hq0 hc he)
  · exact ⟨(h.fresh p c hc).1, List.not_mem_nil _⟩
  · intro b hb
    exact ⟨hd b hb, List.not_mem_nil _⟩
  · intro hself
    exact hin p c hc hself
  · intro q ca _ hq hmem
    exact hin q ca hq hmem
  · intro q d0 _ hq hmem
    exact h.depsSound q d0 p c hq hc hmem

theorem mem_insertAddr (a : Nat) (l : List Nat) : ∀ b ∈ insertAddr a l, b ∈ l ∨ b = a := by
  induction l with
  | nil =>
    intro b hb
    simp only [insertAddr, List.mem_singleton] at hb
    exact Or.inr hb
  | cons x rest ih =>
    intro b hb
    simp only [insertAddr] at hb
    split at hb
    · exact Or.inl hb
    · split at hb
      · rcases List.mem_cons.1 hb with hb | hb
        · exact Or.inr hb
        · exact Or.inl hb
      · rcases List.mem_cons.1 hb with hb | hb
        · exact Or.inl (hb ▸ List.mem_cons_self _ _)
        · rcases ih b hb with h | h
          · exact Or.inl (List.mem_cons_of_mem _ h)
          · exact Or.inr h

theorem mem_eraseAddr (a : Nat) (l : List Nat) : ∀ b ∈ eraseAddr a l, b ∈ l ∨ b = a := by
  intro b hb
  exact Or.inl (List.mem_of_mem_filter hb)

theorem heap_updateDependents (upd : List Nat → List Nat) (a : Nat) (s : Sheet)
    (pos_ : Position) (s1 : Sheet) (h : s.Heap [])
    (hupd : ∀ d b, b ∈ upd d → b ∈ d ∨ b = a) (ha : a < s.next)
    (hsound : ∀ q ca, s.cellAt q = some ca → ca.addr = a → pos_ ∈ ca.GetReferencedCells)
    (hst : (s.updateDependents upd pos_).state = some s1) :
    s1.Heap [] ∧ s.next ≤ s1.next ∧
    ∀ q ca, s1.cellAt q = some ca → ca.addr = a →
      ∃ ca0, s.cellAt q = some ca0 ∧ ca0.addr = a ∧
        ca0.GetReferencedCells = ca.GetReferencedCells := by
  -- the step on a sheet that holds a cell at `pos_`
  have hstep : ∀ (s0 : Sheet) (c : Cell), s0.Heap [] → a < s0.next →
      (∀ q ca, s0.cellAt q = some ca → ca.addr = a → pos_ ∈ ca.GetReferencedCells) →
      s0.cellAt pos_ = some c →
      Sheet.Heap [] (Sheet.mk (CellMap.assign s0.sheet_ pos_
        (some (c.SetDependentCells (upd c.GetDependentCells)))) s0.next) ∧
      ∀ q ca, (Sheet.mk (CellMap.assign s0.sheet_ pos_
          (some (c.SetDependentCells (upd c.GetDependentCells)))) s0.next).cellAt q = some ca →
        ∃ ca0, s0.cellAt q = some ca0 ∧ ca0.addr = ca.addr ∧
          ca0.GetReferencedCells = ca.GetReferencedCells := by
    intro s0 c h0 ha0 hs0 hc
    constructor
    · apply heap_setdeps h0 pos_ c _ hc
      · intro b hb
        rcases hupd _ b hb with hb | hb
        · exact (h0.depsFresh pos_ c hc b hb).1
        · rw [hb]; exact ha0
      · intro q ca hq hmem
        rcases hupd _ _ hmem with hb | hb
        · exact h0.depsSound pos_ c q ca hc hq hb
        · exact hs0 q ca hq hb
    · intro q ca hq
      have hcell := cellAt_assign s0.sheet_ pos_ q
        (some (c.SetDependentCells (upd c.GetDependentCells))) s0.next
      rw [hcell] at hq
      by_cases hpq : pos_ = q
      · subst hpq
        simp only [if_true, Option.some.injEq] at hq
        subst hq
        exact ⟨c, hc, rfl, rfl⟩
      · simp only [hpq, if_false] at hq
        exact ⟨ca, hq, rfl, rfl⟩
  unfold Sheet.updateDependents Sheet.GetRawCell at hst
  split at hst
  · rename_i c s2 hraw
    split at hraw
    · cases hraw
    · rename_i hv
      have hvalid : pos_.IsValid = true := by simpa using hv
      split at hraw
      · rename_i hfind
        simp only [Outcome.ok.injEq, Option.some.injEq] at hraw
        obtain ⟨hc, hs2⟩ := hraw
        subst hc; subst hs2
        have hnone : s.cellAt pos_ = none := find_none_cellAt hfind
        obtain ⟨hm, hem⟩ := heap_materialize h pos_ hvalid hnone
        have hcm : (s.materialize pos_).cellAt pos_ =
            some (Cell.mk s.next Impl.EmptyImpl []) := cellAt_assign_self _ _ _ _
        have hsm : ∀ q ca, (s.materialize pos_).cellAt q = some ca → ca.addr = a →
            s.cellAt q = some ca := by
          intro q ca hq hca
          rcases hem.2.2 q ca hq with h0 | ⟨-, -, -, hle⟩
          · exact h0
          · rw [hca] at hle
            exact absurd ha (Nat.not_lt.2 hle)
        obtain ⟨h1, h2⟩ := hstep (s.materialize pos_) _ hm (Nat.lt_succ_of_lt ha)
          (fun q ca hq hca => hsound q ca (hsm q ca hq hca) hca) hcm
        simp only [Outcome.state, Option.some.injEq] at hst
        subst hst
        refine ⟨h1, Nat.le_succ _, ?_⟩
        intro q ca hq hca
        obtain ⟨ca0, hq0, e1, e2⟩ := h2 q ca hq
        exact ⟨ca0, hsm q ca0 hq0 (e1.trans hca), e1.trans hca, e2⟩
      · rename_i v hfind
        simp only [Outcome.ok.injEq] at hraw
        obtain ⟨hv2, hs2⟩ := hraw
        subst hv2; subst hs2
        have hc : s.cellAt pos_ = some c := by simp only [Sheet.cellAt, hfind]
        obtain ⟨h1, h2⟩ := hstep s c h ha hsound hc
        simp only [Outcome.state, Option.some.injEq] at hst
        subst hst
        refine ⟨h1, Nat.le_refl _, ?_⟩
        intro q ca hq hca
        obtain ⟨ca0, hq0, e1, e2⟩ := h2 q ca hq
        exact ⟨ca0, hq0, e1.trans hca, e2⟩
  · simp [Outcome.state] at hst
  · rename_i e s2 hraw
    split at hraw
    · simp only [Outcome.raised.injEq] at hraw
      obtain ⟨-, hs2⟩ := hraw
      subst hs2
      simp only [Outcome.state, Option.some.injEq] at hst
      subst hst
      exact ⟨h, Nat.le_refl _, fun q ca hq hca => ⟨ca, hq, hca, rfl⟩⟩
    · split at hraw <;> cases hraw
  · simp [Outcome.state] at hst
  · simp [Outcome.state] at hst

theorem heap_updateAll (upd : List Nat → List Nat) (a : Nat)
    (hupd : ∀ d b, b ∈ upd d → b ∈ d ∨ b = a) (refs : List Position) :
    ∀ (s s1 : Sheet), s.Heap [] → a < s.next →
      (∀ q ca, s.cellAt q = some ca → ca.addr = a → ∀ r ∈ refs, r ∈ ca.GetReferencedCells) →
      (Sheet.updateAll upd s refs).state = some s1 → s1.Heap [] ∧ s.next ≤ s1.next := by
  induction refs with
  | nil =>
    intro s s1 h _ _ hst
    simp only [Sheet.updateAll, Outcome.state, Option.some.injEq] at hst
    subst hst
    exact ⟨h, Nat.le_refl _⟩
  | cons pos_ rest ih =>
    intro s s1 h ha hsound hst
    unfold Sheet.updateAll at hst
    cases hstep : s.updateDependents upd pos_ with
    | ok u s2 =>
      rw [hstep] at hst
      simp only at hst
      obtain ⟨h2, hle, hs2⟩ := heap_updateDependents upd a s pos_ s2 h hupd ha
        (fun q ca hq hca => hsound q ca hq hca pos_ (List.mem_cons_self _ _))
        (by rw [hstep]; rfl)
      obtain ⟨h3, hle3⟩ := ih s2 s1 h2 (Nat.lt_of_lt_of_le ha hle)
        (fun q ca hq hca r hr => by
          obtain ⟨ca0, hq0, e1, e2⟩ := hs2 q ca hq hca
          rw [← e2]
          exact hsound q ca0 hq0 e1 r (List.mem_cons_of_mem _ hr)) hst
      exact ⟨h3, Nat.le_trans hle hle3⟩
    | raised e s2 =>
      rw [hstep] at hst
      simp only [Outcome.state, Option.some.injEq] at hst
      subst hst
      obtain ⟨h2, hle, -⟩ := heap_updateDependents upd a s pos_ s2 h hupd ha
        (fun q ca hq hca => hsound q ca hq hca pos_ (List.mem_cons_self _ _))
        (by rw [hstep]; rfl)
      exact ⟨h2, hle⟩
    | ub => rw [hstep] at hst; simp [Outcome.state] at hst
    | diverge => rw [hstep] at hst; simp [Outcome.state] at hst

theorem heap_createCell {E : Env} {s s1 : Sheet} {pos : Position} {text : String}
    (h : s.Heap []) (hv : pos.IsValid = true)
    (hst : (s.createCell E pos text).state = some s1) : s1.Heap [] := by
  unfold Sheet.createCell at hst
  cases hnew : Cell.new E text s pos with
  | ok c s2 =>
    rw [hnew] at hst
    simp only at hst
    obtain ⟨h2, -⟩ := heap_Cell_new_ok h hnew
    obtain ⟨-, -, haddr, hdeps, -⟩ := Cell_new_ok hnew
    have h3 : Sheet.Heap [] (Sheet.mk (CellMap.assign s2.sheet_ pos (some c)) s2.next) := by
      apply heap_fill h2 pos c hv haddr
      · intro b hb; rw [hdeps] at hb; simp at hb
      · intro q ca _ _ hb; rw [hdeps] at hb; simp at hb
    have hcp : (Sheet.mk (CellMap.assign s2.sheet_ pos (some c)) s2.next).cellAt pos = some c :=
      cellAt_assign_self _ _ _ _
    refine (heap_updateAll (insertAddr c.addr) c.addr (fun d b hb => mem_insertAddr _ _ b hb)
      c.GetReferencedCells _ s1 h3 (h3.fresh pos c hcp).1 ?_ hst).1
    intro q ca hq hca r hr
    have hqp : q = pos := h3.addrInj q pos ca c hq hcp hca
    subst hqp
    rw [hcp] at hq
    cases hq
    exact hr
  | raised e s2 =>
    rw [hnew] at hst
    simp only at hst
    obtain ⟨h2, -⟩ := heap_Cell_new_raised h hnew
    split at hst
    · simp only [Outcome.state, Option.some.injEq] at hst
      subst hst
      exact heap_erase h2 pos
    · simp only [Outcome.state, Option.some.injEq] at hst
      subst hst
      exact h2
  | ub => rw [hnew] at hst; simp [Outcome.state] at hst
  | diverge => rw [hnew] at hst; simp [Outcome.state] at hst

theorem heap_restoreCell {E : Env} {s s1 : Sheet} {pos : Position} {old_text : String}
    (h : s.Heap []) (hv : pos.IsValid = true)
    (hst : (s.restoreCell E pos old_text).state = some s1) : s1.Heap [] := by
  unfold Sheet.restoreCell at hst
  cases hnew : Cell.new E old_text s pos with
  | ok c s2 =>
    rw [hnew] at hst
    simp only [Outcome.state, Option.some.injEq] at hst
    subst hst
    obtain ⟨h2, -⟩ := heap_Cell_new_ok h hnew
    obtain ⟨-, -, haddr, hdeps, -⟩ := Cell_new_ok hnew
    apply heap_fill h2 pos c hv haddr
    · intro b hb; rw [hdeps] at hb; simp at hb
    · intro q ca _ _ hb; rw [hdeps] at hb; simp at hb
  | raised e s2 =>
    rw [hnew] at hst
    simp only [Outcome.state, Option.some.injEq] at hst
    subst hst
    exact (heap_Cell_new_raised h hnew).1
  | ub => rw [hnew] at hst; simp [Outcome.state] at hst
  | diverge => rw [hnew] at hst; simp [Outcome.state] at hst

theorem heap_replaceCell {E : Env} {s s1 : Sheet} {pos : Position} {text : String}
    {old : Cell} (h : s.Heap []) (hold : s.cellAt pos = some old)
    (hst : (s.replaceCell E pos text old).state = some s1) : s1.Heap [] := by
  have hv : pos.IsValid = true := valid_of_cellAt h hold
  unfold Sheet.replaceCell at hst
  cases hinv : InvalidateCache (invDepth s.sheet_) s.sheet_ old.addr with
  | ub => rw [hinv] at hst; simp [Outcome.state] at hst
  | diverge => rw [hinv] at hst; simp [Outcome.state] at hst
  | done m1 =>
    rw [hinv] at hst
    simp only at hst
    have hstrip := InvalidateCache_strip _ _ _ _ hinv
    have h1 : Sheet.Heap [] (Sheet.mk m1 s.next) := heap_of_strip h hstrip
    split at hst
    · rename_i old1 hfind1
      have hold1 : (Sheet.mk m1 s.next).cellAt pos = some old1 := by
        simp only [Sheet.cellAt, hfind1]
      have hdrop : old1.dropCache = old.dropCache := by
        have := @cellAt_strip s (Sheet.mk m1 s.next) hstrip pos
        rw [hold1, hold] at this
        simpa using this
      have h2 : Sheet.Heap [] (Sheet.mk (CellMap.assign m1 pos none) s.next) :=
        heap_assign_none h1 pos hv
      cases hnew : Cell.new E text (Sheet.mk (CellMap.assign m1 pos none) s.next) pos with
      | ok c s3 =>
        rw [hnew] at hst
        simp only [Outcome.state, Option.some.injEq] at hst
        subst hst
        obtain ⟨h3, hext⟩ := heap_Cell_new_ok h2 hnew
        obtain ⟨-, -, haddr, -, -⟩ := Cell_new_ok hnew
        have hd1 : old1.GetDependentCells = old.dependent_cells_ := (dropCache_fields hdrop).2.1
        apply heap_fill h3 pos (c.SetDependentCells old1.GetDependentCells) hv haddr
        · intro b hb
          simp only [Cell.SetDependentCells, hd1] at hb
          have hlt := (h.depsFresh pos old hold b hb).1
          exact ⟨Nat.lt_of_lt_of_le (Nat.lt_succ_of_lt hlt) hext.1, Nat.ne_of_lt hlt⟩
        · intro q ca hq hqc hb
          simp only [Cell.SetDependentCells, hd1] at hb
          rcases hext.2.2 q ca hqc with h0 | ⟨-, -, -, hle⟩
          · have h0b : (Sheet.mk m1 s.next).cellAt q = some ca := by
              have := cellAt_assign m1 pos q none (s.next + 1)
              rw [this] at h0
              simp only [Ne.symm hq, if_false] at h0
              exact h0
            obtain ⟨ca0, hca0, e⟩ := cellAt_of_map_dropCache
              (@cellAt_strip s (Sheet.mk m1 s.next) hstrip q) h0b
            rw [(dropCache_fields e).2.2]
            apply h.depsSound pos old q ca0 hold hca0
            rw [← (dropCache_fields e).1]
            exact hb
          · have hlt := (h.depsFresh pos old hold _ hb).1
            exact absurd (Nat.lt_of_lt_of_le (Nat.lt_succ_self _) hle) (Nat.lt_asymm hlt)
      | raised e s3 =>
        rw [hnew] at hst
        simp only at hst
        obtain ⟨h3, -⟩ := heap_Cell_new_raised h2 hnew
        split at hst
        · exact heap_restoreCell h3 hv hst
        · simp only [Outcome.state, Option.some.injEq] at hst
          subst hst
          exact h3
      | ub => rw [hnew] at hst; simp [Outcome.state] at hst
      | diverge => rw [hnew] at hst; simp [Outcome.state] at hst
    · simp [Outcome.state] at hst

theorem heap_SetCell {E : Env} {s s1 : Sheet} {pos : Position} {text : String}
    (h : s.Heap []) (hst : (s.SetCell E pos text).state = some s1) : s1.Heap [] := by
  unfold Sheet.SetCell at hst
  split at hst
  · simp only [Outcome.state, Option.some.injEq] at hst
    subst hst; exact h
  · rename_i hv
    have hvalid : pos.IsValid = true := by simpa using hv
    split at hst
    · rename_i old hfind
      have hold : s.cellAt pos = some old := by simp only [Sheet.cellAt, hfind]
      split at hst
      · simp only [Outcome.state, Option.some.injEq] at hst
        subst hst; exact h
      · exact heap_replaceCell h hold hst
    · exact heap_createCell h hvalid hst

theorem heap_ClearCell {s s1 : Sheet} {pos : Position}
    (h : s.Heap []) (hst : (s.ClearCell pos).state = some s1) : s1.Heap [] := by
  unfold Sheet.ClearCell at hst
  split at hst
  · simp only [Outcome.state, Option.some.injEq] at hst
    subst hst; exact h
  · split at hst
    · simp only [Outcome.state, Option.some.injEq] at hst
      subst hst; exact h
    · simp [Outcome.state] at hst
    · rename_i c hfind
      have hc : s.cellAt pos = some c := by simp only [Sheet.cellAt, hfind]
      cases hinv : InvalidateCache (invDepth s.sheet_) s.sheet_ c.addr with
      | ub => rw [hinv] at hst; simp [Outcome.state] at hst
      | diverge => rw [hinv] at hst; simp [Outcome.state] at hst
      | done m1 =>
        rw [hinv] at hst
        simp only at hst
        have hstrip := InvalidateCache_strip _ _ _ _ hinv
        have h1 : Sheet.Heap [] (Sheet.mk m1 s.next) := heap_of_strip h hstrip
        have hsound : ∀ q ca, (Sheet.mk m1 s.next).cellAt q = some ca → ca.addr = c.addr →
            ∀ r ∈ c.GetReferencedCells, r ∈ ca.GetReferencedCells := by
          intro q ca hq hca r hr
          obtain ⟨ca0, hca0, e⟩ := cellAt_of_map_dropCache
            (@cellAt_strip s (Sheet.mk m1 s.next) hstrip q) hq
          have hqp : q = pos := h.addrInj q pos ca0 c hca0 hc
            (by rw [← (dropCache_fields e).1]; exact hca)
          subst hqp
          rw [hc] at hca0
          cases hca0
          rw [(dropCache_fields e).2.2]
          exact hr
        cases hupd : Sheet.updateAll (eraseAddr c.addr) (Sheet.mk m1 s.next)
            c.GetReferencedCells with
        | ok u s2 =>
          rw [hupd] at hst
          simp only [Outcome.state, Option.some.injEq] at hst
          subst hst
          have h2 := (heap_updateAll (eraseAddr c.addr) c.addr
            (fun d b hb => mem_eraseAddr _ _ b hb) c.GetReferencedCells _ s2 h1
            (h.fresh pos c hc).1 hsound (by rw [hupd]; rfl)).1
          exact heap_erase h2 pos
        | raised e s2 =>
          rw [hupd] at hst
          simp only [Outcome.state, Option.some.injEq] at hst
          subst hst
          exact (heap_updateAll (eraseAddr c.addr) c.addr
            (fun d b hb => mem_eraseAddr _ _ b hb) c.GetReferencedCells _ s2 h1
            (h.fresh pos c hc).1 hsound (by rw [hupd]; rfl)).1
        | ub => rw [hupd] at hst; simp [Outcome.state] at hst
        | diverge => rw [hupd] at hst; simp [Outcome.state] at hst

/-- `GetValue` changes caches only. -/
theorem GetValue_strip {E : Env} {s s1 : Sheet} {pos : Position}
    (h : (s.GetValue E pos).state = some s1) :
    CellMap.strip s1.sheet_ = CellMap.strip s.sheet_ ∧ s1.next = s.next := by
  unfold Sheet.GetValue at h
  split at h
  · simp only [Outcome.state, Option.some.injEq] at h
    subst h; exact ⟨rfl, rfl⟩
  · split at h
    · split at h
      · simp only [Outcome.state, Option.some.injEq] at h
        subst h; exact ⟨rfl, rfl⟩
      · split at h
        · simp only [Outcome.state, Option.some.injEq] at h
          subst h; exact ⟨rfl, rfl⟩
        · simp only [Outcome.state, Option.some.injEq] at h
          subst h; exact ⟨rfl, rfl⟩
      · simp only [Outcome.state, Option.some.injEq] at h
        subst h; exact ⟨rfl, rfl⟩
      · split at h
        · rename_i v m1 hev
          simp only [Outcome.state, Option.some.injEq] at h
          subst h
          refine ⟨?_, rfl⟩
          simp only [setCache_strip]
          exact Evaluate_strip hev
        · rename_i m1 hev
          simp only [Outcome.state, Option.some.injEq] at h
          subst h
          exact ⟨Evaluate_strip hev, rfl⟩
        · simp [Outcome.state] at h
    · simp only [Outcome.state, Option.some.injEq] at h
      subst h; exact ⟨rfl, rfl⟩

theorem heap_call {E : Env} {s s1 : Sheet} {c : Call} (h : s.Heap [])
    (hst : (s.call E c).state = some s1) : s1.Heap [] := by
  cases c with
  | Set pos text => exact heap_SetCell h hst
  | Clear pos => exact heap_ClearCell h hst
  | GetValue pos =>
    simp only [Sheet.call, state_discard] at hst
    obtain ⟨hs, hn⟩ := GetValue_strip hst
    have := heap_of_strip h hs
    rw [← hn] at this
    exact this

theorem heap_empty : Sheet.empty.Heap [] :=
  ⟨List.nodup_nil, fun p hp => by simp [Sheet.empty, CellMap.keys] at hp,
   fun p q c d hc => by simp [Sheet.empty, Sheet.cellAt, CellMap.find] at hc,
   fun p c hc => by simp [Sheet.empty, Sheet.cellAt, CellMap.find] at hc,
   fun x hx => absurd hx (List.not_mem_nil _),
   fun p c hc => by simp [Sheet.empty, Sheet.cellAt, CellMap.find] at hc,
   fun q c p ca hc => by simp [Sheet.empty, Sheet.cellAt, CellMap.find] at hc⟩

theorem reachable_heap {E : Env} {s : Sheet} (h : Reachable E s) : s.Heap [] := by
  induction h with
  | empty => exact heap_empty
  | step s c s1 _ hcall ih => exact heap_call ih hcall

/-! ## Printing -/

theorem push_eq_append (s : String) (c : Char) : s.push c = s ++ String.singleton c := by
  apply String.ext
  simp [String.data_push, String.data_append, String.singleton]

theorem printableLoop_nonnull (E : Env) :
    ∀ (m : CellMap) (acc r : Bool × Int × Int), printableLoop E m acc = some r →
      ∀ e ∈ m, e.2 ≠ none := by
  intro m
  induction m with
  | nil => intro acc r _ e he; simp at he
  | cons e0 rest ih =>
    intro acc r h e he
    obtain ⟨pos, v⟩ := e0
    obtain ⟨flag, mr, mc⟩ := acc
    cases v with
    | none => simp [printableLoop] at h
    | some cell =>
      rcases List.mem_cons.1 he with he | he
      · subst he; simp
      · simp only [printableLoop] at h
        split at h
        · exact ih _ _ h e he
        · exact ih _ _ h e he

theorem valid_bounds {p : Position} (h : p.IsValid = true) :
    0 ≤ p.row ∧ 0 ≤ p.col ∧ p.row < 16384 ∧ p.col < 16384 := by
  simp only [Position.IsValid, Position.MAX_ROWS, Position.MAX_COLS, Bool.and_eq_true,
    decide_eq_true_eq] at h
  omega

theorem valid_of_bounds {p : Position} (h1 : 0 ≤ p.row) (h2 : 0 ≤ p.col) (h3 : p.row < 16384)
    (h4 : p.col < 16384) : p.IsValid = true := by
  simp only [Position.IsValid, Position.MAX_ROWS, Position.MAX_COLS, Bool.and_eq_true,
    decide_eq_true_eq]
  omega

theorem mem_keys_of_mem {m : CellMap} {e : Position × Option Cell} (h : e ∈ m) :
    e.1 ∈ CellMap.keys m := List.mem_map.2 ⟨e, h, rfl⟩

theorem GetPrintableSize_bounds {E : Env} {s : Sheet} {R C : Int}
    (hk : ∀ p ∈ CellMap.keys s.sheet_, p.IsValid = true)
    (h : s.GetPrintableSize E = some { rows := R, cols := C }) :
    (R = 0 ∧ C = 0) ∨ (1 ≤ R ∧ R ≤ 16384 ∧ 1 ≤ C ∧ C ≤ 16384) := by
  unfold Sheet.GetPrintableSize at h
  split at h
  · simp only [Option.some.injEq, Size.mk.injEq] at h
    exact Or.inl ⟨h.1.symm, h.2.symm⟩
  · split at h
    · cases h
    · simp only [Option.some.injEq, Size.mk.injEq] at h
      exact Or.inl ⟨h.1.symm, h.2.symm⟩
    · rename_i max_row max_col hloop
      simp only [Option.some.injEq, Size.mk.injEq] at h
      obtain ⟨hR, hC⟩ := h
      obtain ⟨flag1, r1, c1, hloop2, -, hr, hc, -, hrow, hcol⟩ :=
        printableLoop_spec E s.sheet_ false 0 0 (printableLoop_nonnull E _ _ _ hloop)
      rw [hloop] at hloop2
      simp only [Option.some.injEq, Prod.mk.injEq] at hloop2
      obtain ⟨-, e1, e2⟩ := hloop2
      subst e1; subst e2
      right
      have hrb : max_row < 16384 := by
        rcases hrow with h0 | ⟨e, he, -, h0⟩
        · omega
        · have := valid_bounds (hk e.1 (mem_keys_of_mem he))
          omega
      have hcb : max_col < 16384 := by
        rcases hcol with h0 | ⟨e, he, -, h0⟩
        · omega
        · have := valid_bounds (hk e.1 (mem_keys_of_mem he))
          omega
      omega

theorem GetCell_of_cellAt_none {s : Sheet} {pos : Position}
    (hv : pos.IsValid = true) (h : s.cellAt pos = none) :
    s.GetCell pos = Outcome.ok none s := by
  unfold Sheet.GetCell
  simp only [hv, Bool.not_true, Bool.false_eq_true, if_false]
  unfold Sheet.cellAt at h
  split at h
  · cases h
  · rfl

theorem printTextsCols_step (E : Env) (s : Sheet) (cols i : Int) (n : Nat) (j : Int)
    (out : String) (hv : (Position.mk i j).IsValid = true) :
    printTextsCols E s cols i (n + 1) j out =
      printTextsCols E s cols i n (j + 1)
        ((out ++ s.textAt E (Position.mk i j)) ++
          String.singleton (if j = cols - 1 then '\n' else '\t')) := by
  rw [printTextsCols]
  cases hc : s.cellAt (Position.mk i j) with
  | some c =>
    rw [GetCell_of_cellAt hv hc]
    simp only [Sheet.textAt, hc, push_eq_append]
  | none =>
    rw [GetCell_of_cellAt_none hv hc]
    simp only [Sheet.textAt, hc, push_eq_append, String.append_empty]

theorem joinTabs_cons (a : String) (l : List String) (hl : l ≠ []) :
    joinTabs (a :: l) = a ++ "\t" ++ joinTabs l := by
  cases l with
  | nil => exact absurd rfl hl
  | cons b rest => rfl

theorem rowTexts_succ (E : Env) (s : Sheet) (I J n : Nat) :
    s.rowTexts E I (List.range' J (n + 1)) =
      s.textAt E (Position.mk (I : Int) (J : Int)) :: s.rowTexts E I (List.range' (J + 1) n) := by
  simp only [Sheet.rowTexts, List.range'_succ, List.map_cons]

theorem printTextsCols_spec (E : Env) (s : Sheet) (C I : Nat) (hI : I < 16384)
    (hC : C ≤ 16384) :
    ∀ (n J : Nat) (out : String), J + n = C →
      printTextsCols E s (C : Int) (I : Int) n (J : Int) out =
        Printed.ok (if n = 0 then out
          else out ++ joinTabs (s.rowTexts E I (List.range' J n)) ++ "\n") := by
  intro n
  induction n with
  | zero => intro J out _; simp [printTextsCols]
  | succ n ih =>
    intro J out hJ
    have hv : (Position.mk (I : Int) (J : Int)).IsValid = true := by
      apply valid_of_bounds <;> simp only <;> omega
    rw [printTextsCols_step E s _ _ n _ out hv]
    have hcast : ((J : Int) + 1) = ((J + 1 : Nat) : Int) := by push_cast; rfl
    rw [hcast, ih (J + 1) _ (by omega)]
    simp only [Nat.succ_ne_zero, if_false, Nat.add_eq_zero, and_false]
    cases n with
    | zero =>
      have hlast : (J : Int) = (C : Int) - 1 := by omega
      simp only [if_true, hlast]
      rw [← hlast]
      apply congrArg Printed.ok
      rw [rowTexts_succ]
      simp only [List.range', Sheet.rowTexts, List.map_nil, joinTabs]
      rfl
    | succ k =>
      have hnot : ¬ (J : Int) = (C : Int) - 1 := by omega
      simp only [hnot, if_false, Nat.succ_ne_zero]
      apply congrArg Printed.ok
      rw [rowTexts_succ E s I J (k + 1),
        joinTabs_cons _ _ (by rw [rowTexts_succ]; exact List.cons_ne_nil _ _)]
      simp only [String.append_assoc]
      rfl

theorem printTextsRows_spec (E : Env) (s : Sheet) (R : Int) (C : Nat) (hC1 : 1 ≤ C)
    (hC : C ≤ 16384) :
    ∀ (n I : Nat) (out : String), I + n ≤ 16384 →
      printTextsRows E s { rows := R, cols := (C : Int) } n (I : Int) out =
        Printed.ok (out ++ concatLines ((List.range' I n).map
          (fun (i : Nat) => joinTabs (s.rowTexts E i (List.range C)) ++ "\n"))) := by
  intro n
  induction n with
  | zero =>
    intro I out _
    simp [printTextsRows, concatLines]
  | succ n ih =>
    intro I out hI
    rw [printTextsRows]
    have hcols := printTextsCols_spec E s C I (by omega) hC C 0 out (by omega)
    have hne : C ≠ 0 := by omega
    simp only [hne, if_false] at hcols
    simp only [Int.toNat_ofNat]
    have h0 : (0 : Int) = ((0 : Nat) : Int) := rfl
    rw [h0, hcols]
    simp only
    have hcast : ((I : Int) + 1) = ((I + 1 : Nat) : Int) := by push_cast; rfl
    rw [hcast, ih (I + 1) _ (by omega)]
    apply congrArg Printed.ok
    simp only [List.range'_succ, List.map_cons, concatLines, List.range_eq_range',
      String.append_assoc]

/-! ## `SetCell` keeps the mappings at other positions -/

theorem mapsKept_refl (s : Sheet) (q : Position) : s.MapsKept s q := ⟨fun h => h, fun h => h⟩

theorem mapsKept_trans {s s1 s2 : Sheet} {q : Position} (h1 : s.MapsKept s1 q)
    (h2 : s1.MapsKept s2 q) : s.MapsKept s2 q :=
  ⟨fun h => h2.1 (h1.1 h), fun h => h1.2 (h2.2 h)⟩

theorem mapsKept_of_find {s s1 : Sheet} {q : Position}
    (h : CellMap.find s1.sheet_ q = CellMap.find s.sheet_ q) : s.MapsKept s1 q := by
  unfold Sheet.MapsKept
  rw [h]
  exact ⟨fun h => h, fun h => h⟩

theorem mapsKept_of_some {s s1 : Sheet} {q : Position} {c : Cell}
    (h : CellMap.find s1.sheet_ q = some (some c)) : s.MapsKept s1 q := by
  unfold Sheet.MapsKept
  rw [h]
  exact ⟨fun _ => by simp, fun h => by simp at h⟩

theorem mapsKept_of_strip {s s1 : Sheet}
    (h : CellMap.strip s1.sheet_ = CellMap.strip s.sheet_) (q : Position) :
    s.MapsKept s1 q := by
  have hp : (CellMap.find s1.sheet_ q).map (Option.map Cell.dropCache) =
      (CellMap.find s.sheet_ q).map (Option.map Cell.dropCache) := by
    rw [← find_strip, ← find_strip, h]
  unfold Sheet.MapsKept
  cases h0 : CellMap.find s.sheet_ q with
  | none =>
    rw [h0] at hp
    cases h1 : CellMap.find s1.sheet_ q with
    | none => simp
    | some v => rw [h1] at hp; simp at hp
  | some v =>
    rw [h0] at hp
    cases h1 : CellMap.find s1.sheet_ q with
    | none => rw [h1] at hp; simp at hp
    | some v1 =>
      rw [h1] at hp
      simp only [Option.map_some', Option.some.injEq] at hp
      cases v <;> cases v1 <;> simp_all

theorem mapsKept_of_grows {s s1 : Sheet} (h : s.Grows s1) (q : Position) :
    s.MapsKept s1 q := by
  rcases h q with h | ⟨-, a, ha⟩
  · exact mapsKept_of_find h
  · exact mapsKept_of_some ha

theorem mapsKept_updateDependents (upd : List Nat → List Nat) (s : Sheet) (pos_ : Position)
    {s1 : Sheet} (h : (s.updateDependents upd pos_).state = some s1) (q : Position) :
    s.MapsKept s1 q := by
  by_cases hq : q = pos_
  · subst hq
    unfold Sheet.updateDependents Sheet.GetRawCell at h
    split at h
    · simp only [Outcome.state, Option.some.injEq] at h
      subst h
      rename_i c s2 hraw
      exact @mapsKept_of_some s _ q (c.SetDependentCells (upd c.GetDependentCells))
        (by simp only [find_assign, if_true])
    · simp [Outcome.state] at h
    · rename_i e s2 hraw
      split at hraw
      · simp only [Outcome.raised.injEq] at hraw
        obtain ⟨-, hs2⟩ := hraw
        subst hs2
        simp only [Outcome.state, Option.some.injEq] at h
        subst h
        exact mapsKept_refl _ _
      · split at hraw <;> cases hraw
    · simp [Outcome.state] at h
    · simp [Outcome.state] at h
  · exact mapsKept_of_find ((updateDependents_relink upd s pos_ h).2 q hq)

theorem mapsKept_updateAll (upd : List Nat → List Nat) (refs : List Position) :
    ∀ (s s1 : Sheet), (Sheet.updateAll upd s refs).state = some s1 →
      ∀ q, s.MapsKept s1 q := by
  induction refs with
  | nil =>
    intro s s1 h q
    simp only [Sheet.updateAll, Outcome.state, Option.some.injEq] at h
    subst h
    exact mapsKept_refl _ _
  | cons pos_ rest ih =>
    intro s s1 h q
    unfold Sheet.updateAll at h
    cases hstep : s.updateDependents upd pos_ with
    | ok u s2 =>
      rw [hstep] at h
      simp only at h
      exact mapsKept_trans (mapsKept_updateDependents upd s pos_ (by rw [hstep]; rfl) q)
        (ih s2 s1 h q)
    | raised e s2 =>
      rw [hstep] at h
      simp only [Outcome.state, Option.some.injEq] at h
      subst h
      exact mapsKept_updateDependents upd s pos_ (by rw [hstep]; rfl) q
    | ub => rw [hstep] at h; simp [Outcome.state] at h
    | diverge => rw [hstep] at h; simp [Outcome.state] at h

theorem mapsKept_Cell_new {E : Env} {text : String} {s s1 : Sheet} {pos : Position}
    (h : (Cell.new E text s pos).state = some s1) (q : Position) : s.MapsKept s1 q := by
  cases hnew : Cell.new E text s pos with
  | ok c s2 =>
    rw [hnew] at h
    simp only [Outcome.state, Option.some.injEq] at h
    subst h
    exact mapsKept_of_grows (Cell_new_ok hnew).1 q
  | raised e s2 =>
    rw [hnew] at h
    simp only [Outcome.state, Option.some.injEq] at h
    subst h
    exact mapsKept_of_grows (Cell_new_raised hnew).1 q
  | ub => rw [hnew] at h; simp [Outcome.state] at h
  | diverge => rw [hnew] at h; simp [Outcome.state] at h

theorem mapsKept_assign_ne (s : Sheet) (p q : Position) (v : Option Cell) (n : Nat)
    (hq : q ≠ p) : s.MapsKept (Sheet.mk (CellMap.assign s.sheet_ p v) n) q := by
  apply mapsKept_of_find
  simp only [find_assign, Ne.symm hq, if_false]

theorem mapsKept_erase_ne (s : Sheet) (p q : Position) (n : Nat)
    (hq : q ≠ p) : s.MapsKept (Sheet.mk (CellMap.erase s.sheet_ p) n) q := by
  apply mapsKept_of_find
  simp only [find_erase, Ne.symm hq, if_false]

theorem mapsKept_createCell {E : Env} {s s1 : Sheet} {pos : Position} {text : String}
    (h : (s.createCell E pos text).state = some s1) (q : Position) (hq : q ≠ pos) :
    s.MapsKept s1 q := by
  unfold Sheet.createCell at h
  cases hnew : Cell.new E text s pos with
  | ok c s2 =>
    rw [hnew] at h
    simp only at h
    exact mapsKept_trans
      (mapsKept_trans (mapsKept_Cell_new (by rw [hnew]; rfl) q)
        (mapsKept_assign_ne s2 pos q (some c) s2.next hq))
      (mapsKept_updateAll _ _ _ s1 h q)
  | raised e s2 =>
    rw [hnew] at h
    simp only at h
    have h2 : s.MapsKept s2 q := mapsKept_Cell_new (by rw [hnew]; rfl) q
    split at h
    · simp only [Outcome.state, Option.some.injEq] at h
      subst h
      exact mapsKept_trans h2 (mapsKept_erase_ne s2 pos q s2.next hq)
    · simp only [Outcome.state, Option.some.injEq] at h
      subst h
      exact h2
  | ub => rw [hnew] at h; simp [Outcome.state] at h
  | diverge => rw [hnew] at h; simp [Outcome.state] at h

theorem mapsKept_restoreCell {E : Env} {s s1 : Sheet} {pos : Position} {old_text : String}
    (h : (s.restoreCell E pos old_text).state = some s1) (q : Position) (hq : q ≠ pos) :
    s.MapsKept s1 q := by
  unfold Sheet.restoreCell at h
  cases hnew : Cell.new E old_text s pos with
  | ok c s2 =>
    rw [hnew] at h
    simp only [Outcome.state, Option.some.injEq] at h
    subst h
    exact mapsKept_trans (mapsKept_Cell_new (by rw [hnew]; rfl) q)
      (mapsKept_assign_ne s2 pos q (some c) s2.next hq)
  | raised e s2 =>
    rw [hnew] at h
    simp only [Outcome.state, Option.some.injEq] at h
    subst h
    exact mapsKept_Cell_new (by rw [hnew]; rfl) q
  | ub => rw [hnew] at h; simp [Outcome.state] at h
  | diverge => rw [hnew] at h; simp [Outcome.state] at h

theorem mapsKept_replaceCell {E : Env} {s s1 : Sheet} {pos : Position} {text : String}
    {old : Cell} (h : (s.replaceCell E pos text old).state = some s1) (q : Position)
    (hq : q ≠ pos) : s.MapsKept s1 q := by
  unfold Sheet.replaceCell at h
  cases hinv : InvalidateCache (invDepth s.sheet_) s.sheet_ old.addr with
  | ub => rw [hinv] at h; simp [Outcome.state] at h
  | diverge => rw [hinv] at h; simp [Outcome.state] at h
  | done m1 =>
    rw [hinv] at h
    simp only at h
    have h1 : s.MapsKept (Sheet.mk m1 s.next) q :=
      @mapsKept_of_strip s (Sheet.mk m1 s.next)
        (InvalidateCache_strip _ _ _ _ hinv) q
    have h2 : s.MapsKept (Sheet.mk (CellMap.assign m1 pos none) s.next) q :=
      mapsKept_trans h1 (mapsKept_assign_ne (Sheet.mk m1 s.next) pos q none s.next hq)
    split at h
    · rename_i old1 hfind1
      cases hnew : Cell.new E text (Sheet.mk (CellMap.assign m1 pos none) s.next) pos with
      | ok c s3 =>
        rw [hnew] at h
        simp only [Outcome.state, Option.some.injEq] at h
        subst h
        exact mapsKept_trans (mapsKept_trans h2 (mapsKept_Cell_new (by rw [hnew]; rfl) q))
          (mapsKept_assign_ne s3 pos q _ s3.next hq)
      | raised e s3 =>
        rw [hnew] at h
        simp only at h
        have h3 := mapsKept_trans h2 (mapsKept_Cell_new (by rw [hnew]; rfl) q)
        split at h
        · exact mapsKept_trans h3 (mapsKept_restoreCell h q hq)
        · simp only [Outcome.state, Option.some.injEq] at h
          subst h
          exact h3
      | ub => rw [hnew] at h; simp [Outcome.state] at h
      | diverge => rw [hnew] at h; simp [Outcome.state] at h
    · simp [Outcome.state] at h

/-- A `SetCell` that returns or raises keeps the mappings at the other
positions. -/
theorem mapsKept_SetCell {E : Env} {s s1 : Sheet} {pos : Position} {text : String}
    (h : (s.SetCell E pos text).state = some s1) (q : Position) (hq : q ≠ pos) :
    s.MapsKept s1 q := by
  unfold Sheet.SetCell at h
  split at h
  · simp only [Outcome.state, Option.some.injEq] at h
    subst h; exact mapsKept_refl _ _
  · split at h
    · split at h
      · simp only [Outcome.state, Option.some.injEq] at h
        subst h; exact mapsKept_refl _ _
      · exact mapsKept_replaceCell h q hq
    · exact mapsKept_createCell h q hq

/-- A `SetCell` rejected for a cycle at a position without a cell leaves the
position unmapped. -/
theorem SetCell_circular_unmapped {E : Env} {s s1 : Sheet} {pos : Position} {text : String}
    (hn : s.cellAt pos = none)
    (h : s.SetCell E pos text = Outcome.raised Exception.CircularDependencyException s1) :
    CellMap.find s1.sheet_ pos = none := by
  unfold Sheet.SetCell at h
  split at h
  · cases h
  · split at h
    · rename_i old hfind
      simp only [Sheet.cellAt, hfind] at hn
      cases hn
    · unfold Sheet.createCell at h
      cases hnew : Cell.new E text s pos with
      | ok c s2 =>
        rw [hnew] at h
        exact absurd h (updateAll_not_circular _ _ _ _)
      | raised e s2 =>
        rw [hnew] at h
        simp only at h
        split at h
        · simp only [Outcome.raised.injEq, true_and] at h
          subst h
          simp only [find_erase, if_true]
        · simp only [Outcome.raised.injEq] at h
          rename_i hne
          exact absurd h.1 hne
      | ub => rw [hnew] at h; cases h
      | diverge => rw [hnew] at h; cases h

/-! ## The printable size depends on the texts only -/

theorem GetPrintableSize_eq (E : Env) (s : Sheet) :
    s.GetPrintableSize E =
      match printableLoop E s.sheet_ (false, 0, 0) with
      | none => none
      | some (false, _, _) => some { rows := 0, cols := 0 }
      | some (true, max_row, max_col) => some { rows := max_row + 1, cols := max_col + 1 } := by
  unfold Sheet.GetPrintableSize
  split
  · rename_i h
    rw [h]
    rfl
  · rfl

theorem hasText_iff (E : Env) {s : Sheet} (hnd : (CellMap.keys s.sheet_).Nodup)
    (p : Position) : (∃ e ∈ s.sheet_, HasText E e ∧ e.1 = p) ↔ s.textAt E p ≠ "" := by
  constructor
  · rintro ⟨⟨k, v⟩, he, ⟨cell, hv, ht⟩, hk⟩
    simp only at hv hk
    subst hv; subst hk
    have hf := find_of_mem_nodup hnd he
    simp only [Sheet.textAt, Sheet.cellAt, hf]
    exact ht
  · intro h
    cases hc : s.cellAt p with
    | none => simp only [Sheet.textAt, hc] at h; exact absurd rfl h
    | some c =>
      simp only [Sheet.textAt, hc] at h
      exact ⟨(p, some c), find_mem (find_of_cellAt hc), ⟨c, rfl, h⟩, rfl⟩

theorem hasText_transfer (E : Env) {s s1 : Sheet} (hnd : (CellMap.keys s.sheet_).Nodup)
    (hnd1 : (CellMap.keys s1.sheet_).Nodup) (htext : ∀ q, s1.textAt E q = s.textAt E q)
    {e : Position × Option Cell} (he : e ∈ s.sheet_) (ht : HasText E e) :
    ∃ e1 ∈ s1.sheet_, HasText E e1 ∧ e1.1 = e.1 := by
  rw [hasText_iff E hnd1, htext, ← hasText_iff E hnd]
  exact ⟨e, he, ht, rfl⟩

theorem size_congr {E : Env} {s s1 : Sheet} (hnd : (CellMap.keys s.sheet_).Nodup)
    (hnd1 : (CellMap.keys s1.sheet_).Nodup) (hnn1 : ∀ e ∈ s1.sheet_, e.2 ≠ none)
    (htext : ∀ q, s1.textAt E q = s.textAt E q) {size : Size}
    (hsize : s.GetPrintableSize E = some size) : s1.GetPrintableSize E = some size := by
  have hnn : ∀ e ∈ s.sheet_, e.2 ≠ none := by
    rw [GetPrintableSize_eq] at hsize
    cases hloop : printableLoop E s.sheet_ (false, 0, 0) with
    | none => rw [hloop] at hsize; cases hsize
    | some r => exact printableLoop_nonnull E _ _ _ hloop
  obtain ⟨f, r, c, hl, hf, hr0, hc0, hall, hrow, hcol⟩ :=
    printableLoop_spec E s.sheet_ false 0 0 hnn
  obtain ⟨f1, r1, c1, hl1, hf1, hr1, hc1, hall1, hrow1, hcol1⟩ :=
    printableLoop_spec E s1.sheet_ false 0 0 hnn1
  have hsym : ∀ q, s.textAt E q = s1.textAt E q := fun q => (htext q).symm
  have hff : f1 = f := by
    have h1 : f1 = true ↔ f = true := by
      rw [hf, hf1]
      simp only [Bool.false_eq_true, false_or]
      constructor
      · rintro ⟨e, he, ht⟩
        obtain ⟨e0, he0, ht0, -⟩ := hasText_transfer E hnd1 hnd hsym he ht
        exact ⟨e0, he0, ht0⟩
      · rintro ⟨e, he, ht⟩
        obtain ⟨e0, he0, ht0, -⟩ := hasText_transfer E hnd hnd1 htext he ht
        exact ⟨e0, he0, ht0⟩
    exact Bool.eq_iff_iff.2 h1
  have hrr : r1 = r := by
    have ha : r1 ≤ r := by
      rcases hrow1 with h0 | ⟨e, he, ht, h0⟩
      · omega
      · obtain ⟨e0, he0, ht0, hk⟩ := hasText_transfer E hnd1 hnd hsym he ht
        have := (hall e0 he0 ht0).1
        rw [hk] at this
        omega
    have hb : r ≤ r1 := by
      rcases hrow with h0 | ⟨e, he, ht, h0⟩
      · omega
      · obtain ⟨e0, he0, ht0, hk⟩ := hasText_transfer E hnd hnd1 htext he ht
        have := (hall1 e0 he0 ht0).1
        rw [hk] at this
        omega
    omega
  have hcc : c1 = c := by
    have ha : c1 ≤ c := by
      rcases hcol1 with h0 | ⟨e, he, ht, h0⟩
      · omega
      · obtain ⟨e0, he0, ht0, hk⟩ := hasText_transfer E hnd1 hnd hsym he ht
        have := (hall e0 he0 ht0).2
        rw [hk] at this
        omega
    have hb : c ≤ c1 := by
      rcases hcol with h0 | ⟨e, he, ht, h0⟩
      · omega
      · obtain ⟨e0, he0, ht0, hk⟩ := hasText_transfer E hnd hnd1 htext he ht
        have := (hall1 e0 he0 ht0).2
        rw [hk] at this
        omega
    omega
  rw [GetPrintableSize_eq] at hsize ⊢
  rw [hl] at hsize
  rw [hl1, hff, hrr, hcc]
  exact hsize

theorem textLines_congr (E : Env) {s s1 : Sheet} (htext : ∀ q, s1.textAt E q = s.textAt E q)
    (R C : Nat) : s1.textLines E R C = s.textLines E R C := by
  simp only [Sheet.textLines, Sheet.rowTexts, htext]

/-- `PrintTexts` on a sheet whose mapped positions are valid and whose printable
size is `(R, C)`. -/
theorem PrintTexts_spec {E : Env} {s : Sheet} {R C : Int}
    (hk : ∀ p ∈ CellMap.keys s.sheet_, p.IsValid = true)
    (hsize : s.GetPrintableSize E = some { rows := R, cols := C }) :
    s.PrintTexts E = Printed.ok (s.textLines E R.toNat C.toNat) := by
  unfold Sheet.PrintTexts
  rw [hsize]
  simp only
  rcases GetPrintableSize_bounds hk hsize with ⟨hR, hC⟩ | ⟨hR1, hR, hC1, hC⟩
  · subst hR; subst hC
    simp [printTextsRows, Sheet.textLines, concatLines]
  · obtain ⟨Cn, hCn⟩ := Int.eq_ofNat_of_zero_le (by omega : 0 ≤ C)
    obtain ⟨Rn, hRn⟩ := Int.eq_ofNat_of_zero_le (by omega : 0 ≤ R)
    subst hCn; subst hRn
    have h0 : (0 : Int) = ((0 : Nat) : Int) := rfl
    rw [h0, printTextsRows_spec E s _ Cn (by omega) (by omega) _ 0 "" (by
      simp only [Int.toNat_ofNat]; omega)]
    simp only [Int.toNat_ofNat, String.empty_append, Sheet.textLines, List.range_eq_range']

/-! ## What `InvalidateCache` visits -/

theorem clear_nil (m : CellMap) : CellMap.clear [] m = m := by
  unfold CellMap.clear
  conv_rhs => rw [← List.map_id m]
  apply List.map_congr_left
  intro e _
  obtain ⟨k, v⟩ := e
  cases v <;> simp

theorem clear_clear (V W : List Nat) (m : CellMap) :
    CellMap.clear W (CellMap.clear V m) = CellMap.clear (V ++ W) m := by
  unfold CellMap.clear
  rw [List.map_map]
  apply List.map_congr_left
  intro e _
  obtain ⟨k, v⟩ := e
  cases v with
  | none => rfl
  | some c =>
    simp only [Function.comp, Option.map_some', List.mem_append]
    by_cases hV : c.addr ∈ V
    · by_cases hW : c.addr ∈ W
      · simp [hV, hW, Cell.dropCache, Impl.InvalidateCache_idem]
      · simp [hV, hW, Cell.dropCache]
    · by_cases hW : c.addr ∈ W
      · simp [hV, hW]
      · simp [hV, hW]

theorem modify_eq_clear (m : CellMap) (a : Nat) :
    CellMap.modify m a (fun c1 => { c1 with impl_ := c1.impl_.InvalidateCache }) =
      CellMap.clear [a] m := by
  unfold CellMap.modify CellMap.clear
  apply List.map_congr_left
  intro e _
  obtain ⟨k, v⟩ := e
  cases v with
  | none => rfl
  | some c => simp [Cell.dropCache]

theorem deref_clear (V : List Nat) (m : CellMap) (x : Nat) :
    CellMap.deref (CellMap.clear V m) x =
      (CellMap.deref m x).map (fun c => if c.addr ∈ V then c.dropCache else c) := by
  induction m with
  | nil => rfl
  | cons e rest ih =>
    obtain ⟨k, v⟩ := e
    cases v with
    | none =>
      simp only [CellMap.clear, List.map_cons, Option.map_none', CellMap.deref] at ih ⊢
      exact ih
    | some c =>
      simp only [CellMap.clear, List.map_cons, Option.map_some', CellMap.deref] at ih ⊢
      by_cases hx : c.addr = x
      · subst hx
        by_cases hV : c.addr ∈ V
        · simp only [hV, if_true, Cell.dropCache, Option.map_some']
        · simp only [hV, if_false, if_true, Option.map_some']
      · have hx2 : ¬ (if c.addr ∈ V then c.dropCache else c).addr = x := by
          split
          · simpa only [Cell.dropCache] using hx
          · exact hx
        simp only [hx, hx2, if_false]
        exact ih

theorem closed_of_clear {V W : List Nat} {m : CellMap}
    (h : CellMap.Closed (CellMap.clear V m) W) : CellMap.Closed m W := by
  intro x hx c hc y hy
  have hd := deref_clear V m x
  rw [hc] at hd
  simp only [Option.map_some'] at hd
  refine h x hx _ hd y ?_
  split
  · simpa only [Cell.dropCache] using hy
  · exact hy

theorem closed_append {m : CellMap} {V W : List Nat} (hV : CellMap.Closed m V)
    (hW : CellMap.Closed m W) : CellMap.Closed m (V ++ W) := by
  intro x hx c hc y hy
  rcases List.mem_append.1 hx with hx | hx
  · exact List.mem_append_left _ (hV x hx c hc y hy)
  · exact List.mem_append_right _ (hW x hx c hc y hy)

theorem invFold_stuck (depth : Nat) (ds : List Nat) (init : InvResult)
    (h : ∀ m0, init ≠ InvResult.done m0) :
    ds.foldl (fun acc d =>
        match acc with
        | InvResult.done m2 => InvalidateCache depth m2 d
        | r => r) init = init := by
  induction ds with
  | nil => rfl
  | cons d ds ih =>
    simp only [List.foldl_cons]
    cases init with
    | done m2 => exact absurd rfl (h m2)
    | ub => exact ih
    | diverge => exact ih

theorem invFold_visits (depth : Nat)
    (ih : ∀ (m0 : CellMap) (a : Nat) (m1 : CellMap),
      InvalidateCache depth m0 a = InvResult.done m1 →
      ∃ V, m1 = CellMap.clear V m0 ∧ a ∈ V ∧ CellMap.Closed m0 V) :
    ∀ (ds : List Nat) (m0 m1 : CellMap),
      ds.foldl (fun acc d =>
          match acc with
          | InvResult.done m2 => InvalidateCache depth m2 d
          | r => r) (InvResult.done m0) = InvResult.done m1 →
      ∃ W, m1 = CellMap.clear W m0 ∧ (∀ d ∈ ds, d ∈ W) ∧ CellMap.Closed m0 W := by
  intro ds
  induction ds with
  | nil =>
    intro m0 m1 h
    simp only [List.foldl_nil, InvResult.done.injEq] at h
    subst h
    exact ⟨[], (clear_nil _).symm, fun d hd => by simp at hd, fun x hx => by simp at hx⟩
  | cons d ds ihds =>
    intro m0 m1 h
    simp only [List.foldl_cons] at h
    cases hd : InvalidateCache depth m0 d with
    | done m2 =>
      rw [hd] at h
      obtain ⟨V, hV, hdV, hcV⟩ := ih m0 d m2 hd
      obtain ⟨W, hW, hdsW, hcW⟩ := ihds m2 m1 h
      refine ⟨V ++ W, ?_, ?_, ?_⟩
      · rw [hW, hV, clear_clear]
      · intro x hx
        rcases List.mem_cons.1 hx with hx | hx
        · rw [hx]; exact List.mem_append_left _ hdV
        · exact List.mem_append_right _ (hdsW x hx)
      · rw [hV] at hcW
        exact closed_append hcV (closed_of_clear hcW)
    | ub =>
      rw [hd, invFold_stuck depth ds InvResult.ub (fun m0 h0 => by cases h0)] at h
      cases h
    | diverge =>
      rw [hd, invFold_stuck depth ds InvResult.diverge (fun m0 h0 => by cases h0)] at h
      cases h

/-- A completed `InvalidateCache` through the pointer `a` has dropped the cache
of every cell in a set of addresses that holds `a` and is closed under
dependents, and nothing else. -/
theorem InvalidateCache_visits (depth : Nat) :
    ∀ (m : CellMap) (a : Nat) (m1 : CellMap),
      InvalidateCache depth m a = InvResult.done m1 →
      ∃ V, m1 = CellMap.clear V m ∧ a ∈ V ∧ CellMap.Closed m V := by
  induction depth with
  | zero => intro m a m1 h; simp [InvalidateCache] at h
  | succ depth ih =>
    intro m a m1 h
    unfold InvalidateCache at h
    split at h
    · cases h
    · rename_i c hc
      rw [modify_eq_clear] at h
      obtain ⟨W, hW, hds, hcW⟩ := invFold_visits depth ih _ _ _ h
      refine ⟨[a] ++ W, ?_, List.mem_append_left _ (List.mem_singleton.2 rfl), ?_⟩
      · rw [hW, clear_clear]
      · have hcW2 : CellMap.Closed m W := closed_of_clear hcW
        intro x hx c0 hc0 y hy
        rcases List.mem_append.1 hx with hx | hx
        · rw [List.mem_singleton] at hx
          subst hx
          rw [hc] at hc0
          cases hc0
          exact List.mem_append_right _ (hds y hy)
        · exact List.mem_append_right _ (hcW2 x hx c0 hc0 y hy)

theorem deref_mem {m : CellMap} {a : Nat} {c : Cell} (h : CellMap.deref m a = some c) :
    c.addr = a ∧ ∃ p, (p, some c) ∈ m := by
  induction m with
  | nil => simp [CellMap.deref] at h
  | cons e rest ih =>
    obtain ⟨k, v⟩ := e
    cases v with
    | none =>
      simp only [CellMap.deref] at h
      obtain ⟨h1, p, hp⟩ := ih h
      exact ⟨h1, p, List.mem_cons_of_mem _ hp⟩
    | some c0 =>
      simp only [CellMap.deref] at h
      split at h
      · rename_i hx
        simp only [Option.some.injEq] at h
        subst h
        exact ⟨hx, k, List.mem_cons_self _ _⟩
      · obtain ⟨h1, p, hp⟩ := ih h
        exact ⟨h1, p, List.mem_cons_of_mem _ hp⟩

theorem deref_isSome_of_mem {m : CellMap} {p : Position} {c : Cell}
    (h : (p, some c) ∈ m) : ∃ c1, CellMap.deref m c.addr = some c1 := by
  induction m with
  | nil => simp at h
  | cons e rest ih =>
    obtain ⟨k, v⟩ := e
    rcases List.mem_cons.1 h with hm | hm
    · simp only [Prod.mk.injEq] at hm
      obtain ⟨-, hv⟩ := hm
      subst hv
      exact ⟨c, by simp only [CellMap.deref, if_true]⟩
    · cases v with
      | none =>
        simp only [CellMap.deref]
        exact ih hm
      | some c0 =>
        simp only [CellMap.deref]
        split
        · exact ⟨c0, rfl⟩
        · exact ih hm

theorem deref_of_cellAt {X : List Nat} {s : Sheet} (h : s.Heap X) {p : Position} {c : Cell}
    (hc : s.cellAt p = some c) : CellMap.deref s.sheet_ c.addr = some c := by
  obtain ⟨c1, hc1⟩ := deref_isSome_of_mem (find_mem (find_of_cellAt hc))
  obtain ⟨ha, p1, hp1⟩ := deref_mem hc1
  have hf := find_of_mem_nodup h.keysNodup hp1
  have hc2 : s.cellAt p1 = some c1 := by simp only [Sheet.cellAt, hf]
  have hpp := h.addrInj p1 p c1 c hc2 hc ha
  subst hpp
  rw [hc] at hc2
  cases hc2
  exact hc1

theorem find_clear (V : List Nat) (m : CellMap) (p : Position) :
    CellMap.find (CellMap.clear V m) p =
      (CellMap.find m p).map (Option.map (fun c => if c.addr ∈ V then c.dropCache else c)) := by
  induction m with
  | nil => rfl
  | cons e rest ih =>
    obtain ⟨k, v⟩ := e
    simp only [CellMap.clear, List.map_cons, CellMap.find] at ih ⊢
    by_cases hk : k = p
    · simp only [hk, if_true, Option.map_some']
    · simp only [hk, if_false]
      exact ih

theorem cellAt_clear (V : List Nat) (m : CellMap) (n : Nat) (p : Position) :
    (Sheet.mk (CellMap.clear V m) n).cellAt p =
      ((Sheet.mk m n).cellAt p).map (fun c => if c.addr ∈ V then c.dropCache else c) := by
  simp only [Sheet.cellAt, find_clear]
  cases h : CellMap.find m p with
  | none => rfl
  | some v => cases v <;> rfl

theorem cacheCleared_dropCache (c : Cell) : c.dropCache.CacheCleared := by
  simp only [Cell.CacheCleared, Cell.dropCache, Impl.InvalidateCache_idem]

theorem cacheCleared_of_classify {E : Env} {text : String} {impl : Impl}
    (h : classify E text = Except.ok impl) : impl.InvalidateCache = impl := by
  unfold classify at h
  split at h
  · cases h; rfl
  · cases h; rfl
  · split at h
    · cases h
    · cases h; rfl
  · cases h; rfl

theorem SetCell_replace {E : Env} {s : Sheet} {pos : Position} {text : String} {old : Cell}
    (hv : pos.IsValid = true) (hold : s.cellAt pos = some old) (hne : old.GetText E ≠ text) :
    s.SetCell E pos text = s.replaceCell E pos text old := by
  unfold Sheet.SetCell
  simp only [hv, Bool.not_true, Bool.false_eq_true, if_false, find_of_cellAt hold, hne]

/-- The cells a completed replacement leaves at the other positions: fresh
`Empty` cells, and the cells of before with the cache dropped in those that
`InvalidateCache` visited. -/
theorem replaceCell_cleared {E : Env} {s s1 : Sheet} {pos : Position} {text : String}
    {old : Cell} (hh : s.Heap []) (hold : s.cellAt pos = some old)
    (h : s.replaceCell E pos text old = Outcome.ok () s1) :
    ∃ V, old.addr ∈ V ∧ CellMap.Closed s.sheet_ V ∧
      ∀ q d, q ≠ pos → s1.cellAt q = some d →
        (d.impl_ = Impl.EmptyImpl ∧ d.dependent_cells_ = []) ∨
        ∃ c0, s.cellAt q = some c0 ∧ d = if c0.addr ∈ V then c0.dropCache else c0 := by
  have hv : pos.IsValid = true := valid_of_cellAt hh hold
  unfold Sheet.replaceCell at h
  cases hinv : InvalidateCache (invDepth s.sheet_) s.sheet_ old.addr with
  | ub => rw [hinv] at h; cases h
  | diverge => rw [hinv] at h; cases h
  | done m1 =>
    rw [hinv] at h
    simp only at h
    obtain ⟨V, hm1, haV, hcV⟩ := InvalidateCache_visits _ _ _ _ hinv
    have h1 : Sheet.Heap [] (Sheet.mk m1 s.next) :=
      heap_of_strip hh (InvalidateCache_strip _ _ _ _ hinv)
    have h2 : Sheet.Heap [] (Sheet.mk (CellMap.assign m1 pos none) s.next) :=
      heap_assign_none h1 pos hv
    refine ⟨V, haV, hcV, ?_⟩
    split at h
    · rename_i old1 hfind1
      cases hnew : Cell.new E text (Sheet.mk (CellMap.assign m1 pos none) s.next) pos with
      | ok c s3 =>
        rw [hnew] at h
        simp only [Outcome.ok.injEq, true_and] at h
        subst h
        obtain ⟨-, hext⟩ := heap_Cell_new_ok h2 hnew
        intro q d hq hd
        have hd3 : s3.cellAt q = some d := by
          have := cellAt_assign s3.sheet_ pos q
            (some (c.SetDependentCells old1.GetDependentCells)) s3.next
          rw [this] at hd
          simpa only [Ne.symm hq, if_false] using hd
        rcases hext.2.2 q d hd3 with h0 | ⟨-, hi, hde, -⟩
        · right
          have h0b : (Sheet.mk m1 s.next).cellAt q = some d := by
            have := cellAt_assign m1 pos q none (s.next + 1)
            rw [this] at h0
            simpa only [Ne.symm hq, if_false] using h0
          rw [hm1, cellAt_clear] at h0b
          cases hc0 : s.cellAt q with
          | none =>
            have : (Sheet.mk s.sheet_ s.next).cellAt q = none := hc0
            rw [this] at h0b
            cases h0b
          | some c0 =>
            have : (Sheet.mk s.sheet_ s.next).cellAt q = some c0 := hc0
            rw [this] at h0b
            simp only [Option.map_some', Option.some.injEq] at h0b
            exact ⟨c0, rfl, h0b.symm⟩
        · exact Or.inl ⟨hi, hde⟩
      | raised e s3 =>
        rw [hnew] at h
        simp only at h
        split at h
        · unfold Sheet.restoreCell at h
          split at h <;> cases h
        · cases h
      | ub => rw [hnew] at h; cases h
      | diverge => rw [hnew] at h; cases h
    · cases h

/-! ## The dependent relation of a reachable sheet -/

theorem transGen_first {α : Type} {R : α → α → Prop} {a b : α}
    (h : Relation.TransGen R a b) : ∃ x, R a x := by
  induction h with
  | single hab => exact ⟨_, hab⟩
  | tail _ _ ih => exact ih

/-- A chain of reverse edges that ends at a stored cell is a chain of forward
references read backwards. -/
theorem depEdge_reverse {s : Sheet} (hh : s.Heap []) {a b : Nat}
    (h : Relation.TransGen s.DepEdge a b) :
    ∀ pb cb, s.cellAt pb = some cb → cb.addr = b →
      ∃ pa ca, s.cellAt pa = some ca ∧ ca.addr = a ∧ Relation.TransGen s.Edge pb pa := by
  induction h with
  | single hab =>
    intro pb cb hcb hb
    obtain ⟨p, c, hc, ha, hmem⟩ := hab
    refine ⟨p, c, hc, ha, Relation.TransGen.single ?_⟩
    have := hh.depsSound p c pb cb hc hcb (by rw [hb]; exact hmem)
    simpa only [Sheet.Edge, Sheet.refsAt, hcb] using this
  | tail _ hbc ih =>
    intro pc cc hcc hc
    obtain ⟨p, cb, hcb, hb, hmem⟩ := hbc
    have hedge : s.Edge pc p := by
      have := hh.depsSound p cb pc cc hcb hcc (by rw [hc]; exact hmem)
      simpa only [Sheet.Edge, Sheet.refsAt, hcc] using this
    obtain ⟨pa, ca, hca, ha, hpath⟩ := ih p cb hcb hb
    exact ⟨pa, ca, hca, ha, Relation.TransGen.head hedge hpath⟩

theorem depEdge_acyclic {s : Sheet} (hh : s.Heap []) (hac : s.Acyclic) (a : Nat) :
    ¬ Relation.TransGen s.DepEdge a a := by
  intro h
  obtain ⟨x, p, c, hc, ha, -⟩ := transGen_first h
  obtain ⟨pa, ca, hca, haa, hpath⟩ := depEdge_reverse hh h p c hc ha
  have hp := hh.addrInj pa p ca c hca hc (haa.trans ha.symm)
  subst hp
  exact hac pa hpath

theorem deref_strip (m : CellMap) (x : Nat) :
    CellMap.deref (CellMap.strip m) x = (CellMap.deref m x).map Cell.dropCache := by
  induction m with
  | nil => rfl
  | cons e rest ih =>
    obtain ⟨k, v⟩ := e
    cases v with
    | none =>
      simp only [CellMap.strip, List.map_cons, Option.map_none', CellMap.deref] at ih ⊢
      exact ih
    | some c =>
      simp only [CellMap.strip, List.map_cons, Option.map_some', CellMap.deref] at ih ⊢
      by_cases hx : c.addr = x
      · have hx2 : c.dropCache.addr = x := hx
        simp only [hx, hx2, if_true, Option.map_some']
      · have hx2 : ¬ c.dropCache.addr = x := hx
        simp only [hx, hx2, if_false]
        exact ih

theorem deref_of_strip_eq {m m0 : CellMap} (h : CellMap.strip m0 = CellMap.strip m) {a : Nat}
    {c : Cell} (hc : CellMap.deref m0 a = some c) :
    ∃ c0, CellMap.deref m a = some c0 ∧ c0.dependent_cells_ = c.dependent_cells_ := by
  have h1 := deref_strip m0 a
  rw [h, deref_strip, hc] at h1
  cases h0 : CellMap.deref m a with
  | none => rw [h0] at h1; simp at h1
  | some c0 =>
    rw [h0] at h1
    simp only [Option.map_some', Option.some.injEq] at h1
    exact ⟨c0, rfl, (dropCache_fields h1).2.1⟩

theorem mem_addrs_of_deref {m : CellMap} {a : Nat} {c : Cell}
    (h : CellMap.deref m a = some c) : a ∈ CellMap.addrs m := by
  obtain ⟨ha, p, hp⟩ := deref_mem h
  unfold CellMap.addrs
  rw [List.mem_filterMap]
  exact ⟨(p, some c), hp, by simp only [Option.map_some', ha]⟩

theorem depEdge_of_deref {X : List Nat} {s : Sheet} (hh : s.Heap X) {a y : Nat} {c : Cell}
    (h : CellMap.deref s.sheet_ a = some c) (hy : y ∈ c.dependent_cells_) : s.DepEdge a y := by
  obtain ⟨ha, p, hp⟩ := deref_mem h
  have hf := find_of_mem_nodup hh.keysNodup hp
  exact ⟨p, c, by simp only [Sheet.cellAt, hf], ha, hy⟩

theorem invFold_total (depth : Nat) (m : CellMap) :
    ∀ (ds : List Nat) (m0 : CellMap), CellMap.strip m0 = CellMap.strip m →
      (∀ m2, CellMap.strip m2 = CellMap.strip m → ∀ y ∈ ds,
        InvalidateCache depth m2 y ≠ InvResult.diverge) →
      ds.foldl (fun acc d =>
          match acc with
          | InvResult.done m2 => InvalidateCache depth m2 d
          | r => r) (InvResult.done m0) ≠ InvResult.diverge := by
  intro ds
  induction ds with
  | nil => intro m0 _ _ h; cases h
  | cons y ds ih =>
    intro m0 hm0 hstep
    simp only [List.foldl_cons]
    cases hy : InvalidateCache depth m0 y with
    | done m2 =>
      exact ih m2 ((InvalidateCache_strip _ _ _ _ hy).trans hm0)
        (fun m3 hm3 z hz => hstep m3 hm3 z (List.mem_cons_of_mem _ hz))
    | ub =>
      rw [invFold_stuck depth ds InvResult.ub (fun m0 h0 => by cases h0)]
      intro h; cases h
    | diverge => exact absurd hy (hstep m0 hm0 y (List.mem_cons_self _ _))

/-- With an acyclic dependent relation the recursion of `InvalidateCache` is
never deeper than the number of stored cells. -/
theorem InvalidateCache_total {s : Sheet} (hh : s.Heap [])
    (hac : ∀ a, ¬ Relation.TransGen s.DepEdge a a) (depth : Nat) :
    ∀ (anc : List Nat) (m0 : CellMap) (a : Nat),
      CellMap.strip m0 = CellMap.strip s.sheet_ → anc.Nodup →
      (∀ x ∈ anc, x ∈ CellMap.addrs s.sheet_) →
      (∀ x ∈ anc, Relation.TransGen s.DepEdge x a) →
      s.sheet_.length + 1 ≤ anc.length + depth →
      InvalidateCache depth m0 a ≠ InvResult.diverge := by
  induction depth with
  | zero =>
    intro anc m0 a _ hnd hlive _ hlen
    exfalso
    have h1 : anc.length ≤ (CellMap.addrs s.sheet_).length :=
      (List.Nodup.subperm hnd hlive).length_le
    have h2 : (CellMap.addrs s.sheet_).length ≤ s.sheet_.length :=
      List.length_filterMap_le _ _
    omega
  | succ d ih =>
    intro anc m0 a hm0 hnd hlive hreach hlen
    unfold InvalidateCache
    split
    · intro h; cases h
    · rename_i c hc
      obtain ⟨c0, hc0, hdeps⟩ := deref_of_strip_eq hm0 hc
      apply invFold_total d s.sheet_ _ _ ((modify_strip m0 a).trans hm0)
      intro m2 hm2 y hy
      have hedge : s.DepEdge a y := depEdge_of_deref hh hc0 (by rw [hdeps]; exact hy)
      apply ih (a :: anc) m2 y hm2
      · refine List.nodup_cons.2 ⟨?_, hnd⟩
        intro hmem
        exact hac a (hreach a hmem)
      · intro x hx
        rcases List.mem_cons.1 hx with hx | hx
        · rw [hx]; exact mem_addrs_of_deref hc0
        · exact hlive x hx
      · intro x hx
        rcases List.mem_cons.1 hx with hx | hx
        · rw [hx]; exact Relation.TransGen.single hedge
        · exact Relation.TransGen.tail (hreach x hx) hedge
      · simp only [List.length_cons]
        omega

theorem doubleOverflow_eq : doubleOverflow = 2 ^ 1024 - 2 ^ 970 := by
  unfold doubleOverflow
  rw [← pow_mul, ← pow_mul]

theorem doubleTiny_eq : doubleTiny = 2 ^ 1022 := by
  unfold doubleTiny
  rw [← pow_mul]

set_option maxRecDepth 100000 in
set_option exponentiation.threshold 1000 in
/-- The exception of `std::stod` inside a formula: with `A1 = "1e999"` and
`B1 = "=A1"`, `GetValue` on `B1` raises `FormulaException` and sets no cache. -/
theorem stod_exception_in_formula :
    hugeRefSheet.cellAt (posOf "B1") =
      some (Cell.mk 1 (Impl.FormulaImpl "A1" (AST.Ref (posOf "A1")) none) []) ∧
    hugeRefSheet.GetValue stdEnv (posOf "B1") =
      Outcome.raised Exception.FormulaException hugeRefSheet := by
  decide

/-! ## The claims -/

/-- C3. Cycle freedom: after every sequence of `Set` and `Clear` calls from the
empty sheet (`GetValue` calls may come in between), each call returning or
raising, no position is reachable from itself through one or more forward
references; in particular a `Set` that completes from such a sheet leaves no
cycle. -/
theorem cycle_freedom (E : Env) (calls : List Call) (s : Sheet)
    (hrun : Sheet.run E Sheet.empty calls = some s) :
    (∀ p, ¬ Relation.TransGen s.Edge p p) ∧
    ∀ pos text s1, s.SetCell E pos text = Outcome.ok () s1 →
      ∀ p, ¬ Relation.TransGen s1.Edge p p := by
  have hs : Reachable E s := reachable_of_run E calls _ _ Reachable.empty hrun
  refine ⟨reachable_acyclic hs, ?_⟩
  intro pos text s1 hset
  have h1 : Reachable E s1 :=
    Reachable.step s (Call.Set pos text) s1 hs (by simp only [Sheet.call, hset, Outcome.state])
  exact reachable_acyclic h1

set_option maxRecDepth 100000 in
/-- Witness for C3: the chain `E2 -> E4 -> X9 -> M6` of the circular-reference test. -/
theorem cycle_freedom_witness :
    Sheet.run stdEnv Sheet.empty chainCalls = some chainSheet ∧
    ((∀ p, ¬ Relation.TransGen chainSheet.Edge p p) ∧
      ∀ pos text s1, chainSheet.SetCell stdEnv pos text = Outcome.ok () s1 →
        ∀ p, ¬ Relation.TransGen s1.Edge p p) :=
  ⟨by decide, cycle_freedom stdEnv chainCalls chainSheet (by decide)⟩

/-- C10. On an invalid position (a coordinate negative or at least 16384) each
of `Set`, `GetCell` and `Clear` raises the invalid-position error and leaves
the sheet as it was, on every sheet; on a valid position none of them raises
invalid-position, on every sheet that `Set`, `Clear` and `GetValue` calls
produce from the empty sheet, the parser accepting only references to valid
positions. -/
theorem invalid_position (E : Env) (hE : E.ValidRefs) (calls : List Call) (s : Sheet)
    (hrun : Sheet.run E Sheet.empty calls = some s) (pos : Position) (text : String) :
    (pos.IsValid = false → ∀ t : Sheet,
      t.SetCell E pos text = Outcome.raised Exception.InvalidPositionException t ∧
      t.GetCell pos = Outcome.raised Exception.InvalidPositionException t ∧
      t.ClearCell pos = Outcome.raised Exception.InvalidPositionException t) ∧
    (pos.IsValid = true → ∀ s1 : Sheet,
      s.SetCell E pos text ≠ Outcome.raised Exception.InvalidPositionException s1 ∧
      s.GetCell pos ≠ Outcome.raised Exception.InvalidPositionException s1 ∧
      s.ClearCell pos ≠ Outcome.raised Exception.InvalidPositionException s1) := by
  constructor
  · intro hpos t
    simp [Sheet.SetCell, Sheet.GetCell, Sheet.ClearCell, hpos]
  · intro hpos s1
    have hs : Reachable E s := reachable_of_run E calls _ _ Reachable.empty hrun
    have hv := reachable_refsValid hE hs
    refine ⟨SetCell_not_invalid hE hv hpos text s1, ?_, ClearCell_not_invalid hv hpos s1⟩
    unfold Sheet.GetCell
    simp only [hpos, Bool.not_true, Bool.false_eq_true, if_false]
    split <;> simp

set_option maxRecDepth 100000 in
/-- Witness for C10: the position `(-1, 0)` of the test `TestInvalidPosition`
on the sheet of the circular-reference test. -/
theorem invalid_position_witness :
    stdEnv.ValidRefs ∧ Sheet.run stdEnv Sheet.empty chainCalls = some chainSheet ∧
    ((Position.IsValid ⟨-1, 0⟩ = false → ∀ t : Sheet,
      t.SetCell stdEnv ⟨-1, 0⟩ "" = Outcome.raised Exception.InvalidPositionException t ∧
      t.GetCell ⟨-1, 0⟩ = Outcome.raised Exception.InvalidPositionException t ∧
      t.ClearCell ⟨-1, 0⟩ = Outcome.raised Exception.InvalidPositionException t) ∧
    (Position.IsValid ⟨-1, 0⟩ = true → ∀ s1 : Sheet,
      chainSheet.SetCell stdEnv ⟨-1, 0⟩ "" ≠
        Outcome.raised Exception.InvalidPositionException s1 ∧
      chainSheet.GetCell ⟨-1, 0⟩ ≠ Outcome.raised Exception.InvalidPositionException s1 ∧
      chainSheet.ClearCell ⟨-1, 0⟩ ≠ Outcome.raised Exception.InvalidPositionException s1)) :=
  ⟨stdEnv_validRefs, by decide,
    invalid_position stdEnv stdEnv_validRefs chainCalls chainSheet (by decide) ⟨-1, 0⟩ ""⟩

/-- C5. If `pos` holds a cell and `Set(pos, text)` raises the
circular-dependency error, then afterwards `GetCell(pos)` is non-null and its
`GetText()` is the text the cell returned before the call. Stated for the
sheets that `Set`, `Clear` and `GetValue` calls produce from the empty sheet,
with a printer whose output for the old formula parses back to that formula. -/
theorem rejected_set_keeps_text (E : Env) (calls : List Call) (s : Sheet)
    (hrun : Sheet.run E Sheet.empty calls = some s) (pos : Position) (text : String)
    (old : Cell) (s1 : Sheet)
    (hold : s.GetCell pos = Outcome.ok (some old) s)
    (hrt : old.impl_.RoundTrips E)
    (hraise : s.SetCell E pos text =
      Outcome.raised Exception.CircularDependencyException s1) :
    ∃ c, s1.GetCell pos = Outcome.ok (some c) s1 ∧ c.GetText E = old.GetText E := by
  have hs : Reachable E s := reachable_of_run E calls _ _ Reachable.empty hrun
  obtain ⟨hv, hc⟩ := GetCell_some hold
  obtain ⟨c, hc1, ht⟩ :=
    SetCell_circular_pos (reachable_acyclic hs) (reachable_classified hs) hc hrt hraise
  exact ⟨c, GetCell_of_cellAt hv hc1, ht⟩

set_option maxRecDepth 100000 in
/-- Witness for C5: scenario 4 of the specification, the rejected
`Set(M6, "=E2")` leaves the text `Ready` at `M6`. -/
theorem rejected_set_keeps_text_witness :
    Sheet.run stdEnv Sheet.empty chainCalls = some chainSheet ∧
    chainSheet.GetCell (posOf "M6") =
      Outcome.ok (some { addr := 6, impl_ := Impl.TextImpl "Ready", dependent_cells_ := [] })
        chainSheet ∧
    chainSheet.SetCell stdEnv (posOf "M6") "=E2" =
      Outcome.raised Exception.CircularDependencyException chainRejected ∧
    ∃ c, chainRejected.GetCell (posOf "M6") = Outcome.ok (some c) chainRejected ∧
      c.GetText stdEnv = "Ready" :=
  ⟨by decide, by decide, by decide,
    rejected_set_keeps_text stdEnv chainCalls chainSheet (by decide) (posOf "M6") "=E2"
      { addr := 6, impl_ := Impl.TextImpl "Ready", dependent_cells_ := [] } chainRejected
      (by decide) (fun _ _ _ h => by cases h) (by decide)⟩

set_option maxRecDepth 100000 in
/-- C4, counterexample. On the empty sheet `Set(B1, "=A1+B1")` is rejected with
the circular-dependency error, and `GetCell(A1)`, null before the call, returns
an `Empty` cell after it: the set of positions with a cell has changed. -/
theorem rejected_set_leaves_placeholder :
    Sheet.empty.SetCell stdEnv (posOf "B1") "=A1+B1" =
      Outcome.raised Exception.CircularDependencyException selfRefRejected ∧
    Sheet.empty.GetCell (posOf "A1") = Outcome.ok none Sheet.empty ∧
    selfRefRejected.GetCell (posOf "A1") =
      Outcome.ok (some { addr := 1, impl_ := Impl.EmptyImpl, dependent_cells_ := [] })
        selfRefRejected := by
  decide

/-- C4, amended. A `Set(pos, text)` rejected with the circular-dependency error
changes no text and removes no cell: the text at every position is as before;
a cell at a position other than `pos` is still there with the same address,
implementation and dependent set, up to its cache; a cell at `pos` is replaced
by one with the same text; a position without a cell has none or an `Empty`
placeholder. Stated for the sheets that `Set`, `Clear` and `GetValue` calls
produce from the empty sheet, with a printer whose output for the formula at
`pos` parses back to that formula. -/
theorem rejected_set_frame (E : Env) (calls : List Call) (s : Sheet)
    (hrun : Sheet.run E Sheet.empty calls = some s) (pos : Position) (text : String)
    (s1 : Sheet)
    (hrt : ∀ old, s.cellAt pos = some old → old.impl_.RoundTrips E)
    (hraise : s.SetCell E pos text =
      Outcome.raised Exception.CircularDependencyException s1) :
    (∀ q, s1.textAt E q = s.textAt E q) ∧
    (∀ q c, q ≠ pos → s.cellAt q = some c →
      ∃ c1, s1.cellAt q = some c1 ∧ c1.dropCache = c.dropCache) ∧
    (∀ c, s.cellAt pos = some c →
      ∃ c1, s1.cellAt pos = some c1 ∧ c1.GetText E = c.GetText E) ∧
    (∀ q, s.cellAt q = none →
      s1.cellAt q = none ∨
      ∃ a, s1.cellAt q = some { addr := a, impl_ := Impl.EmptyImpl, dependent_cells_ := [] }) := by
  have hs : Reachable E s := reachable_of_run E calls _ _ Reachable.empty hrun
  obtain ⟨hkeep, hnone⟩ := SetCell_circular_keeps hraise
  have hpos : ∀ c, s.cellAt pos = some c →
      ∃ c1, s1.cellAt pos = some c1 ∧ c1.GetText E = c.GetText E := fun c hc =>
    SetCell_circular_pos (reachable_acyclic hs) (reachable_classified hs) hc (hrt c hc) hraise
  refine ⟨?_, fun q c hne hc => (hkeep q hne).1 c hc, hpos, ?_⟩
  · intro q
    by_cases hq : q = pos
    · subst hq
      cases hc : s.cellAt q with
      | some c =>
        obtain ⟨c1, hc1, ht⟩ := hpos c hc
        simp only [Sheet.textAt, hc, hc1, ht]
      | none => simp only [Sheet.textAt, hc, hnone hc]
    · exact keepsAt_textAt E (hkeep q hq)
  · intro q hc
    by_cases hq : q = pos
    · subst hq
      exact Or.inl (hnone hc)
    · exact (hkeep q hq).2 hc

set_option maxRecDepth 100000 in
/-- Witness for C4: the rejected `Set(M6, "=E2")` of the circular-reference test. -/
theorem rejected_set_frame_witness :
    Sheet.run stdEnv Sheet.empty chainCalls = some chainSheet ∧
    chainSheet.SetCell stdEnv (posOf "M6") "=E2" =
      Outcome.raised Exception.CircularDependencyException chainRejected ∧
    (∀ q, chainRejected.textAt stdEnv q = chainSheet.textAt stdEnv q) :=
  ⟨by decide, by decide,
    (rejected_set_frame stdEnv chainCalls chainSheet (by decide) (posOf "M6") "=E2"
      chainRejected
      (fun old hold => by
        have h6 : chainSheet.cellAt (posOf "M6") =
            some { addr := 6, impl_ := Impl.TextImpl "Ready", dependent_cells_ := [] } := by
          decide
        rw [h6] at hold
        cases hold
        intro _ _ _ h
        cases h)
      (by decide)).1⟩

set_option maxRecDepth 100000 in
/-- C2, failing input. After `A1 = "=B1"`, `A1 = "2"` the dependent set of the
cell at `B1` still holds the address of the destroyed first cell of `A1`.
`Set(B1, "=B1")` is a formula that references its own position, yet the call
does not raise: `InvalidateCache` on the old cell of `B1` goes through the
dangling pointer first. -/
theorem set_self_reference_dangling :
    Sheet.run stdEnv Sheet.empty
      [Call.Set (posOf "A1") "=B1", Call.Set (posOf "A1") "2"] = some danglingSheet ∧
    (danglingSheet.cellAt (posOf "B1")).map Cell.GetDependentCells = some [0] ∧
    CellMap.deref danglingSheet.sheet_ 0 = none ∧
    (classify stdEnv "=B1").toOption =
      some (Impl.FormulaImpl "B1" (AST.Ref (posOf "B1")) none) ∧
    posOf "B1" ∈ (AST.Ref (posOf "B1")).GetReferencedCells ∧
    danglingSheet.SetCell stdEnv (posOf "B1") "=B1" = Outcome.ub := by
  decide

set_option maxRecDepth 100000 in
/-- C6, failing input. After `A1 = "1"`, `B1 = "=A1"` the cell at `A1` has the
cell of `B1` as its dependent. The rejected `Set(A1, "=B1")` stores a cell
with the old text at `A1` whose dependent set is empty. -/
theorem rejected_set_drops_dependents :
    Sheet.run stdEnv Sheet.empty
      [Call.Set (posOf "A1") "1", Call.Set (posOf "B1") "=A1"] = some depSheet ∧
    depSheet.SetCell stdEnv (posOf "A1") "=B1" =
      Outcome.raised Exception.CircularDependencyException depRejected ∧
    (depSheet.cellAt (posOf "A1")).map Cell.GetDependentCells = some [1] ∧
    (depRejected.cellAt (posOf "A1")).map Cell.GetDependentCells = some [] ∧
    (depRejected.cellAt (posOf "A1")).map (Cell.GetText stdEnv) = some "1" := by
  decide

set_option maxRecDepth 100000 in
/-- C7, failing input. After `A1 = "1"`, `A1 = "=B1"` the cell at `A1`
references `B1`, but the dependent set of the cell at `B1` is empty; and after
`A1 = "=B1"`, `A1 = "2"` the cell at `A1` references nothing, but the dependent
set of the cell at `B1` still holds the address of the destroyed cell. -/
theorem replaced_cell_edges_not_updated :
    Sheet.run stdEnv Sheet.empty
      [Call.Set (posOf "A1") "1", Call.Set (posOf "A1") "=B1"] = some relinkSheet ∧
    (relinkSheet.cellAt (posOf "A1")).map Cell.GetReferencedCells = some [posOf "B1"] ∧
    (relinkSheet.cellAt (posOf "A1")).map Cell.addr = some 1 ∧
    (relinkSheet.cellAt (posOf "B1")).map Cell.GetDependentCells = some [] ∧
    Sheet.run stdEnv Sheet.empty
      [Call.Set (posOf "A1") "=B1", Call.Set (posOf "A1") "2"] = some danglingSheet ∧
    (danglingSheet.cellAt (posOf "A1")).map Cell.GetReferencedCells = some [] ∧
    (danglingSheet.cellAt (posOf "A1")).map Cell.addr = some 2 ∧
    (danglingSheet.cellAt (posOf "B1")).map Cell.GetDependentCells = some [0] := by
  decide

set_option maxRecDepth 100000 in
/-- C8, failing input. After `A1 = "x"` the call `Set(A1, "=X0")` raises the
formula-syntax error and leaves a null pointer mapped at `A1`;
`GetPrintableSize` then dereferences it. -/
theorem syntax_error_leaves_null :
    Sheet.run stdEnv Sheet.empty [Call.Set (posOf "A1") "x"] = some textSheet ∧
    textSheet.SetCell stdEnv (posOf "A1") "=X0" =
      Outcome.raised Exception.FormulaException nullSheet ∧
    CellMap.find nullSheet.sheet_ (posOf "A1") = some none ∧
    nullSheet.GetPrintableSize stdEnv = none := by
  decide

set_option maxRecDepth 100000 in
/-- C9, failing input. After `A1 = "x"` the cell at `A1` has the text `x`; the
call `Set(A1, "=X0")` raises the formula-syntax error, and afterwards
`GetCell(A1)` is null. -/
theorem syntax_error_loses_cell :
    textSheet.GetCell (posOf "A1") =
      Outcome.ok (some { addr := 0, impl_ := Impl.TextImpl "x", dependent_cells_ := [] })
        textSheet ∧
    textSheet.SetCell stdEnv (posOf "A1") "=X0" =
      Outcome.raised Exception.FormulaException nullSheet ∧
    nullSheet.GetCell (posOf "A1") = Outcome.ok none nullSheet := by
  decide

set_option maxRecDepth 100000 in
/-- C1, failing input. After `A2 = "5"`, `A2 = "=B1"`, `GetValue(A2)` (which
caches 0, `B1` being empty) and `B1 = "7"`, the formula cell at `A2` still
returns the cached 0 from `GetValue`, while evaluating its formula over the
sheet gives 7. -/
theorem cached_value_is_stale :
    Sheet.run stdEnv Sheet.empty staleCalls = some staleSheet ∧
    (staleSheet.cellAt (posOf "A2")).map Cell.impl_ =
      some (Impl.FormulaImpl "B1" (AST.Ref (posOf "B1")) (some (Value.number 0))) ∧
    (staleSheet.cellAt (posOf "B1")).map Cell.impl_ = some (Impl.TextImpl "7") ∧
    staleSheet.GetValue stdEnv (posOf "A2") =
      Outcome.ok (some (Value.number 0)) staleSheet ∧
    (staleSheet.Evaluate stdEnv (AST.Ref (posOf "B1"))).map Prod.fst =
      some (some (Value.number 7)) := by
  decide

set_option maxRecDepth 100000 in
/-- C11, failing input. After `A1 = "=B1"`, `A1 = "2"` the dependent set of the
cell at `B1` holds the address of the destroyed first cell of `A1`. The texts
`hello`, `=` and `'x` are not formulas, yet `Set(B1, ...)` with each of them
does not return: `InvalidateCache` on the placeholder at `B1` goes through the
dangling pointer. -/
theorem plain_text_set_dangling :
    Sheet.run stdEnv Sheet.empty
      [Call.Set (posOf "A1") "=B1", Call.Set (posOf "A1") "2"] = some danglingSheet ∧
    (posOf "B1").IsValid = true ∧
    (danglingSheet.cellAt (posOf "B1")).map (Cell.GetText stdEnv) = some "" ∧
    (danglingSheet.cellAt (posOf "B1")).map Cell.GetDependentCells = some [0] ∧
    CellMap.deref danglingSheet.sheet_ 0 = none ∧
    (classify stdEnv "hello").toOption = some (Impl.TextImpl "hello") ∧
    danglingSheet.SetCell stdEnv (posOf "B1") "hello" = Outcome.ub ∧
    danglingSheet.SetCell stdEnv (posOf "B1") "=" = Outcome.ub ∧
    danglingSheet.SetCell stdEnv (posOf "B1") "'x" = Outcome.ub := by
  decide

/-- C13. Escape marker: for every text `t` whose first character is the
apostrophe, the constructor builds a Text cell holding `t`, whose `GetText` is
`t` and whose `GetValue` is the text `t` without its first character; and after
every `Set(pos, t)` that completes, `GetCell(pos)` is a cell with the text `t`
and the value `Text` of `t` without its first character. -/
theorem escape_marker (E : Env) (t : String) (rest : List Char)
    (ht : t.data = '\'' :: rest) :
    (∀ (s : Sheet) (pos : Position),
      Cell.new E t s pos =
        Outcome.ok { addr := s.next, impl_ := Impl.TextImpl t, dependent_cells_ := [] }
          { sheet_ := s.sheet_, next := s.next + 1 }) ∧
    (Impl.TextImpl t).GetText E = t ∧
    TextImpl.GetValue E t = some (Value.text (String.mk rest)) ∧
    ∀ (s : Sheet) (pos : Position) (s1 : Sheet), s.SetCell E pos t = Outcome.ok () s1 →
      ∃ c, s1.GetCell pos = Outcome.ok (some c) s1 ∧ c.GetText E = t ∧
        s1.GetValue E pos = Outcome.ok (some (Value.text (String.mk rest))) s1 := by
  have hcl := classify_escaped E ht
  have hval : TextImpl.GetValue E t = some (Value.text (String.mk rest)) := by
    unfold TextImpl.GetValue
    rw [ht]
    have hd : Char.isDigit '\'' = false := by decide
    simp [hd]
  have hget : ∀ (s1 : Sheet) (pos : Position) (c : Cell), pos.IsValid = true →
      s1.cellAt pos = some c → c.impl_ = Impl.TextImpl t →
      s1.GetValue E pos = Outcome.ok (some (Value.text (String.mk rest))) s1 := by
    intro s1 pos c hv hc hi
    unfold Sheet.GetValue
    simp only [hv, Bool.not_true, Bool.false_eq_true, if_false, find_of_cellAt hc, hi, hval]
  refine ⟨?_, rfl, hval, ?_⟩
  · intro s pos
    unfold Cell.new
    rw [hcl]
  · intro s pos s1 h
    obtain ⟨hv, h1 | ⟨-, c, hc, hcl2, -⟩⟩ := SetCell_ok h
    · obtain ⟨old, hold, htext, hs⟩ := h1
      subst hs
      refine ⟨old, GetCell_of_cellAt hv hold, htext, hget s1 pos old hv hold ?_⟩
      unfold Cell.GetText at htext
      cases hi : old.impl_ with
      | EmptyImpl =>
        rw [hi] at htext
        simp only [Impl.GetText] at htext
        rw [← htext] at ht
        cases ht
      | TextImpl t2 =>
        rw [hi] at htext
        simp only [Impl.GetText] at htext
        rw [htext]
      | FormulaImpl t2 f ch =>
        rw [hi] at htext
        simp only [Impl.GetText] at htext
        rw [← htext] at ht
        simp only [String.data_append] at ht
        cases ht
    · rw [hcl] at hcl2
      have hi : c.impl_ = Impl.TextImpl t := (Except.ok.inj hcl2).symm
      exact ⟨c, GetCell_of_cellAt hv hc, by rw [Cell.GetText, hi]; rfl, hget s1 pos c hv hc hi⟩

set_option maxRecDepth 100000 in
/-- Witness for C13: the texts `'=escaped` and `'12` set at `A1` of the empty
sheet. -/
theorem escape_marker_witness :
    ("'=escaped" : String).data = '\'' :: "=escaped".data ∧
    TextImpl.GetValue stdEnv "'=escaped" = some (Value.text "=escaped") ∧
    TextImpl.GetValue stdEnv "'12" = some (Value.text "12") ∧
    ∃ s1, Sheet.empty.SetCell stdEnv (posOf "A1") "'=escaped" = Outcome.ok () s1 ∧
      ∃ c, s1.GetCell (posOf "A1") = Outcome.ok (some c) s1 ∧
        c.GetText stdEnv = "'=escaped" ∧
        s1.GetValue stdEnv (posOf "A1") = Outcome.ok (some (Value.text "=escaped")) s1 :=
  ⟨by decide,
   (escape_marker stdEnv "'=escaped" "=escaped".data (by decide)).2.2.1,
   (escape_marker stdEnv "'12" "12".data (by decide)).2.2.1,
   ((Sheet.empty.SetCell stdEnv (posOf "A1") "'=escaped").state).getD Sheet.empty,
   by decide,
   (escape_marker stdEnv "'=escaped" "=escaped".data (by decide)).2.2.2 Sheet.empty
     (posOf "A1") _ (by decide)⟩

set_option maxRecDepth 100000 in
/-- C14, counterexample. After `A1 = "=1"` and `GetValue(A1)` the cell at `A1`
has the text `=1` and the cached value 1. The cell built from the argument
`= 1` has the same text `=1`, yet `Set(A1, "= 1")` does not return early: it
stores a new cell (another address, the expression text of the argument) whose
cache is empty. -/
theorem same_canonical_text_replaces :
    Sheet.run stdEnv Sheet.empty
      [Call.Set (posOf "A1") "=1", Call.GetValue (posOf "A1")] = some cachedSheet ∧
    (cachedSheet.cellAt (posOf "A1")).map (Cell.GetText stdEnv) = some "=1" ∧
    (classify stdEnv "= 1").toOption.map (Impl.GetText stdEnv) = some "=1" ∧
    cachedSheet.SetCell stdEnv (posOf "A1") "= 1" = Outcome.ok () reparsedSheet ∧
    cachedSheet.cellAt (posOf "A1") =
      some { addr := 0, impl_ := Impl.FormulaImpl "1" (AST.Num 1) (some (Value.number 1)),
             dependent_cells_ := [] } ∧
    reparsedSheet.cellAt (posOf "A1") =
      some { addr := 1, impl_ := Impl.FormulaImpl " 1" (AST.Num 1) none,
             dependent_cells_ := [] } := by
  decide

/-- C14, amended. For every sheet and valid `pos` holding a cell, if the text
passed to `Set(pos, text)` is identical to the text `GetText()` of the current
cell, the call returns without side effects: the sheet after the call is the
sheet before it (mappings, texts, dependent sets and caches of all cells). -/
theorem identical_text_no_effect (E : Env) (s : Sheet) (pos : Position) (text : String)
    (old : Cell) (hold : s.GetCell pos = Outcome.ok (some old) s)
    (heq : old.GetText E = text) :
    s.SetCell E pos text = Outcome.ok () s := by
  obtain ⟨hv, hc⟩ := GetCell_some hold
  unfold Sheet.SetCell
  simp only [hv, Bool.not_true, Bool.false_eq_true, if_false, find_of_cellAt hc, heq, if_true]

set_option maxRecDepth 100000 in
/-- Witness for C14: `Set(A1, "=1")` on the sheet that holds `=1` with a cached
value at `A1`. -/
theorem identical_text_no_effect_witness :
    cachedSheet.GetCell (posOf "A1") =
      Outcome.ok (some (Cell.mk 0 (Impl.FormulaImpl "1" (AST.Num 1) (some (Value.number 1))) []))
        cachedSheet ∧
    cachedSheet.SetCell stdEnv (posOf "A1") "=1" = Outcome.ok () cachedSheet :=
  ⟨by decide,
   identical_text_no_effect stdEnv cachedSheet (posOf "A1") "=1"
     (Cell.mk 0 (Impl.FormulaImpl "1" (AST.Num 1) (some (Value.number 1))) [])
     (by decide) (by decide)⟩

/-- C15. Replacement preserves dependents: whenever `Set(pos, text)` completes
on a sheet that holds a cell at `pos`, the cell at `pos` afterwards has the
dependent set the old cell had before the call; and when `Clear(pos)` completes
and `Set(pos, text)` completes after it, the new cell has an empty dependent
set. -/
theorem replacement_keeps_dependents (E : Env) (s : Sheet) (pos : Position) (text : String) :
    (∀ (old : Cell) (s1 : Sheet), s.GetCell pos = Outcome.ok (some old) s →
      s.SetCell E pos text = Outcome.ok () s1 →
      ∃ c, s1.GetCell pos = Outcome.ok (some c) s1 ∧
        c.GetDependentCells = old.GetDependentCells) ∧
    (∀ (sc s2 : Sheet), s.ClearCell pos = Outcome.ok () sc →
      sc.SetCell E pos text = Outcome.ok () s2 →
      ∃ c, s2.GetCell pos = Outcome.ok (some c) s2 ∧ c.GetDependentCells = []) := by
  constructor
  · intro old s1 hold hset
    obtain ⟨-, hc⟩ := GetCell_some hold
    obtain ⟨hv, h1 | ⟨-, c, hc1, -, -, hdeps, -⟩⟩ := SetCell_ok hset
    · obtain ⟨old2, hold2, -, hs⟩ := h1
      subst hs
      rw [hc] at hold2
      cases hold2
      exact ⟨old, hold, rfl⟩
    · refine ⟨c, GetCell_of_cellAt hv hc1, ?_⟩
      rw [hc] at hdeps
      simpa only [Option.map_some', Option.getD_some] using hdeps
  · intro sc s2 hclear hset
    have hnone : sc.cellAt pos = none := by
      simp only [Sheet.cellAt, ClearCell_ok_find hclear]
    obtain ⟨hv, h1 | ⟨-, c, hc1, -, -, hdeps, -⟩⟩ := SetCell_ok hset
    · obtain ⟨old2, hold2, -, -⟩ := h1
      rw [hnone] at hold2
      cases hold2
    · refine ⟨c, GetCell_of_cellAt hv hc1, ?_⟩
      rw [hnone] at hdeps
      simpa only [Option.map_none', Option.getD_none] using hdeps

set_option maxRecDepth 100000 in
/-- Witness for C15: after `A1 = "1"`, `B1 = "=A1"` the cell at `A1` has the cell
of `B1` as its dependent; `Set(A1, "2")` keeps that set, `Clear(A1)` followed by
`Set(A1, "2")` leaves it empty. -/
theorem replacement_keeps_dependents_witness :
    (depSheet.cellAt (posOf "A1")).map Cell.GetDependentCells = some [1] ∧
    (∃ s1, depSheet.SetCell stdEnv (posOf "A1") "2" = Outcome.ok () s1 ∧
      ∃ c, s1.GetCell (posOf "A1") = Outcome.ok (some c) s1 ∧
        c.GetDependentCells =
          (Cell.mk 0 (Impl.TextImpl "1") [1]).GetDependentCells) ∧
    (∃ sc s2, depSheet.ClearCell (posOf "A1") = Outcome.ok () sc ∧
      sc.SetCell stdEnv (posOf "A1") "2" = Outcome.ok () s2 ∧
      ∃ c, s2.GetCell (posOf "A1") = Outcome.ok (some c) s2 ∧ c.GetDependentCells = []) :=
  ⟨by decide,
   ⟨((depSheet.SetCell stdEnv (posOf "A1") "2").state).getD Sheet.empty, by decide,
    (replacement_keeps_dependents stdEnv depSheet (posOf "A1") "2").1
      (Cell.mk 0 (Impl.TextImpl "1") [1])
      (((depSheet.SetCell stdEnv (posOf "A1") "2").state).getD Sheet.empty)
      (by decide) (by decide)⟩,
   ⟨((depSheet.ClearCell (posOf "A1")).state).getD Sheet.empty,
    ((((depSheet.ClearCell (posOf "A1")).state).getD Sheet.empty).SetCell stdEnv
      (posOf "A1") "2").state.getD Sheet.empty,
    by decide, by decide,
    (replacement_keeps_dependents stdEnv depSheet (posOf "A1") "2").2
      (((depSheet.ClearCell (posOf "A1")).state).getD Sheet.empty)
      (((((depSheet.ClearCell (posOf "A1")).state).getD Sheet.empty).SetCell stdEnv
        (posOf "A1") "2").state.getD Sheet.empty)
      (by decide) (by decide)⟩⟩

set_option maxRecDepth 100000 in
/-- C20, counterexample. After `A1 = "=B1"` and `Clear(B1)` the formula cell at
`A1` references `B1` and nothing is mapped at `B1`. `Set(A1, "=B1")` completes
(the text is the text already stored, so no cell is built and no cycle check
runs) and `GetCell(B1)` is still null. -/
theorem unchanged_formula_reference_stays_null :
    Sheet.run stdEnv Sheet.empty
      [Call.Set (posOf "A1") "=B1", Call.Clear (posOf "B1")] = some clearedRefSheet ∧
    clearedRefSheet.SetCell stdEnv (posOf "A1") "=B1" = Outcome.ok () clearedRefSheet ∧
    (clearedRefSheet.cellAt (posOf "A1")).map Cell.GetReferencedCells =
      some [posOf "B1"] ∧
    clearedRefSheet.GetCell (posOf "B1") = Outcome.ok none clearedRefSheet := by
  decide

/-- C20, amended. After every `Set(pos, text)` that completes and builds a new
cell (the text differs from the text of the cell stored at `pos`, or no cell is
stored there), `GetCell(r)` is a cell for every position `r` in the new cell's
`GetReferencedCells()`; a referenced position where `GetCell` was null before
the call holds an Empty cell with empty text and no references. -/
theorem new_cell_references_materialized (E : Env) (s : Sheet) (pos : Position)
    (text : String) (s1 : Sheet) (hset : s.SetCell E pos text = Outcome.ok () s1)
    (hnew : ∀ old, s.GetCell pos = Outcome.ok (some old) s → old.GetText E ≠ text) :
    ∃ c, s1.GetCell pos = Outcome.ok (some c) s1 ∧
      ∀ r ∈ c.GetReferencedCells,
        ∃ cr, s1.GetCell r = Outcome.ok (some cr) s1 ∧
          (s.GetCell r = Outcome.ok none s →
            cr.type_ = CellType.EMPTY ∧ cr.GetText E = "" ∧ cr.GetReferencedCells = []) := by
  obtain ⟨hv, h1 | ⟨-, c, hc1, -, -, -, hrefs⟩⟩ := SetCell_ok hset
  · obtain ⟨old, hold, htext, -⟩ := h1
    exact absurd htext (hnew old (GetCell_of_cellAt hv hold))
  · refine ⟨c, GetCell_of_cellAt hv hc1, ?_⟩
    intro r hr
    obtain ⟨hrv, cr, hcr, hempty⟩ := hrefs r hr
    refine ⟨cr, GetCell_of_cellAt hrv hcr, ?_⟩
    intro hnull
    have hi := hempty (cellAt_of_GetCell_none hnull)
    simp only [Cell.type_, Cell.GetText, Cell.GetReferencedCells, hi, Impl.GetText, and_self]

set_option maxRecDepth 100000 in
/-- Witness for C20: `Set(A1, "=B1+C2")` on the sheet that holds `7` at `C2`. -/
theorem new_cell_references_materialized_witness :
    sevenSheet.SetCell stdEnv (posOf "A1") "=B1+C2" = Outcome.ok () sumSheet ∧
    (sumSheet.cellAt (posOf "A1")).map Cell.GetReferencedCells =
      some [posOf "B1", posOf "C2"] ∧
    sevenSheet.GetCell (posOf "B1") = Outcome.ok none sevenSheet ∧
    ∃ c, sumSheet.GetCell (posOf "A1") = Outcome.ok (some c) sumSheet ∧
      ∀ r ∈ c.GetReferencedCells,
        ∃ cr, sumSheet.GetCell r = Outcome.ok (some cr) sumSheet ∧
          (sevenSheet.GetCell r = Outcome.ok none sevenSheet →
            cr.type_ = CellType.EMPTY ∧ cr.GetText stdEnv = "" ∧
              cr.GetReferencedCells = []) :=
  ⟨by decide, by decide, by decide,
   new_cell_references_materialized stdEnv sevenSheet (posOf "A1") "=B1+C2" sumSheet
     (by decide)
     (by
       intro old h
       have hnone : sevenSheet.GetCell (posOf "A1") = Outcome.ok none sevenSheet := by decide
       rw [hnone] at h
       cases h)⟩

set_option maxRecDepth 100000 in
/-- C19, failing input. After `A1 = "x"` the call `Set(A1, "=X0")` raises the
formula-syntax error and leaves a null pointer mapped at the valid position
`A1`; `Clear(A1)` then calls `InvalidateCache` through that null pointer. And
after `A1 = "=B1"`, `A1 = "2"` the call `Clear(B1)` goes through the dangling
pointer in the dependent set of the cell at `B1`. -/
theorem clear_dereferences_null :
    textSheet.SetCell stdEnv (posOf "A1") "=X0" =
      Outcome.raised Exception.FormulaException nullSheet ∧
    (posOf "A1").IsValid = true ∧
    nullSheet.count (posOf "A1") = true ∧
    CellMap.find nullSheet.sheet_ (posOf "A1") = some none ∧
    nullSheet.ClearCell (posOf "A1") = Outcome.ub ∧
    (danglingSheet.cellAt (posOf "B1")).map Cell.GetDependentCells = some [0] ∧
    CellMap.deref danglingSheet.sheet_ 0 = none ∧
    danglingSheet.ClearCell (posOf "B1") = Outcome.ub := by
  decide

set_option maxRecDepth 100000 in
/-- C17, failing input. After `A1 = "x"`, `B2 = "y"` the printable size is
(2, 2). The call `Set(A1, "=X0")` raises the formula-syntax error and leaves a
null pointer mapped at `A1`; the only cell with non-empty text is then the one
at `B2`, but `GetPrintableSize` dereferences the null pointer instead of
returning (2, 2). -/
theorem printable_size_dereferences_null :
    Sheet.run stdEnv Sheet.empty
      [Call.Set (posOf "A1") "x", Call.Set (posOf "B2") "y"] = some twoTextSheet ∧
    twoTextSheet.GetPrintableSize stdEnv = some { rows := 2, cols := 2 } ∧
    twoTextSheet.SetCell stdEnv (posOf "A1") "=X0" =
      Outcome.raised Exception.FormulaException holeSheet ∧
    holeSheet.sheet_ =
      [(posOf "A1", none), (posOf "B2", some (Cell.mk 1 (Impl.TextImpl "y") []))] ∧
    holeSheet.GetPrintableSize stdEnv = none := by
  decide

/-- C22. Each formula error is written as `#`, the text `ToString()` gives for
its category, and `!`: `#ARITHM!` for Arithmetic, `#REF!` for Ref and `#VALUE!`
for Value, three different texts. -/
theorem formula_error_rendering :
    (∀ fe : FormulaError, fe.print = "#" ++ fe.ToString ++ "!") ∧
    (FormulaError.mk Category.Arithmetic).print = "#ARITHM!" ∧
    (FormulaError.mk Category.Ref).print = "#REF!" ∧
    (FormulaError.mk Category.Value).print = "#VALUE!" ∧
    (FormulaError.mk Category.Arithmetic).print ≠ (FormulaError.mk Category.Ref).print ∧
    (FormulaError.mk Category.Arithmetic).print ≠ (FormulaError.mk Category.Value).print ∧
    (FormulaError.mk Category.Ref).print ≠ (FormulaError.mk Category.Value).print :=
  ⟨fun _ => rfl, by decide, by decide, by decide, by decide, by decide, by decide⟩

/-- C23. The breadth-first cycle check ends on every sheet, every position and
every starting queue, cyclic forward references included: with `cycleFuel`
iterations or any larger bound it gives the same result, which is the normal
end with an empty queue, the circular-dependency error, or the
invalid-position error of `GetCell` (only when some queued or stored reference
is not a valid position); never an unbounded run. The constructor of `Cell`
therefore never diverges. -/
theorem cycle_check_terminates (pos : Position) (s : Sheet) (refs : List Position)
    (fuel : Nat) (hfuel : cycleFuel s refs ≤ fuel) :
    cycleLoop pos fuel s refs [] = cycleLoop pos (cycleFuel s refs) s refs [] ∧
    ((∃ s1, cycleLoop pos fuel s refs [] = Outcome.ok () s1) ∨
     (∃ s1, cycleLoop pos fuel s refs [] =
        Outcome.raised Exception.CircularDependencyException s1) ∨
     (∃ s1, cycleLoop pos fuel s refs [] =
        Outcome.raised Exception.InvalidPositionException s1 ∧
        ¬ ((∀ x ∈ refs, x.IsValid = true) ∧ s.RefsValid))) ∧
    (∀ (E : Env) (text : String), Cell.new E text s pos ≠ Outcome.diverge) := by
  obtain ⟨k, hk⟩ := Nat.exists_eq_add_of_le hfuel
  have heq : cycleLoop pos fuel s refs [] = cycleLoop pos (cycleFuel s refs) s refs [] := by
    rw [hk]
    exact cycleLoop_add pos _ s refs [] (cycleLoop_total pos s refs) k
  refine ⟨heq, ?_, fun E text => Cell_new_not_diverge E text s pos⟩
  rw [heq]
  cases hloop : cycleLoop pos (cycleFuel s refs) s refs [] with
  | ok u s1 => exact Or.inl ⟨s1, rfl⟩
  | raised e s1 =>
    rcases cycleLoop_raised pos _ s refs [] e s1 hloop with he | ⟨he, hinv⟩
    · subst he
      exact Or.inr (Or.inl ⟨s1, rfl⟩)
    · subst he
      exact Or.inr (Or.inr ⟨s1, rfl, hinv⟩)
  | ub => exact absurd hloop (cycleLoop_not_ub pos _ s refs [])
  | diverge => exact absurd hloop (cycleLoop_total pos s refs)

set_option maxRecDepth 100000 in
/-- Witness for C23: on a sheet where `A1` and `B1` reference each other the
check for a cell at `C1`, started with `A1` queued twice, ends normally. -/
theorem cycle_check_terminates_witness :
    loopSheet.refsAt (posOf "A1") = [posOf "B1"] ∧
    loopSheet.refsAt (posOf "B1") = [posOf "A1"] ∧
    cycleLoop (posOf "C1") (cycleFuel loopSheet [posOf "A1", posOf "A1"] + 7) loopSheet
      [posOf "A1", posOf "A1"] [] = Outcome.ok () loopSheet ∧
    cycleLoop (posOf "C1") (cycleFuel loopSheet [posOf "A1", posOf "A1"] + 7) loopSheet
        [posOf "A1", posOf "A1"] [] =
      cycleLoop (posOf "C1") (cycleFuel loopSheet [posOf "A1", posOf "A1"]) loopSheet
        [posOf "A1", posOf "A1"] [] :=
  ⟨by decide, by decide, by decide,
   (cycle_check_terminates (posOf "C1") loopSheet [posOf "A1", posOf "A1"]
      (cycleFuel loopSheet [posOf "A1", posOf "A1"] + 7) (Nat.le_add_right _ _)).1⟩

/-- C21. Cell classification: a text that is not a formula (empty, exactly
`=`, or not starting with `=`) always builds a cell, Empty for the empty text
and Text holding the text otherwise, so `=` is stored as Text with the text
`=`; and whenever the constructor builds a cell from `t`, the cell is Empty
iff `t` is empty, Formula (parsed from `t` without its first character) iff
`t` starts with `=` and has more than one character, and Text in every other
case; an Empty or Text cell has no referenced cells and returns `t` as its
text. -/
theorem cell_classification (E : Env) (t : String) (s : Sheet) (pos : Position) :
    (NotFormula t →
      Cell.new E t s pos =
        Outcome.ok (Cell.mk s.next (if t = "" then Impl.EmptyImpl else Impl.TextImpl t) [])
          (Sheet.mk s.sheet_ (s.next + 1))) ∧
    (t = "=" → classify E t = Except.ok (Impl.TextImpl "=") ∧
      (Impl.TextImpl t).GetText E = "=") ∧
    (∀ (c : Cell) (s1 : Sheet), Cell.new E t s pos = Outcome.ok c s1 →
      (c.type_ = CellType.EMPTY ↔ t = "") ∧
      (c.type_ = CellType.FORMULA ↔ ∃ ch rest, t.data = '=' :: ch :: rest) ∧
      (c.type_ = CellType.TEXT ↔ t ≠ "" ∧ NotFormula t) ∧
      (∀ ch rest, t.data = '=' :: ch :: rest →
        ∃ f, E.ParseFormulaAST (String.mk (ch :: rest)) = some f ∧
          c.impl_ = Impl.FormulaImpl (String.mk (ch :: rest)) f none) ∧
      (c.type_ ≠ CellType.FORMULA → c.GetReferencedCells = [] ∧ c.GetText E = t)) := by
  refine ⟨?_, ?_, ?_⟩
  · intro hnf
    rcases classify_cases E t with ⟨hd, hcl⟩ | ⟨hd, hcl⟩ | ⟨ch, rest, hd, -⟩ | ⟨c, rest, hd, hc, hcl⟩
    · have ht : t = "" := (data_eq_nil_iff t).1 hd
      unfold Cell.new
      rw [hcl]
      simp only [ht, if_true]
    · have ht : t ≠ "" := fun h => by rw [h] at hd; cases hd
      unfold Cell.new
      rw [hcl]
      simp only [ht, if_false]
    · exact absurd hd (hnf ch rest)
    · have ht : t ≠ "" := fun h => by rw [h] at hd; cases hd
      unfold Cell.new
      rw [hcl]
      simp only [ht, if_false]
  · intro ht
    subst ht
    exact ⟨rfl, rfl⟩
  · intro c s1 hnew
    have hcl := (Cell_new_ok hnew).2.1
    rcases classify_cases E t with ⟨hd, hcl2⟩ | ⟨hd, hcl2⟩ | ⟨ch, rest, hd, hcl2⟩ |
      ⟨c0, rest, hd, hc, hcl2⟩
    · have hi : c.impl_ = Impl.EmptyImpl := by
        rw [hcl] at hcl2; exact Except.ok.inj hcl2
      have ht : t = "" := (data_eq_nil_iff t).1 hd
      refine ⟨?_, ?_, ?_, ?_, ?_⟩
      · simp only [Cell.type_, hi, ht]
      · simp only [Cell.type_, hi, hd]
        constructor
        · intro h; cases h
        · rintro ⟨ch, rest, h⟩; cases h
      · simp only [Cell.type_, hi]
        constructor
        · intro h; cases h
        · rintro ⟨h, -⟩; exact absurd ht h
      · intro ch rest h
        rw [hd] at h; cases h
      · intro _
        simp only [Cell.GetReferencedCells, Cell.GetText, Impl.GetText, hi, ht, and_self]
    · have hi : c.impl_ = Impl.TextImpl t := by
        rw [hcl] at hcl2; exact Except.ok.inj hcl2
      have ht : t ≠ "" := fun h => by rw [h] at hd; cases hd
      have hnf : NotFormula t := by
        intro ch rest h
        rw [hd] at h; cases h
      refine ⟨?_, ?_, ?_, ?_, ?_⟩
      · simp only [Cell.type_, hi]
        constructor
        · intro h; cases h
        · intro h; exact absurd h ht
      · simp only [Cell.type_, hi]
        constructor
        · intro h; cases h
        · rintro ⟨ch, rest, h⟩; exact absurd h (hnf ch rest)
      · simp only [Cell.type_, hi, true_iff]
        exact ⟨ht, hnf⟩
      · intro ch rest h
        exact absurd h (hnf ch rest)
      · intro _
        simp only [Cell.GetReferencedCells, Cell.GetText, Impl.GetText, hi, and_self]
    · cases hp : E.ParseFormulaAST (String.mk (ch :: rest)) with
      | none =>
        rw [hp] at hcl2
        rw [hcl] at hcl2
        cases hcl2
      | some f =>
        rw [hp] at hcl2
        have hi : c.impl_ = Impl.FormulaImpl (String.mk (ch :: rest)) f none := by
          rw [hcl] at hcl2; exact Except.ok.inj hcl2
        have ht : t ≠ "" := fun h => by rw [h] at hd; cases hd
        refine ⟨?_, ?_, ?_, ?_, ?_⟩
        · simp only [Cell.type_, hi]
          constructor
          · intro h; cases h
          · intro h; exact absurd h ht
        · simp only [Cell.type_, hi, true_iff]
          exact ⟨ch, rest, hd⟩
        · simp only [Cell.type_, hi]
          constructor
          · intro h; cases h
          · rintro ⟨-, h⟩; exact absurd hd (h ch rest)
        · intro ch2 rest2 h
          rw [hd] at h
          cases h
          exact ⟨f, hp, hi⟩
        · intro h
          simp only [Cell.type_, hi] at h
          exact absurd rfl h
    · have hi : c.impl_ = Impl.TextImpl t := by
        rw [hcl] at hcl2; exact Except.ok.inj hcl2
      have ht : t ≠ "" := fun h => by rw [h] at hd; cases hd
      have hnf : NotFormula t := by
        intro ch rest2 h
        rw [hd] at h
        exact hc (List.cons.inj h).1
      refine ⟨?_, ?_, ?_, ?_, ?_⟩
      · simp only [Cell.type_, hi]
        constructor
        · intro h; cases h
        · intro h; exact absurd h ht
      · simp only [Cell.type_, hi]
        constructor
        · intro h; cases h
        · rintro ⟨ch, rest2, h⟩; exact absurd h (hnf ch rest2)
      · simp only [Cell.type_, hi, true_iff]
        exact ⟨ht, hnf⟩
      · intro ch rest2 h
        exact absurd h (hnf ch rest2)
      · intro _
        simp only [Cell.GetReferencedCells, Cell.GetText, Impl.GetText, hi, and_self]

set_option maxRecDepth 100000 in
/-- Witness for C21: the texts `=`, the empty text, `=A1+1` and `'=x` built at
`B2` of the empty sheet. -/
theorem cell_classification_witness :
    Cell.new stdEnv "=" Sheet.empty (posOf "B2") =
      Outcome.ok (Cell.mk 0 (Impl.TextImpl "=") []) (Sheet.mk [] 1) ∧
    Cell.new stdEnv "" Sheet.empty (posOf "B2") =
      Outcome.ok (Cell.mk 0 Impl.EmptyImpl []) (Sheet.mk [] 1) ∧
    (∃ c s1, Cell.new stdEnv "=A1+1" Sheet.empty (posOf "B2") = Outcome.ok c s1 ∧
      c.type_ = CellType.FORMULA ∧ c.GetReferencedCells = [posOf "A1"] ∧
      (c.type_ = CellType.FORMULA ↔ ∃ ch rest, ("=A1+1" : String).data = '=' :: ch :: rest)) :=
  ⟨(cell_classification stdEnv "=" Sheet.empty (posOf "B2")).1
      (by intro ch rest h; cases h),
   (cell_classification stdEnv "" Sheet.empty (posOf "B2")).1
      (by intro ch rest h; cases h),
   Cell.mk 0 (Impl.FormulaImpl "A1+1"
     (AST.Binop Op.add (AST.Ref (posOf "A1")) (AST.Num 1)) none) [],
   ((Cell.new stdEnv "=A1+1" Sheet.empty (posOf "B2")).state).getD Sheet.empty,
   by decide, by decide, by decide,
   ((cell_classification stdEnv "=A1+1" Sheet.empty (posOf "B2")).2.2
      (Cell.mk 0 (Impl.FormulaImpl "A1+1"
        (AST.Binop Op.add (AST.Ref (posOf "A1")) (AST.Num 1)) none) [])
      (((Cell.new stdEnv "=A1+1" Sheet.empty (posOf "B2")).state).getD Sheet.empty)
      (by decide)).2.1⟩

set_option maxRecDepth 100000 in
/-- C25, counterexample. After `A1 = "=B1"` and `Clear(B1)` nothing is mapped at
`B1` and `GetCell(B1)` is null. `Clear(A1)` goes through the referenced cells
of the cell at `A1` with `GetRawCell`, which stores an `Empty` cell at the
unmapped `B1`: afterwards `GetCell(B1)` is a cell. -/
theorem clear_creates_referenced_cell :
    Sheet.run stdEnv Sheet.empty
      [Call.Set (posOf "A1") "=B1", Call.Clear (posOf "B1")] = some clearedRefSheet ∧
    posOf "B1" ≠ posOf "A1" ∧
    CellMap.find clearedRefSheet.sheet_ (posOf "B1") = none ∧
    clearedRefSheet.GetCell (posOf "B1") = Outcome.ok none clearedRefSheet ∧
    clearedRefSheet.ClearCell (posOf "A1") = Outcome.ok () reclearedSheet ∧
    reclearedSheet.GetCell (posOf "B1") =
      Outcome.ok (some (Cell.mk 2 Impl.EmptyImpl [])) reclearedSheet := by
  decide

/-- C25, amended. `Clear(pos)` removes no cell at another position and stores
a cell at another position only where the cleared cell references it: for
every `q` different from `pos`, a cell at `q` is still there after the call
with the same implementation up to its cache; and where `GetCell(q)` was null
it is null afterwards, unless `q` is referenced by the cell at `pos`, where it
may be an `Empty` cell. -/
theorem clear_frame (s : Sheet) (pos : Position) (s1 : Sheet)
    (h : s.ClearCell pos = Outcome.ok () s1) (q : Position) (hq : q ≠ pos) :
    (∀ c, s.cellAt q = some c →
      ∃ c1, s1.cellAt q = some c1 ∧ c1.impl_.InvalidateCache = c.impl_.InvalidateCache) ∧
    (s.cellAt q = none →
      s1.cellAt q = none ∨
      (q ∈ s.refsAt pos ∧ ∃ c1, s1.cellAt q = some c1 ∧ c1.impl_ = Impl.EmptyImpl)) := by
  have hst : (s.ClearCell pos).state = some s1 := by rw [h]; rfl
  obtain ⟨hsim, -⟩ := ClearCell_result hst
  refine ⟨(hsim q hq).1, ?_⟩
  intro hn
  by_cases hr : q ∈ s.refsAt pos
  · rcases (hsim q hq).2 hn with h1 | h1
    · exact Or.inl h1
    · exact Or.inr ⟨hr, h1⟩
  · exact Or.inl (ClearCell_unreferenced hst hq hr hn)

set_option maxRecDepth 100000 in
/-- Witness for C25: `Clear(B1)` after `A1 = "1"`, `B1 = "=A1"` keeps the cell
at `A1` and leaves `C1` without a cell. -/
theorem clear_frame_witness :
    ∃ s1, depSheet.ClearCell (posOf "B1") = Outcome.ok () s1 ∧
      ((∀ c, depSheet.cellAt (posOf "A1") = some c →
        ∃ c1, s1.cellAt (posOf "A1") = some c1 ∧
          c1.impl_.InvalidateCache = c.impl_.InvalidateCache) ∧
       (depSheet.cellAt (posOf "A1") = none →
        s1.cellAt (posOf "A1") = none ∨
        (posOf "A1" ∈ depSheet.refsAt (posOf "B1") ∧
          ∃ c1, s1.cellAt (posOf "A1") = some c1 ∧ c1.impl_ = Impl.EmptyImpl))) ∧
      s1.cellAt (posOf "A1") = some (Cell.mk 0 (Impl.TextImpl "1") []) :=
  ⟨((depSheet.ClearCell (posOf "B1")).state).getD Sheet.empty, by decide,
   clear_frame depSheet (posOf "B1")
     (((depSheet.ClearCell (posOf "B1")).state).getD Sheet.empty) (by decide)
     (posOf "A1") (by decide),
   by decide⟩

/-- C18. For every sheet that calls produce from the empty sheet and whose
printable size is `(R, C)`, `PrintTexts` writes exactly the lines of the rows
`0..R-1` in order, each line being the texts of the cells `(i, 0)..(i, C-1)`
joined by a single tab and followed by a newline, a missing cell contributing
the empty text. -/
theorem print_texts (E : Env) (calls : List Call) (s : Sheet) (R C : Int)
    (hrun : Sheet.run E Sheet.empty calls = some s)
    (hsize : s.GetPrintableSize E = some { rows := R, cols := C }) :
    s.PrintTexts E = Printed.ok (s.textLines E R.toNat C.toNat) := by
  have hs : Reachable E s := reachable_of_run E calls _ _ Reachable.empty hrun
  exact PrintTexts_spec (reachable_heap hs).keysValid hsize

set_option maxRecDepth 100000 in
/-- Witness for C18: with `A2 = "meow"` and `B2 = "=35"` the printable size is
(2, 2) and `PrintTexts` writes an empty first row and the two texts in the
second. -/
theorem print_texts_witness :
    Sheet.run stdEnv Sheet.empty
      [Call.Set (posOf "A2") "meow", Call.Set (posOf "B2") "=35"] = some meowSheet ∧
    meowSheet.GetPrintableSize stdEnv = some { rows := 2, cols := 2 } ∧
    meowSheet.PrintTexts stdEnv = Printed.ok (meowSheet.textLines stdEnv 2 2) ∧
    meowSheet.textLines stdEnv 2 2 = "\t\nmeow\t=35\n" :=
  ⟨by decide, by decide,
   print_texts stdEnv [Call.Set (posOf "A2") "meow", Call.Set (posOf "B2") "=35"]
     meowSheet 2 2 (by decide) (by decide),
   by decide⟩

/-- C26. `Set(pos, text)`, whether it completes or raises the
circular-dependency error, changes no text at another position: for every `q`
different from `pos` the text at `q` (`GetText` of its cell, empty when
`GetCell(q)` is null) is as before, a mapped `q` stays mapped and a cell at `q`
stays a cell. Hence a `Set` rejected for a cycle leaves `GetPrintableSize` and
the output of `PrintTexts` unchanged; this part is stated for the sheets that
calls produce from the empty sheet, with a printer whose output for the formula
at `pos` parses back to that formula, when `GetPrintableSize` is defined before
the call. -/
theorem set_frame (E : Env) (calls : List Call) (s : Sheet)
    (hrun : Sheet.run E Sheet.empty calls = some s) (pos : Position) (text : String)
    (s1 : Sheet)
    (hset : s.SetCell E pos text = Outcome.ok () s1 ∨
      s.SetCell E pos text = Outcome.raised Exception.CircularDependencyException s1) :
    (∀ q, q ≠ pos →
      s1.textAt E q = s.textAt E q ∧ (s.count q = true → s1.count q = true) ∧
      (∀ c, s.cellAt q = some c → ∃ c1, s1.cellAt q = some c1)) ∧
    (s.SetCell E pos text = Outcome.raised Exception.CircularDependencyException s1 →
      (∀ old, s.cellAt pos = some old → old.impl_.RoundTrips E) →
      ∀ size, s.GetPrintableSize E = some size →
        s1.GetPrintableSize E = some size ∧ s1.PrintTexts E = s.PrintTexts E) := by
  have hs : Reachable E s := reachable_of_run E calls _ _ Reachable.empty hrun
  have hst : (s.SetCell E pos text).state = some s1 := by
    rcases hset with h | h <;> rw [h] <;> rfl
  have hs1 : Reachable E s1 := Reachable.step s (Call.Set pos text) s1 hs hst
  constructor
  · intro q hq
    have hsim := (SetCell_result hst).1 q hq
    refine ⟨Sheet.SimilarAt.textAt_at E hsim, ?_, ?_⟩
    · intro hc
      have hm := (mapsKept_SetCell hst q hq).1
      simp only [Sheet.count, Option.isSome_iff_ne_none] at hc ⊢
      exact hm hc
    · intro c hc
      obtain ⟨c1, hc1, -⟩ := hsim.1 c hc
      exact ⟨c1, hc1⟩
  · intro hraise hrt size hsize
    obtain ⟨hkeep, hnone⟩ := SetCell_circular_keeps hraise
    have hpos : ∀ c, s.cellAt pos = some c →
        ∃ c1, s1.cellAt pos = some c1 ∧ c1.GetText E = c.GetText E := fun c hc =>
      SetCell_circular_pos (reachable_acyclic hs) (reachable_classified hs) hc (hrt c hc) hraise
    have htext : ∀ q, s1.textAt E q = s.textAt E q := by
      intro q
      by_cases hq : q = pos
      · subst hq
        cases hc : s.cellAt q with
        | some c =>
          obtain ⟨c1, hc1, ht⟩ := hpos c hc
          simp only [Sheet.textAt, hc, hc1, ht]
        | none => simp only [Sheet.textAt, hc, hnone hc]
      · exact keepsAt_textAt E (hkeep q hq)
    have hh := reachable_heap hs
    have hh1 := reachable_heap hs1
    have hnn : ∀ e ∈ s.sheet_, e.2 ≠ none := by
      rw [GetPrintableSize_eq] at hsize
      cases hloop : printableLoop E s.sheet_ (false, 0, 0) with
      | none => rw [hloop] at hsize; cases hsize
      | some r => exact printableLoop_nonnull E _ _ _ hloop
    have hnn1 : ∀ e ∈ s1.sheet_, e.2 ≠ none := by
      rintro ⟨q, v⟩ he hv
      simp only at hv
      subst hv
      have hf1 := find_of_mem_nodup hh1.keysNodup he
      by_cases hq : q = pos
      · subst hq
        cases hc : s.cellAt q with
        | some c =>
          obtain ⟨c1, hc1, -⟩ := hpos c hc
          rw [find_of_cellAt hc1] at hf1
          cases hf1
        | none =>
          rw [SetCell_circular_unmapped hc hraise] at hf1
          cases hf1
      · have hf := (mapsKept_SetCell hst q hq).2 hf1
        exact hnn (q, none) (find_mem hf) rfl
    have hsize1 := size_congr hh.keysNodup hh1.keysNodup hnn1 htext hsize
    refine ⟨hsize1, ?_⟩
    obtain ⟨R, C⟩ := size
    rw [PrintTexts_spec hh.keysValid hsize, PrintTexts_spec hh1.keysValid hsize1,
      textLines_congr E htext]

set_option maxRecDepth 100000 in
/-- Witness for C26: the rejected `Set(M6, "=E2")` of the circular-reference
test leaves the texts, the printable size (9, 24) and the printed texts as they
were. -/
theorem set_frame_witness :
    Sheet.run stdEnv Sheet.empty chainCalls = some chainSheet ∧
    chainSheet.SetCell stdEnv (posOf "M6") "=E2" =
      Outcome.raised Exception.CircularDependencyException chainRejected ∧
    chainSheet.GetPrintableSize stdEnv = some { rows := 9, cols := 24 } ∧
    (∀ q, q ≠ posOf "M6" →
      chainRejected.textAt stdEnv q = chainSheet.textAt stdEnv q ∧
      (chainSheet.count q = true → chainRejected.count q = true) ∧
      (∀ c, chainSheet.cellAt q = some c → ∃ c1, chainRejected.cellAt q = some c1)) ∧
    (chainRejected.GetPrintableSize stdEnv = some { rows := 9, cols := 24 } ∧
      chainRejected.PrintTexts stdEnv = chainSheet.PrintTexts stdEnv) :=
  ⟨by decide, by decide, by decide,
   (set_frame stdEnv chainCalls chainSheet (by decide) (posOf "M6") "=E2" chainRejected
      (Or.inr (by decide))).1,
   (set_frame stdEnv chainCalls chainSheet (by decide) (posOf "M6") "=E2" chainRejected
      (Or.inr (by decide))).2 (by decide)
      (fun old hold => by
        have h6 : chainSheet.cellAt (posOf "M6") =
            some (Cell.mk 6 (Impl.TextImpl "Ready") []) := by
          decide
        rw [h6] at hold
        cases hold
        intro _ _ _ h
        cases h)
      (Size.mk 9 24) (by decide)⟩

/-- Invalidation covers the dependent sets that the sheet stores: on a sheet
that calls produce from the empty sheet, after a `Set(pos, text)` that
completes and does not take the identical-text early return, every cell whose
address is reachable from the new cell at `pos` through the stored
`dependent_cells_` has no cached value when `Set` returns. The stored sets can
miss cells that reference `pos` (`replaced_cell_edges_not_updated`), and those
cells keep their caches. -/
theorem invalidation_covers_stored_dependents (E : Env) (calls : List Call) (s : Sheet)
    (hrun : Sheet.run E Sheet.empty calls = some s) (pos : Position) (text : String)
    (s1 : Sheet) (hset : s.SetCell E pos text = Outcome.ok () s1)
    (hnew : ∀ old, s.GetCell pos = Outcome.ok (some old) s → old.GetText E ≠ text) :
    ∃ c, s1.GetCell pos = Outcome.ok (some c) s1 ∧
      ∀ q d, s1.GetCell q = Outcome.ok (some d) s1 →
        Relation.ReflTransGen s1.DepEdge c.addr d.addr →
        ∀ t f ch, d.impl_ = Impl.FormulaImpl t f ch → ch = none := by
  have hs : Reachable E s := reachable_of_run E calls _ _ Reachable.empty hrun
  have hs1 : Reachable E s1 :=
    Reachable.step s (Call.Set pos text) s1 hs (by simp only [Sheet.call, hset]; rfl)
  have hh := reachable_heap hs
  have hh1 := reachable_heap hs1
  have hfin : ∀ d : Cell, d.CacheCleared → ∀ t f ch, d.impl_ = Impl.FormulaImpl t f ch →
      ch = none := by
    intro d hd t f ch hi
    unfold Cell.CacheCleared at hd
    rw [hi] at hd
    simp only [Impl.InvalidateCache, Impl.FormulaImpl.injEq, true_and] at hd
    exact hd.symm
  obtain ⟨hv, h1 | ⟨-, c, hc1, hcl, haddr, hdeps, -⟩⟩ := SetCell_ok hset
  · obtain ⟨old, hold, htext, -⟩ := h1
    exact absurd htext (hnew old (GetCell_of_cellAt hv hold))
  · have hcc : c.CacheCleared := cacheCleared_of_classify hcl
    refine ⟨c, GetCell_of_cellAt hv hc1, ?_⟩
    intro q d hqd hreach
    obtain ⟨-, hd⟩ := GetCell_some hqd
    apply hfin d
    cases hold : s.cellAt pos with
    | none =>
      rw [hold] at hdeps
      simp only [Option.map_none', Option.getD_none] at hdeps
      have hall : ∀ b, Relation.ReflTransGen s1.DepEdge c.addr b → b = c.addr := by
        intro b hb
        induction hb with
        | refl => rfl
        | tail _ hedge ih =>
          obtain ⟨p, ca, hca, hab, hy⟩ := hedge
          rw [ih] at hab
          have hp := hh1.addrInj p pos ca c hca hc1 hab
          subst hp
          rw [hc1] at hca
          cases hca
          rw [hdeps] at hy
          simp at hy
      have hq := hh1.addrInj q pos d c hd hc1 (hall _ hreach)
      subst hq
      rw [hc1] at hd
      cases hd
      exact hcc
    | some old =>
      rw [hold] at hdeps
      simp only [Option.map_some', Option.getD_some] at hdeps
      have hne : old.GetText E ≠ text := hnew old (GetCell_of_cellAt hv hold)
      rw [SetCell_replace hv hold hne] at hset
      obtain ⟨V, haV, hcV, hother⟩ := replaceCell_cleared hh hold hset
      have hall : ∀ b, Relation.ReflTransGen s1.DepEdge c.addr b → b = c.addr ∨ b ∈ V := by
        intro b hb
        induction hb with
        | refl => exact Or.inl rfl
        | tail _ hedge ih =>
          right
          obtain ⟨p, ca, hca, hab, hy⟩ := hedge
          by_cases hp : p = pos
          · subst hp
            rw [hc1] at hca
            cases hca
            rw [hdeps] at hy
            exact hcV old.addr haV old (deref_of_cellAt hh hold) _ hy
          · rcases hother p ca hp hca with ⟨-, hde⟩ | ⟨c0, hc0, hca0⟩
            · rw [hde] at hy
              simp at hy
            · have ha0 : ca.addr = c0.addr := by
                rw [hca0]; split <;> rfl
              have hd0 : ca.dependent_cells_ = c0.dependent_cells_ := by
                rw [hca0]; split <;> rfl
              have hbV : c0.addr ∈ V := by
                rcases ih with ih | ih
                · exfalso
                  have := (hh.fresh p c0 hc0).1
                  rw [← ha0, hab, ih, haddr] at this
                  exact Nat.lt_irrefl _ this
                · rw [← ha0, hab]; exact ih
              rw [hd0] at hy
              exact hcV c0.addr hbV c0 (deref_of_cellAt hh hc0) _ hy
      by_cases hq : q = pos
      · subst hq
        rw [hc1] at hd
        cases hd
        exact hcc
      · rcases hother q d hq hd with ⟨hi, -⟩ | ⟨c0, hc0, hd0⟩
        · unfold Cell.CacheCleared
          rw [hi]
          rfl
        · have ha0 : d.addr = c0.addr := by
            rw [hd0]; split <;> rfl
          have hbV : c0.addr ∈ V := by
            rcases hall _ hreach with h0 | h0
            · exfalso
              have := (hh.fresh q c0 hc0).1
              rw [← ha0, h0, haddr] at this
              exact Nat.lt_irrefl _ this
            · rw [← ha0]; exact h0
          rw [hd0]
          simp only [hbV, if_true]
          exact cacheCleared_dropCache c0

set_option maxRecDepth 100000 in
/-- An instance of `invalidation_covers_stored_dependents`: with `A1 = "1"`,
`B1 = "=A1"`, `C1 = "=B1"` and the values of `B1` and `C1` cached, `Set(A1, "2")`
leaves both caches empty. -/
theorem invalidation_covers_stored_dependents_example :
    Sheet.run stdEnv Sheet.empty cachedChainCalls = some cachedChainSheet ∧
    (cachedChainSheet.cellAt (posOf "C1")).map Cell.impl_ =
      some (Impl.FormulaImpl "B1" (AST.Ref (posOf "B1")) (some (Value.number 1))) ∧
    cachedChainSheet.SetCell stdEnv (posOf "A1") "2" = Outcome.ok () cachedChainSet ∧
    (∃ c, cachedChainSet.GetCell (posOf "A1") = Outcome.ok (some c) cachedChainSet ∧
      ∀ q d, cachedChainSet.GetCell q = Outcome.ok (some d) cachedChainSet →
        Relation.ReflTransGen cachedChainSet.DepEdge c.addr d.addr →
        ∀ t f ch, d.impl_ = Impl.FormulaImpl t f ch → ch = none) ∧
    cachedChainSet.cellAt (posOf "A1") = some (Cell.mk 3 (Impl.TextImpl "2") [1]) ∧
    cachedChainSet.cellAt (posOf "B1") =
      some (Cell.mk 1 (Impl.FormulaImpl "A1" (AST.Ref (posOf "A1")) none) [2]) ∧
    cachedChainSet.cellAt (posOf "C1") =
      some (Cell.mk 2 (Impl.FormulaImpl "B1" (AST.Ref (posOf "B1")) none) []) :=
  ⟨by decide, by decide, by decide,
   invalidation_covers_stored_dependents stdEnv cachedChainCalls cachedChainSheet (by decide) (posOf "A1") "2"
     cachedChainSet (by decide)
     (by
       intro old h
       have h0 : cachedChainSheet.GetCell (posOf "A1") =
           Outcome.ok (some (Cell.mk 0 (Impl.TextImpl "1") [1])) cachedChainSheet := by
         decide
       rw [h0] at h
       cases h
       decide),
   by decide, by decide, by decide⟩

/-- C24. On every sheet that `Set`, `Clear` and `GetValue` calls produce from the
empty sheet the dependent relation between stored cells is acyclic: no address
reaches itself through one or more dependent sets. Hence the recursion of
`InvalidateCache`, started through any pointer, is never deeper than the number
of entries of the map plus one: with that bound or any larger one it does not
run out of depth (it ends normally, unless it meets a dangling pointer, which
is undefined behaviour and not an unbounded recursion). -/
theorem dependents_acyclic (E : Env) (calls : List Call) (s : Sheet)
    (hrun : Sheet.run E Sheet.empty calls = some s) :
    (∀ a, ¬ Relation.TransGen s.DepEdge a a) ∧
    ∀ a depth, invDepth s.sheet_ ≤ depth →
      InvalidateCache depth s.sheet_ a ≠ InvResult.diverge := by
  have hs : Reachable E s := reachable_of_run E calls _ _ Reachable.empty hrun
  have hh := reachable_heap hs
  have hac := depEdge_acyclic hh (reachable_acyclic hs)
  refine ⟨hac, ?_⟩
  intro a depth hd
  apply InvalidateCache_total hh hac depth [] s.sheet_ a rfl List.nodup_nil
  · intro x hx; simp at hx
  · intro x hx; simp at hx
  · simp only [List.length_nil, Nat.zero_add]
    exact hd

set_option maxRecDepth 100000 in
/-- Witness for C24: on the sheet with `A1 = "1"`, `B1 = "=A1"`, `C1 = "=B1"` the
cell of `A1` has the cell of `B1` as dependent, which has the cell of `C1`;
`InvalidateCache` through the pointer to the cell of `A1` ends within the
bound. -/
theorem dependents_acyclic_witness :
    Sheet.run stdEnv Sheet.empty cachedChainCalls = some cachedChainSheet ∧
    (cachedChainSheet.cellAt (posOf "A1")).map Cell.GetDependentCells = some [1] ∧
    (cachedChainSheet.cellAt (posOf "B1")).map Cell.GetDependentCells = some [2] ∧
    invDepth cachedChainSheet.sheet_ = 4 ∧
    InvalidateCache 4 cachedChainSheet.sheet_ 0 ≠ InvResult.diverge ∧
    (∀ a, ¬ Relation.TransGen cachedChainSheet.DepEdge a a) :=
  ⟨by decide, by decide, by decide, by decide,
   (dependents_acyclic stdEnv cachedChainCalls cachedChainSheet (by decide)).2 0 4 (by decide),
   (dependents_acyclic stdEnv cachedChainCalls cachedChainSheet (by decide)).1⟩

set_option maxRecDepth 100000 in
/-- C16, failing input. After `A1 = "=B1"`, `Clear(B1)` and `GetValue(A1)` the
formula cell at `A1` has the cached value 0 and no cell is at `B1`. Then
`Set(B1, "5")` completes and stores a new Text cell at `B1`, yet the cell at
`A1`, whose formula references `B1`, still has its cached 0 when `Set` returns,
while its formula now evaluates to 5. Likewise after `A2 = "5"`, `A2 = "=B1"`,
`GetValue(A2)`: `Set(B1, "7")` replaces the `Empty` cell at `B1`, completes, and
leaves the cached 0 in the cell at `A2`, which references `B1`. In both cases
the dependent set of the cell at `B1` is empty. -/
theorem set_leaves_cache_of_referencing_cell :
    (Sheet.run stdEnv Sheet.empty cachedRefCalls = some cachedRefSheet ∧
     cachedRefSheet.GetCell (posOf "B1") = Outcome.ok none cachedRefSheet ∧
     cachedRefSheet.SetCell stdEnv (posOf "B1") "5" = Outcome.ok () cachedRefSet ∧
     cachedRefSet.cellAt (posOf "B1") = some (Cell.mk 2 (Impl.TextImpl "5") []) ∧
     cachedRefSet.cellAt (posOf "A1") =
       some (Cell.mk 0 (Impl.FormulaImpl "B1" (AST.Ref (posOf "B1"))
         (some (Value.number 0))) []) ∧
     (AST.Ref (posOf "B1")).GetReferencedCells = [posOf "B1"] ∧
     cachedRefSet.GetValue stdEnv (posOf "A1") =
       Outcome.ok (some (Value.number 0)) cachedRefSet ∧
     (cachedRefSet.Evaluate stdEnv (AST.Ref (posOf "B1"))).map Prod.fst =
       some (some (Value.number 5))) ∧
    (Sheet.run stdEnv Sheet.empty (staleCalls.take 3) = some staleBefore ∧
     staleBefore.cellAt (posOf "B1") = some (Cell.mk 2 Impl.EmptyImpl []) ∧
     staleBefore.SetCell stdEnv (posOf "B1") "7" = Outcome.ok () staleSheet ∧
     staleSheet.cellAt (posOf "B1") = some (Cell.mk 3 (Impl.TextImpl "7") []) ∧
     staleSheet.cellAt (posOf "A2") =
       some (Cell.mk 1 (Impl.FormulaImpl "B1" (AST.Ref (posOf "B1"))
         (some (Value.number 0))) [])) := by
  decide

end Spreadsheet
